import Mathlib

/-!
Mini-Compiler: a shallow embedding of `src/main.cpp`.

The C++ program is a single translation unit with five phases: `tokenize`,
`generateExpressionCode` / `parse`, `optimizeCode`, `generateAssembly` and the
driver `main`.  Strings are modelled as lists of characters, the process-wide
globals (`symbolTable`, `intermediateCode`, `tempCount`, `valueMap`, `tempMap`)
as fields of an explicit state record, and every operation that can fault in
C++ (reading a vector past its end, `stoi` throwing, integer division by zero,
`substr` throwing) returns an explicit fault.
-/

namespace MiniCompiler

/-- A `std::string`, as the list of its characters. -/
abbrev Str := List Char

/-! ## Library functions used by the source -/

/-- C `isspace` in the "C" locale: space, `\t`, `\n`, `\v`, `\f`, `\r`. -/
def isspace (c : Char) : Bool :=
  c = ' ' || c = '\t' || c = '\n' || c = '\x0b' || c = '\x0c' || c = '\r'

/-- C `isdigit`: the ten ASCII digits. -/
def isdigit (c : Char) : Bool :=
  decide (48 ≤ c.toNat) && decide (c.toNat ≤ 57)

/-- Model of `s[i]` on a `std::string` for `i ≤ s.size()`: the character at `i`, and the
terminating NUL at `i = s.size()`. -/
def charAt (s : Str) (i : Nat) : Char :=
  s.getD i '\x00'

/-- Ways in which the C++ program can leave its defined behaviour or abort. -/
inductive Fault where
  /-- Read of `tokens[index]` with `index ≥ tokens.size()`, or `substr(pos)` with `pos > size()` -/
  | outOfRange
  /-- Thrown when `std::stoi` found no digits (`std::invalid_argument`) -/
  | invalidArgument
  /-- Thrown when the `std::stoi` result does not fit an `int` (`std::out_of_range`) -/
  | stoiOutOfRange
  /-- integer division by zero -/
  | divideByZero
  /-- the recursion budget of the model ran out (never happens with the budget the callers pass) -/
  | fuelExhausted
deriving DecidableEq, Repr

instance instDecidableEqExcept {ε α : Type} [DecidableEq ε] [DecidableEq α] :
    DecidableEq (Except ε α)
  | .ok a, .ok b =>
    if h : a = b then isTrue (congrArg Except.ok h)
    else isFalse (fun h1 => h (Except.ok.inj h1))
  | .error a, .error b =>
    if h : a = b then isTrue (congrArg Except.error h)
    else isFalse (fun h1 => h (Except.error.inj h1))
  | .ok _, .error _ => isFalse (fun h => Except.noConfusion h)
  | .error _, .ok _ => isFalse (fun h => Except.noConfusion h)

/-- The constant `INT_MAX` for a 32-bit `int`. -/
def INT_MAX : Int := 2147483647

/-- The constant `INT_MIN` for a 32-bit `int`. -/
def INT_MIN : Int := -2147483648

/-- Two's-complement wrap-around of a mathematical integer into a 32-bit `int`. -/
def wrapInt (x : Int) : Int :=
  (x + 2147483648) % 4294967296 - 2147483648

/-- The value of a run of decimal digits, most significant first. -/
def digitsValue (ds : Str) : Nat :=
  ds.foldl (fun acc c => 10 * acc + (c.toNat - 48)) 0

/-- Model of `std::stoi(s)` (base 10): skip leading whitespace, read an optional sign and
the longest run of digits; throw when there is no digit or the value does not
fit an `int`. -/
def stoi (s : Str) : Except Fault Int :=
  let s1 := s.dropWhile isspace
  let signed : Bool × Str :=
    match s1 with
    | '-' :: r => (true, r)
    | '+' :: r => (false, r)
    | _ => (false, s1)
  let ds := signed.2.takeWhile isdigit
  if ds = [] then .error .invalidArgument
  else
    let v : Int := if signed.1 then -(digitsValue ds : Int) else (digitsValue ds : Int)
    if v < INT_MIN ∨ INT_MAX < v then .error .stoiOutOfRange else .ok v

/-- Model of `std::to_string(int)`: decimal digits, with a leading `-` for negatives. -/
def to_string (i : Int) : Str :=
  if i < 0 then '-' :: Nat.toDigits 10 i.natAbs else Nat.toDigits 10 i.natAbs

/-- Model of `s.find(pat)`: the first position at which `pat` occurs in `s`, if any. -/
def find (pat : Str) : Str → Option Nat
  | [] => if pat.isPrefixOf [] then some 0 else none
  | c :: cs => if pat.isPrefixOf (c :: cs) then some 0 else (find pat cs).map (· + 1)

/-- Model of `s.substr(pos)`: the tail from `pos`; throws when `pos > s.size()`. -/
def substrFrom (s : Str) (pos : Nat) : Except Fault Str :=
  if pos ≤ s.length then .ok (s.drop pos) else .error .outOfRange

/-! ## Tokens (lines 10-31) -/

/-- The source `enum TokenType`. -/
inductive TokenType where
  | KEYWORD | IDENTIFIER | OPERATOR | NUMBER | UNKNOWN
deriving DecidableEq, Repr

/-- The source `struct Token`. -/
structure Token where
  type : TokenType
  value : Str
deriving DecidableEq, Repr

/-- The global `keywords` set. -/
def keywords : List Str :=
  ["def".toList, "let".toList, "print".toList, "if".toList, "end".toList]

/-- The global `operators` set (of one-character strings). -/
def operators : List Str :=
  ["+".toList, "-".toList, "*".toList, "/".toList, "^".toList, "=".toList,
   "(".toList, ")".toList, ",".toList]

/-! ## Lexer (lines 34-80) -/

/-- The test `keywords.count(s)`. -/
def isKeyword (s : Str) : Bool :=
  keywords.contains s

/-- The test `operators.count(s)`. -/
def isOperator (s : Str) : Bool :=
  operators.contains s

/-- The test `operators.count(string(1, c))` of line 52. -/
def isOperatorChar (c : Char) : Bool :=
  isOperator [c]

/-- The classification of a non-empty buffer; the source repeats this
three-way test verbatim at lines 43-49, 54-60 and 70-76. -/
def classify (buffer : Str) : Token :=
  if isKeyword buffer then ⟨.KEYWORD, buffer⟩
  else if isdigit (charAt buffer 0) then ⟨.NUMBER, buffer⟩
  else ⟨.IDENTIFIER, buffer⟩

/-- The `for` loop of `tokenize` over the remaining characters, threading the
local variables `tokens` and `buffer`. -/
def tokenizeLoop : Str → List Token → Str → List Token × Str
  | [], tokens, buffer => (tokens, buffer)
  | c :: rest, tokens, buffer =>
    if isspace c then
      if buffer ≠ [] then tokenizeLoop rest (tokens ++ [classify buffer]) []
      else tokenizeLoop rest tokens buffer
    else if isOperatorChar c then
      if buffer ≠ [] then
        tokenizeLoop rest (tokens ++ [classify buffer] ++ [⟨.OPERATOR, [c]⟩]) []
      else tokenizeLoop rest (tokens ++ [⟨.OPERATOR, [c]⟩]) buffer
    else tokenizeLoop rest tokens (buffer ++ [c])

/-- The source function `vector<Token> tokenize(const string& code)`. -/
def tokenize (code : Str) : List Token :=
  let r := tokenizeLoop code [] []
  if r.2 ≠ [] then r.1 ++ [classify r.2] else r.1

/-! ## Global state of the parser (lines 19-27) -/

/-- The globals written by `parse` and `generateExpressionCode`, together with
the cursor `index` that `parse` owns and passes by reference.  `symbolTable`
is a set and the two maps are association lists (latest binding first). -/
structure State where
  index : Nat
  symbolTable : List Str
  intermediateCode : List Str
  tempCount : Nat
  valueMap : List (Str × Str)
  tempMap : List (Str × Str)
deriving DecidableEq, Repr

/-- The globals at program start: empty containers, `tempCount = 1`, cursor 0. -/
def State.init : State :=
  { index := 0, symbolTable := [], intermediateCode := [], tempCount := 1,
    valueMap := [], tempMap := [] }

/-- Model of `unordered_set::insert`. -/
def setInsert (s : List Str) (x : Str) : List Str :=
  if x ∈ s then s else x :: s

/-- Model of `m[k] = v` on a `std::map`. -/
def mapSet (m : List (Str × Str)) (k v : Str) : List (Str × Str) :=
  (k, v) :: m

/-- Model of `m.find(k)` on a `std::map`: the latest binding of `k`, if any. -/
def mapFind : List (Str × Str) → Str → Option Str
  | [], _ => none
  | (k1, v) :: rest, k => if k = k1 then some v else mapFind rest k

/-- Model of `m.count(k)` on a `std::map`, as a test. -/
def mapHas (m : List (Str × Str)) (k : Str) : Bool :=
  (mapFind m k).isSome

/-- Model of `m[k]` on a `std::map` (the empty string when `k` is absent). -/
def mapGet (m : List (Str × Str)) (k : Str) : Str :=
  (mapFind m k).getD []

/-! ## Expression builder (lines 83-129) -/

/-- The source function `string getTempVar()`: the name `t<tempCount>` and the incremented counter. -/
def getTempVar (st : State) : Str × State :=
  ('t' :: to_string (st.tempCount : Int), { st with tempCount := st.tempCount + 1 })

/-- Lines 111-115: the folded value `res`, initialised to 0 and left there for
an operator that is none of `+ - * /`. -/
def foldArith (op : Str) (leftVal rightVal : Int) : Except Fault Int :=
  if op = "+".toList then .ok (wrapInt (leftVal + rightVal))
  else if op = "-".toList then .ok (wrapInt (leftVal - rightVal))
  else if op = "*".toList then .ok (wrapInt (leftVal * rightVal))
  else if op = "/".toList then
    if rightVal = 0 then .error .divideByZero else .ok (wrapInt (leftVal.tdiv rightVal))
  else .ok 0

/-- Lines 106-125: the body of the `while` loop after `right` has been
computed: constant folding, or a fresh temporary and a new instruction. -/
def combine (op result right : Str) (st : State) : Except Fault (Str × State) :=
  if isdigit (charAt result 0) && isdigit (charAt right 0) then
    match stoi result with
    | .error f => .error f
    | .ok leftVal =>
      match stoi right with
      | .error f => .error f
      | .ok rightVal =>
        match foldArith op leftVal rightVal with
        | .error f => .error f
        | .ok res => .ok (to_string res, st)
  else
    let tv := getTempVar st
    let rhs := result ++ " ".toList ++ op ++ " ".toList ++ right
    .ok (tv.1, { tv.2 with
      intermediateCode := tv.2.intermediateCode ++ [tv.1 ++ " = ".toList ++ rhs],
      tempMap := mapSet tv.2.tempMap tv.1 rhs })

mutual
/-- The source function `string generateExpressionCode(const vector<Token>& tokens, size_t& index)`;
the first argument bounds the depth of the calls (one unit per call of the
function and per iteration of its loop; `2 * (tokens.size() - index) + 1` is
enough, see `generateExpressionCode_fuel`). -/
def generateExpressionCode : Nat → List Token → State → Except Fault (Str × State)
  | 0, _, _ => .error .fuelExhausted
  | fuel + 1, tokens, st =>
    if st.index < tokens.length ∧ (tokens[st.index]?.map Token.value) = some "(".toList then
      match generateExpressionCode fuel tokens { st with index := st.index + 1 } with
      | .error f => .error f
      | .ok (result, st1) =>
        exprLoop fuel tokens result { st1 with index := st1.index + 1 }
    else
      match tokens[st.index]? with
      | none => .error .outOfRange
      | some tok =>
        if tok.type = .IDENTIFIER ∨ tok.type = .NUMBER then
          exprLoop fuel tokens tok.value { st with index := st.index + 1 }
        else exprLoop fuel tokens [] st
/-- The `while` loop of `generateExpressionCode` (lines 100-126), with the
current value of the local `result`. -/
def exprLoop : Nat → List Token → Str → State → Except Fault (Str × State)
  | 0, _, _, _ => .error .fuelExhausted
  | fuel + 1, tokens, result, st =>
    match tokens[st.index]? with
    | none => .ok (result, st)
    | some tok =>
      if tok.type = .OPERATOR then
        match generateExpressionCode fuel tokens { st with index := st.index + 1 } with
        | .error f => .error f
        | .ok (right, st1) =>
          match combine tok.value result right st1 with
          | .error f => .error f
          | .ok (result1, st2) => exprLoop fuel tokens result1 st2
      else .ok (result, st)
end

/-! ## Statement parser (lines 132-191) -/

/-- The diagnostics `parse` prints before returning `false`: the first, second,
fourth and fifth are the "Syntax Error" messages, the third the
"Semantic Error" message. -/
inductive ParseError where
  /-- Message "Syntax Error: Missing '=' after variable declaration." -/
  | missingAssign
  /-- Message "Syntax Error: Missing variable name in declaration." -/
  | missingName
  /-- Message "Semantic Error: Variable '<varName>' used before declaration in print." -/
  | undeclared (varName : Str)
  /-- Message "Syntax Error: Invalid print statement." -/
  | invalidPrint
  /-- Message "Syntax Error at token: <value>" -/
  | unexpectedToken (value : Str)
deriving DecidableEq, Repr

/-- How a run of `parse` (or of one iteration of its loop) ends: it goes on /
returns `true`, it returns `false` after a diagnostic, or the program faults.
The first two carry the globals at that moment. -/
inductive Outcome where
  | ok (st : State)
  | failed (e : ParseError) (st : State)
  | crashed (f : Fault)
deriving DecidableEq, Repr

/-- Lines 141-161: the `let` statement, entered with the cursor just past the
keyword. -/
def parseLet (tokens : List Token) (st : State) : Outcome :=
  match tokens[st.index]? with
  | none => .failed .missingName st
  | some nameTok =>
    if nameTok.type = .IDENTIFIER then
      let varName := nameTok.value
      let st1 : State :=
        { st with symbolTable := setInsert st.symbolTable varName, index := st.index + 1 }
      match tokens[st1.index]? with
      | none => .failed .missingAssign st1
      | some eqTok =>
        if eqTok.type = .OPERATOR ∧ eqTok.value = "=".toList then
          match generateExpressionCode (2 * tokens.length + 1) tokens
              { st1 with index := st1.index + 1 } with
          | .error f => .crashed f
          | .ok (result, st2) =>
            .ok { st2 with
              intermediateCode := st2.intermediateCode ++ [varName ++ " = ".toList ++ result],
              valueMap := mapSet st2.valueMap varName result }
        else .failed .missingAssign st1
    else .failed .missingName st

/-- Lines 164-178: the `print` statement, entered with the cursor just past the
keyword. -/
def parsePrint (tokens : List Token) (st : State) : Outcome :=
  match tokens[st.index]? with
  | none => .failed .invalidPrint st
  | some nameTok =>
    if nameTok.type = .IDENTIFIER then
      let varName := nameTok.value
      if varName ∉ st.symbolTable then .failed (.undeclared varName) st
      else
        .ok { st with
          intermediateCode := st.intermediateCode ++ ["print ".toList ++ varName],
          index := st.index + 1 }
    else .failed .invalidPrint st

/-- One iteration of the `while` loop of `parse` (lines 136-187), entered with
`index < tokens.size()`. -/
def parseStatement (tokens : List Token) (st : State) : Outcome :=
  match tokens[st.index]? with
  | none => .crashed .outOfRange
  | some tok =>
    if tok.type = .KEYWORD then
      let keyword := tok.value
      let st1 : State := { st with index := st.index + 1 }
      if keyword = "let".toList then parseLet tokens st1
      else if keyword = "print".toList then parsePrint tokens st1
      else if keyword = "end".toList then .ok st1
      else .ok st1
    else .failed (.unexpectedToken tok.value) st

/-- The `while (index < tokens.size())` loop of `parse`; the first argument
bounds the number of iterations. -/
def parseLoop : Nat → List Token → State → Outcome
  | 0, tokens, st =>
    if st.index < tokens.length then .crashed .fuelExhausted else .ok st
  | fuel + 1, tokens, st =>
    if st.index < tokens.length then
      match parseStatement tokens st with
      | .ok st1 => parseLoop fuel tokens st1
      | .failed e st1 => .failed e st1
      | .crashed f => .crashed f
    else .ok st

/-- The source function `bool parse(const vector<Token>& tokens)`, run on the globals `g`: the
cursor starts at 0; `Outcome.ok` is `return true`, `Outcome.failed` is
`return false`. -/
def parse (tokens : List Token) (g : State) : Outcome :=
  parseLoop tokens.length tokens { g with index := 0 }

/-! ## Optimizer (lines 194-218) -/

/-- The test of line 209, `lhs[0] == 't' && isdigit(lhs[1])`. -/
def isTempName (lhs : Str) : Bool :=
  charAt lhs 0 = 't' && isdigit (charAt lhs 1)

/-- The `for` loop of `optimizeCode` over the remaining lines, threading the
local `varMap` and the global `optimizedCode`. -/
def optimizeLoop : List Str → List (Str × Str) → List Str → List Str
  | [], _, optimizedCode => optimizedCode
  | line :: rest, varMap, optimizedCode =>
    match find " = ".toList line with
    | some pos =>
      let lhs := line.take pos
      let rhs0 := line.drop (pos + 3)
      let rhs := if mapHas varMap rhs0 then mapGet varMap rhs0 else rhs0
      let varMap1 := mapSet varMap lhs rhs
      if isTempName lhs then optimizeLoop rest varMap1 optimizedCode
      else optimizeLoop rest varMap1 (optimizedCode ++ [lhs ++ " = ".toList ++ rhs])
    | none => optimizeLoop rest varMap (optimizedCode ++ [line])

/-- The source function `void optimizeCode()`, as a function from `intermediateCode` to the
`optimizedCode` it builds from an empty vector. -/
def optimizeCode (intermediateCode : List Str) : List Str :=
  optimizeLoop intermediateCode [] []

/-! ## Backend emitter (lines 221-248) -/

/-- The lines `generateAssembly` prints for one instruction (lines 225-246). -/
def assembleLine (line : Str) : Except Fault (List Str) :=
  match find " = ".toList line with
  | some pos =>
    let lhs := line.take pos
    let rhs := line.drop (pos + 3)
    match find " + ".toList rhs with
    | some opPos =>
      let left := rhs.take opPos
      let right := rhs.drop (opPos + 3)
      .ok ["mov r0, ".toList ++ left, "mov r1, ".toList ++ right, "add r0, r1".toList,
           "str r0, ".toList ++ lhs]
    | none => .ok ["mov ".toList ++ lhs ++ ", ".toList ++ rhs]
  | none =>
    match find "print".toList line with
    | some _ =>
      match substrFrom line 6 with
      | .error f => .error f
      | .ok var => .ok ["print ".toList ++ var]
    | none => .ok []

/-- The source function `void generateAssembly()`: the lines printed after the banner, in order. -/
def generateAssembly : List Str → Except Fault (List Str)
  | [] => .ok []
  | line :: rest =>
    match assembleLine line with
    | .error f => .error f
    | .ok ls =>
      match generateAssembly rest with
      | .error f => .error f
      | .ok more => .ok (ls ++ more)

/-! ## Driver (lines 251-286) -/

/-- What a run of the driver produces after the token listing. -/
inductive Compiled where
  /-- Case `parse` returned `true`: the optimized code and the assembly listing -/
  | done (optimizedCode assembly : List Str)
  /-- Case `parse` returned `false` after the diagnostic `e` -/
  | rejected (e : ParseError)
  /-- the program faulted -/
  | aborted (f : Fault)
deriving DecidableEq, Repr

/-- The body of `main` with the source text as a parameter: tokenize, parse on
fresh globals, then optimize and emit when the parse succeeded. -/
def compile (code : Str) : Compiled :=
  match parse (tokenize code) State.init with
  | .ok st =>
    let optimizedCode := optimizeCode st.intermediateCode
    match generateAssembly optimizedCode with
    | .ok assembly => .done optimizedCode assembly
    | .error f => .aborted f
  | .failed e _ => .rejected e
  | .crashed f => .aborted f

/-- The raw string literal of lines 252-257. -/
def referenceProgram : Str :=
  "\n        let x = 10\n        let y = 20\n        let z = x + y\n        print z\n    ".toList

/-- The source function `int main()`. -/
def main : Compiled :=
  compile referenceProgram

/-! ## Specification-side definitions for the lexer claims -/

/-- A character that the lexer puts into the buffer: neither whitespace nor an
operator character. -/
def isBufferChar (c : Char) : Bool :=
  !isspace c && !isOperatorChar c

/-- The kind a token text determines, read off the text alone. -/
def kindOf (text : Str) : TokenType :=
  if isOperator text then .OPERATOR
  else if isKeyword text then .KEYWORD
  else if isdigit (charAt text 0) then .NUMBER
  else .IDENTIFIER

/-- The concatenation of the texts of a token list. -/
def tokenTexts (tokens : List Token) : Str :=
  (tokens.map Token.value).flatten

/-- The texts of the Operator tokens of a token list, in order. -/
def operatorTexts (tokens : List Token) : List Str :=
  (tokens.filter (fun t => decide (t.type = .OPERATOR))).map Token.value

/-- An ASCII letter. -/
def isLetter (c : Char) : Bool :=
  (decide (65 ≤ c.toNat) && decide (c.toNat ≤ 90)) ||
  (decide (97 ≤ c.toNat) && decide (c.toNat ≤ 122))

/-! ## Specification-side definitions for the constant-folding claims -/

/-- The number a Number token text denotes: the value of its leading digits. -/
def numeralValue (txt : Str) : Nat :=
  digitsValue (txt.takeWhile isdigit)

/-- The integer operation an arithmetic operator `+ - * /` denotes, with
truncating division. -/
def applyOp (op : Str) (a b : Int) : Int :=
  if op = "+".toList then a + b
  else if op = "-".toList then a - b
  else if op = "*".toList then a * b
  else a.tdiv b

/-- The right-nested value `n1 op1 (n2 op2 (... nk))` of a chain given by the
text of its first numeral and the following (operator, numeral) pairs. -/
def chainValue (first : Str) : List (Str × Str) → Int
  | [] => (numeralValue first : Int)
  | (op, m) :: rest => applyOp op (numeralValue first : Int) (chainValue m rest)

/-- The tokens from position `i` on spell the chain: Number tokens (texts
starting with a digit) separated by Operator tokens, followed by the end of
the sequence or by a token that is not an Operator. -/
def ChainAt (tokens : List Token) : Nat → Str → List (Str × Str) → Prop
  | i, first, [] =>
    tokens[i]? = some ⟨.NUMBER, first⟩ ∧ isdigit (charAt first 0) = true ∧
    (tokens[i + 1]?).map Token.type ≠ some .OPERATOR
  | i, first, (op, m) :: rest =>
    tokens[i]? = some ⟨.NUMBER, first⟩ ∧ isdigit (charAt first 0) = true ∧
    tokens[i + 1]? = some ⟨.OPERATOR, op⟩ ∧ ChainAt tokens (i + 2) m rest

/-- No overflow and no division by zero along a chain: every operator is one
of `+ - * /`, every numeral and every intermediate and final value fits an
`int`, and no divisor is zero. -/
def ChainArith (first : Str) : List (Str × Str) → Prop
  | [] => True
  | (op, m) :: rest =>
    op ∈ ["+".toList, "-".toList, "*".toList, "/".toList] ∧
    (numeralValue first : Int) ≤ INT_MAX ∧
    INT_MIN ≤ chainValue m rest ∧ chainValue m rest ≤ INT_MAX ∧
    (op = "/".toList → chainValue m rest ≠ 0) ∧
    INT_MIN ≤ chainValue first ((op, m) :: rest) ∧
    chainValue first ((op, m) :: rest) ≤ INT_MAX ∧
    ChainArith m rest

/-- Every proper suffix `n_i op_i (... n_k)` (`i ≥ 2`) of the chain has a
non-negative value. -/
def SuffixesNonneg : List (Str × Str) → Prop
  | [] => True
  | (_, m) :: rest => 0 ≤ chainValue m rest ∧ SuffixesNonneg rest

instance ChainAt.instDecidable (tokens : List Token) :
    ∀ (rest : List (Str × Str)) (i : Nat) (first : Str), Decidable (ChainAt tokens i first rest)
  | [], i, first =>
    inferInstanceAs (Decidable (tokens[i]? = some ⟨.NUMBER, first⟩ ∧
      isdigit (charAt first 0) = true ∧ (tokens[i + 1]?).map Token.type ≠ some .OPERATOR))
  | (op, m) :: rest, i, first =>
    have := ChainAt.instDecidable tokens rest (i + 2) m
    inferInstanceAs (Decidable (tokens[i]? = some ⟨.NUMBER, first⟩ ∧
      isdigit (charAt first 0) = true ∧ tokens[i + 1]? = some ⟨.OPERATOR, op⟩ ∧
      ChainAt tokens (i + 2) m rest))

instance ChainArith.instDecidable :
    ∀ (rest : List (Str × Str)) (first : Str), Decidable (ChainArith first rest)
  | [], _ => inferInstanceAs (Decidable True)
  | (op, m) :: rest, first =>
    have := ChainArith.instDecidable rest m
    inferInstanceAs (Decidable (
      op ∈ ["+".toList, "-".toList, "*".toList, "/".toList] ∧
      (numeralValue first : Int) ≤ INT_MAX ∧
      INT_MIN ≤ chainValue m rest ∧ chainValue m rest ≤ INT_MAX ∧
      (op = "/".toList → chainValue m rest ≠ 0) ∧
      INT_MIN ≤ chainValue first ((op, m) :: rest) ∧
      chainValue first ((op, m) :: rest) ≤ INT_MAX ∧
      ChainArith m rest))

instance SuffixesNonneg.instDecidable :
    ∀ (rest : List (Str × Str)), Decidable (SuffixesNonneg rest)
  | [] => inferInstanceAs (Decidable True)
  | (_, m) :: rest =>
    have := SuffixesNonneg.instDecidable rest
    inferInstanceAs (Decidable (0 ≤ chainValue m rest ∧ SuffixesNonneg rest))

/-- The text the expression builder returns for a chain: the numeral itself
when there is no operator, else the decimal form of the chain value. -/
def chainText (first : Str) (rest : List (Str × Str)) : Str :=
  match rest with
  | [] => first
  | _ :: _ => to_string (chainValue first rest)

/-! ## Specification-side definitions for the optimizer claims -/

/-- The split `optimizeCode` makes of a line at its first `" = "` (lines
198-201): left-hand side and right-hand side, when the line has one. -/
def assignParts (line : Str) : Option (Str × Str) :=
  (find " = ".toList line).map (fun pos => (line.take pos, line.drop (pos + 3)))

/-- The left-hand side of a line, when it is an assignment. -/
def lhsOf (line : Str) : Option Str :=
  (assignParts line).map Prod.fst

/-- The substitution of lines 203-205: the bound value of `rhs` when `rhs` is
a key of the rewrite map, else `rhs` itself. -/
def substRhs (varMap : List (Str × Str)) (rhs : Str) : Str :=
  if mapHas varMap rhs then mapGet varMap rhs else rhs

/-- The optimizer started with the rewrite map `varMap`, returning the output
lines directly instead of appending them to `optimizedCode`. -/
def optimizeFrom : List (Str × Str) → List Str → List Str
  | _, [] => []
  | varMap, line :: rest =>
    match assignParts line with
    | some (lhs, rhs0) =>
      let rhs := substRhs varMap rhs0
      if isTempName lhs then optimizeFrom (mapSet varMap lhs rhs) rest
      else (lhs ++ " = ".toList ++ rhs) :: optimizeFrom (mapSet varMap lhs rhs) rest
    | none => line :: optimizeFrom varMap rest

/-- No later line assigns the name `r`. -/
def neverAssigned (r : Str) (rest : List Str) : Bool :=
  rest.all (fun line => decide (lhsOf line ≠ some r))

/-- Every whole right-hand side is bound before it is used or never bound:
for each assignment `lhs = rhs` of the list, `rhs` is the left-hand side of an
earlier line (or a member of `bound`), or no later line assigns `rhs`. -/
def boundBeforeUse : List Str → List Str → Bool
  | _, [] => true
  | bound, line :: rest =>
    match assignParts line with
    | some (lhs, rhs) =>
      (bound.contains rhs || neverAssigned rhs rest) && boundBeforeUse (lhs :: bound) rest
    | none => boundBeforeUse bound rest

/-! ## Specification-side definitions for the end-to-end claim -/

/-- The name of the temporary number `c`: `t` followed by the decimal form. -/
def tempName (c : Nat) : Str :=
  't' :: to_string (c : Int)

/-- The lines are temporary assignments `t<c> = ...`, `t<c+1> = ...`, ... in
this order. -/
def TempLines : Nat → List Str → Prop
  | _, [] => True
  | c, line :: rest => (∃ rhs, line = tempName c ++ " = ".toList ++ rhs) ∧ TempLines (c + 1) rest

/-- What a run of the expression builder may change: the cursor does not move
back, the symbol table and the value map are untouched, and the intermediate
code grows by temporary assignments numbered from the old counter on, the
counter growing by their number. -/
structure BuilderStep (st st1 : State) : Prop where
  index_le : st.index ≤ st1.index
  symbolTable_eq : st1.symbolTable = st.symbolTable
  valueMap_eq : st1.valueMap = st.valueMap
  code : ∃ new, st1.intermediateCode = st.intermediateCode ++ new ∧
    st1.tempCount = st.tempCount + new.length ∧ TempLines st.tempCount new

/-- Exactly `n` iterations of the statement loop of `parse`, stopping at the
first one that fails or faults. -/
def parseSteps : Nat → List Token → State → Outcome
  | 0, _, st => .ok st
  | n + 1, tokens, st =>
    match parseStatement tokens st with
    | .ok st1 => parseSteps n tokens st1
    | .failed e st1 => .failed e st1
    | .crashed f => .crashed f

/-- A token as the lexer produces it: an Operator token of one operator
character, or the classification of a non-empty buffer of characters that are
neither whitespace nor operator characters. -/
def LexedToken (t : Token) : Prop :=
  (∃ c, isOperatorChar c = true ∧ t = ⟨.OPERATOR, [c]⟩) ∨
  (t.value ≠ [] ∧ (∀ c ∈ t.value, isBufferChar c = true) ∧ t = classify t.value)

/-- A line of intermediate code whose shape the later phases read back
unambiguously: an assignment whose left-hand side has no blank, or a `print`
of a name made of buffer characters. -/
def GoodLine (line : Str) : Prop :=
  (∃ lhs rhs, line = lhs ++ " = ".toList ++ rhs ∧ ' ' ∉ lhs) ∨
  (∃ v, line = "print ".toList ++ v ∧ ∀ c ∈ v, isBufferChar c = true)

/-- The rewrite map of the optimizer after it has processed the lines, started
from `varMap`. -/
def mapAfter : List (Str × Str) → List Str → List (Str × Str)
  | varMap, [] => varMap
  | varMap, line :: rest =>
    match assignParts line with
    | some (lhs, rhs0) => mapAfter (mapSet varMap lhs (substRhs varMap rhs0)) rest
    | none => mapAfter varMap rest

/-! ## Specification-side definitions: running instruction lists -/

/-- The words of a text: its maximal blank-free pieces between single blanks. -/
def splitBlank : Str → List Str
  | [] => [[]]
  | c :: cs =>
    if c = ' ' then [] :: splitBlank cs
    else
      match splitBlank cs with
      | [] => [[c]]
      | w :: ws => (c :: w) :: ws

/-- The value of a variable in an integer store (0 when it was never assigned). -/
def storeGet : List (Str × Int) → Str → Int
  | [], _ => 0
  | (k, v) :: rest, x => if x = k then v else storeGet rest x

/-- The value of an operand: a numeral denotes itself (a leading `-` negates),
any other name is read from the store. -/
def operandValue (store : List (Str × Int)) (a : Str) : Int :=
  if isdigit (charAt a 0) then (numeralValue a : Int)
  else if charAt a 0 = '-' ∧ isdigit (charAt a 1) = true then -(numeralValue (a.drop 1) : Int)
  else storeGet store a

/-- The value of a right-hand side `a` or `a OP b` over a store. -/
def rhsValue (store : List (Str × Int)) (rhs : Str) : Int :=
  match splitBlank rhs with
  | [a] => operandValue store a
  | [a, op, b] => applyOp op (operandValue store a) (operandValue store b)
  | _ => 0

/-- One instruction executed on a store and the values printed so far:
`v = rhs` assigns, `print v` prints the value of `v`. -/
def runLine (state : List (Str × Int) × List Int) (line : Str) : List (Str × Int) × List Int :=
  match assignParts line with
  | some (lhs, rhs) => ((lhs, rhsValue state.1 rhs) :: state.1, state.2)
  | none =>
    if "print ".toList.isPrefixOf line then (state.1, state.2 ++ [storeGet state.1 (line.drop 6)])
    else state

/-- The sequence of values an instruction list prints when it is executed in
order from the empty store. -/
def runCode (code : List Str) : List Int :=
  (code.foldl runLine ([], [])).2

/-! ## Specification-side definitions for the re-lexing claim -/

/-- The texts joined by single blanks. -/
def joinBlank : List Str → Str
  | [] => []
  | [w] => w
  | w :: w2 :: ws => w ++ ' ' :: joinBlank (w2 :: ws)

/-- The end of `tokenize` (lines 69-79): the flush of the remaining buffer. -/
def finishTokens (r : List Token × Str) : List Token :=
  if r.2 ≠ [] then r.1 ++ [classify r.2] else r.1

/-! ## Specification-side definitions: outcomes and emitted instructions -/

/-- The state in which a run of `parse` ended with `true` or `false` satisfies
`P` (nothing is said of a run that faulted). -/
def Outcome.holds (P : State → Prop) : Outcome → Prop
  | .ok st => P st
  | .failed _ st => P st
  | .crashed _ => True

/-- An instruction of the optimized code, by its parts. -/
inductive Instr where
  | assign (lhs rhs : Str)
  | print (name : Str)
deriving DecidableEq, Repr

/-- The text of an instruction: `lhs = rhs` or `print name`. -/
def Instr.text : Instr → Str
  | .assign lhs rhs => lhs ++ " = ".toList ++ rhs
  | .print name => "print ".toList ++ name

/-- The assembly lines the emitter is to produce for one instruction: the
four-line add pattern when the right-hand side contains ` + ` (split at its
first occurrence), one `mov` for any other assignment, the instruction itself
for a `print`. -/
def emitInstr : Instr → List Str
  | .assign lhs rhs =>
    match find " + ".toList rhs with
    | some p =>
      ["mov r0, ".toList ++ rhs.take p, "mov r1, ".toList ++ rhs.drop (p + 3),
       "add r0, r1".toList, "str r0, ".toList ++ lhs]
    | none => ["mov ".toList ++ lhs ++ ", ".toList ++ rhs]
  | .print name => ["print ".toList ++ name]

/-- An addition assignment: an assignment whose right-hand side contains ` + `. -/
def isAddition : Instr → Bool
  | .assign _ rhs => (find " + ".toList rhs).isSome
  | .print _ => false

/-- The names of an instruction are as the lexer makes identifiers: the
left-hand side of an assignment holds no blank, the name of a `print` is made
of buffer characters. -/
def Instr.named : Instr → Prop
  | .assign lhs _ => ' ' ∉ lhs
  | .print name => ∀ c ∈ name, isBufferChar c = true

/-! ## Specification-side definitions for the numbering of temporaries -/

/-- The instructions the expression builder has appended so far, oldest first.
The builder records each of them in `tempMap` when it appends it (lines
121-123: `intermediateCode.push_back(temp + " = " + rhs)` and
`tempMap[temp] = rhs`), and nothing else writes to `tempMap`. -/
def builderLines (st : State) : List Str :=
  st.tempMap.reverse.map (fun p => p.1 ++ " = ".toList ++ p.2)

/-- The names `t1`, `t2`, ..., `tn`, in this order. -/
def tempNames (n : Nat) : List Str :=
  (List.range n).map (fun i => tempName (i + 1))

/-- The numbering invariant of the globals: with `n` instructions appended by
the builder so far, their left-hand sides are `t1 ... tn` in this order, they
appear in this order in the intermediate code, and the counter is `n + 1`. -/
def Numbered (st : State) : Prop :=
  st.tempCount = st.tempMap.length + 1 ∧
  st.tempMap.reverse.map Prod.fst = tempNames st.tempMap.length ∧
  List.Sublist (builderLines st) st.intermediateCode

/-! ## Specification-side definitions for the shape of the intermediate code -/

/-- The texts that occur as operands of the intermediate code built from
`tokens` with the counter at `c`: the empty text, the text of an Identifier or
Number token, the decimal form of an integer, or a temporary `t<k>` already
generated (`1 ≤ k < c`). -/
def IsOperand (tokens : List Token) (c : Nat) (s : Str) : Prop :=
  s = [] ∨
  (∃ tok ∈ tokens, (tok.type = .IDENTIFIER ∨ tok.type = .NUMBER) ∧ s = tok.value) ∨
  (∃ v : Int, s = to_string v) ∨
  (∃ k, 1 ≤ k ∧ k < c ∧ s = tempName k)

/-- The shapes of the instructions of the intermediate code: `name = operand`
with `name` in the symbol table, `t<k> = operand OP operand` with `t<k>`
already generated and `OP` the text of an Operator token, or `print name` with
`name` in the symbol table. -/
def WellFormedLine (tokens : List Token) (table : List Str) (c : Nat) (line : Str) : Prop :=
  (∃ name r, name ∈ table ∧ IsOperand tokens c r ∧ line = name ++ " = ".toList ++ r) ∨
  (∃ k l op r, 1 ≤ k ∧ k < c ∧ IsOperand tokens c l ∧ IsOperand tokens c r ∧
    (∃ tok ∈ tokens, tok.type = .OPERATOR ∧ op = tok.value) ∧
    line = tempName k ++ " = ".toList ++ (l ++ " ".toList ++ op ++ " ".toList ++ r)) ∨
  (∃ name, name ∈ table ∧ line = "print ".toList ++ name)

/-- Every instruction of the intermediate code of the globals is well formed,
and the counter is at least 1. -/
def WellFormedCode (tokens : List Token) (st : State) : Prop :=
  1 ≤ st.tempCount ∧
  ∀ line ∈ st.intermediateCode, WellFormedLine tokens st.symbolTable st.tempCount line

/-! ## Specification-side definitions for termination -/

mutual
/-- The cursor positions at which the recursive calls made during a call of
`generateExpressionCode` are entered, in the order in which they are entered
(the calls of line 93 and of line 104, and the calls these make in turn; the
outermost call itself is not listed). The definition follows the control flow
of `generateExpressionCode` and stops where that one stops. -/
def callCursors : Nat → List Token → State → List Nat
  | 0, _, _ => []
  | fuel + 1, tokens, st =>
    if st.index < tokens.length ∧ (tokens[st.index]?.map Token.value) = some "(".toList then
      (st.index + 1) :: (callCursors fuel tokens { st with index := st.index + 1 } ++
        match generateExpressionCode fuel tokens { st with index := st.index + 1 } with
        | .error _ => []
        | .ok (result, st1) =>
          loopCursors fuel tokens result { st1 with index := st1.index + 1 })
    else
      match tokens[st.index]? with
      | none => []
      | some tok =>
        if tok.type = .IDENTIFIER ∨ tok.type = .NUMBER then
          loopCursors fuel tokens tok.value { st with index := st.index + 1 }
        else loopCursors fuel tokens [] st
/-- The cursor positions at which the recursive calls made from the `while`
loop of `generateExpressionCode` are entered, following `exprLoop`. -/
def loopCursors : Nat → List Token → Str → State → List Nat
  | 0, _, _, _ => []
  | fuel + 1, tokens, result, st =>
    match tokens[st.index]? with
    | none => []
    | some tok =>
      if tok.type = .OPERATOR then
        (st.index + 1) :: (callCursors fuel tokens { st with index := st.index + 1 } ++
          match generateExpressionCode fuel tokens { st with index := st.index + 1 } with
          | .error _ => []
          | .ok (right, st1) =>
            match combine tok.value result right st1 with
            | .error _ => []
            | .ok (result1, st2) => loopCursors fuel tokens result1 st2)
      else []
end

/-! ## Lexer: auxiliary lemmas -/

theorem classify_value (b : Str) : (classify b).value = b := by
  unfold classify
  split
  · rfl
  · split <;> rfl

theorem classify_type_ne_operator (b : Str) : (classify b).type ≠ .OPERATOR := by
  unfold classify
  split
  · simp
  · split <;> simp

theorem isspace_not_operator (c : Char) (h : isspace c = true) : isOperatorChar c = false := by
  simp only [isspace, Bool.or_eq_true, decide_eq_true_eq] at h
  rcases h with ((((h | h) | h) | h) | h) | h <;> subst h <;> decide

theorem tokenTexts_append (a b : List Token) :
    tokenTexts (a ++ b) = tokenTexts a ++ tokenTexts b := by
  simp [tokenTexts]

theorem operatorTexts_append (a b : List Token) :
    operatorTexts (a ++ b) = operatorTexts a ++ operatorTexts b := by
  simp [operatorTexts]

theorem tokenizeLoop_space_flush (c : Char) (rest : Str) (tokens : List Token) (buffer : Str)
    (hs : isspace c = true) (hb : buffer ≠ []) :
    tokenizeLoop (c :: rest) tokens buffer
      = tokenizeLoop rest (tokens ++ [classify buffer]) [] := by
  rw [tokenizeLoop, if_pos hs, if_pos hb]

theorem tokenizeLoop_space_skip (c : Char) (rest : Str) (tokens : List Token)
    (hs : isspace c = true) :
    tokenizeLoop (c :: rest) tokens [] = tokenizeLoop rest tokens [] := by
  rw [tokenizeLoop, if_pos hs, if_neg (by simp)]

theorem tokenizeLoop_op_flush (c : Char) (rest : Str) (tokens : List Token) (buffer : Str)
    (hs : ¬ isspace c = true) (ho : isOperatorChar c = true) (hb : buffer ≠ []) :
    tokenizeLoop (c :: rest) tokens buffer
      = tokenizeLoop rest (tokens ++ [classify buffer] ++ [⟨.OPERATOR, [c]⟩]) [] := by
  rw [tokenizeLoop, if_neg hs, if_pos ho, if_pos hb]

theorem tokenizeLoop_op_only (c : Char) (rest : Str) (tokens : List Token)
    (hs : ¬ isspace c = true) (ho : isOperatorChar c = true) :
    tokenizeLoop (c :: rest) tokens []
      = tokenizeLoop rest (tokens ++ [⟨.OPERATOR, [c]⟩]) [] := by
  rw [tokenizeLoop, if_neg hs, if_pos ho, if_neg (by simp)]

theorem tokenizeLoop_buffer (c : Char) (rest : Str) (tokens : List Token) (buffer : Str)
    (hs : ¬ isspace c = true) (ho : ¬ isOperatorChar c = true) :
    tokenizeLoop (c :: rest) tokens buffer = tokenizeLoop rest tokens (buffer ++ [c]) := by
  rw [tokenizeLoop, if_neg hs, if_neg ho]

/-- The loop keeps `texts(tokens) ++ buffer` equal to the non-space characters
read so far. -/
theorem tokenizeLoop_texts (s : Str) : ∀ (tokens : List Token) (buffer : Str),
    tokenTexts (tokenizeLoop s tokens buffer).1 ++ (tokenizeLoop s tokens buffer).2
      = tokenTexts tokens ++ buffer ++ s.filter (fun c => !isspace c) := by
  induction s with
  | nil => intro tokens buffer; simp [tokenizeLoop]
  | cons c rest ih =>
    intro tokens buffer
    by_cases hs : isspace c = true
    · by_cases hb : buffer = []
      · subst hb
        rw [tokenizeLoop_space_skip c rest tokens hs, ih]
        simp [hs]
      · rw [tokenizeLoop_space_flush c rest tokens buffer hs hb, ih]
        simp [hs, tokenTexts, classify_value]
    · by_cases ho : isOperatorChar c = true
      · by_cases hb : buffer = []
        · subst hb
          rw [tokenizeLoop_op_only c rest tokens hs ho, ih]
          simp [hs, tokenTexts]
        · rw [tokenizeLoop_op_flush c rest tokens buffer hs ho hb, ih]
          simp [hs, tokenTexts, classify_value]
      · rw [tokenizeLoop_buffer c rest tokens buffer hs ho, ih]
        simp [hs]

/-- The loop appends one Operator token per operator character and no other
Operator token. -/
theorem tokenizeLoop_operatorTexts (s : Str) : ∀ (tokens : List Token) (buffer : Str),
    operatorTexts (tokenizeLoop s tokens buffer).1
      = operatorTexts tokens ++ (s.filter isOperatorChar).map (fun c => [c]) := by
  induction s with
  | nil => intro tokens buffer; simp [tokenizeLoop]
  | cons c rest ih =>
    intro tokens buffer
    by_cases hs : isspace c = true
    · have hno := isspace_not_operator c hs
      by_cases hb : buffer = []
      · subst hb
        rw [tokenizeLoop_space_skip c rest tokens hs, ih]
        simp [hno]
      · rw [tokenizeLoop_space_flush c rest tokens buffer hs hb, ih]
        simp [hno, operatorTexts, classify_type_ne_operator]
    · by_cases ho : isOperatorChar c = true
      · by_cases hb : buffer = []
        · subst hb
          rw [tokenizeLoop_op_only c rest tokens hs ho, ih]
          simp [ho, operatorTexts]
        · rw [tokenizeLoop_op_flush c rest tokens buffer hs ho hb, ih]
          simp [ho, operatorTexts, classify_type_ne_operator]
      · rw [tokenizeLoop_buffer c rest tokens buffer hs ho, ih]
        simp [ho]

/-- Invariant lifting for the lexer loop: a property of tokens that holds of
every Operator token and of every classified clean buffer holds of all tokens
the loop produces, and the buffer stays clean. -/
theorem tokenizeLoop_inv (P : Token → Prop)
    (hop : ∀ c, isOperatorChar c = true → P ⟨.OPERATOR, [c]⟩)
    (hcl : ∀ b : Str, b ≠ [] → (∀ c ∈ b, isBufferChar c = true) → P (classify b))
    (s : Str) : ∀ (tokens : List Token) (buffer : Str),
    (∀ t ∈ tokens, P t) → (∀ c ∈ buffer, isBufferChar c = true) →
    (∀ t ∈ (tokenizeLoop s tokens buffer).1, P t) ∧
      (∀ c ∈ (tokenizeLoop s tokens buffer).2, isBufferChar c = true) := by
  induction s with
  | nil =>
    intro tokens buffer ht hb
    exact ⟨by simpa [tokenizeLoop] using ht, by simpa [tokenizeLoop] using hb⟩
  | cons c rest ih =>
    intro tokens buffer ht hb
    have hflush : buffer ≠ [] → ∀ t ∈ tokens ++ [classify buffer], P t := by
      intro hbe t htm
      rcases List.mem_append.1 htm with h | h
      · exact ht t h
      · rw [List.mem_singleton.1 h]; exact hcl buffer hbe hb
    by_cases hs : isspace c = true
    · by_cases hbe : buffer = []
      · subst hbe
        rw [tokenizeLoop_space_skip c rest tokens hs]
        exact ih tokens [] ht (by simp)
      · rw [tokenizeLoop_space_flush c rest tokens buffer hs hbe]
        exact ih _ [] (hflush hbe) (by simp)
    · by_cases ho : isOperatorChar c = true
      · by_cases hbe : buffer = []
        · subst hbe
          rw [tokenizeLoop_op_only c rest tokens hs ho]
          refine ih _ [] ?_ (by simp)
          intro t htm
          rcases List.mem_append.1 htm with h | h
          · exact ht t h
          · rw [List.mem_singleton.1 h]; exact hop c ho
        · rw [tokenizeLoop_op_flush c rest tokens buffer hs ho hbe]
          refine ih _ [] ?_ (by simp)
          intro t htm
          rcases List.mem_append.1 htm with h | h
          · exact hflush hbe t h
          · rw [List.mem_singleton.1 h]; exact hop c ho
      · rw [tokenizeLoop_buffer c rest tokens buffer hs ho]
        refine ih _ _ ht ?_
        intro d hd
        rcases List.mem_append.1 hd with h | h
        · exact hb d h
        · rw [List.mem_singleton.1 h]
          simp [isBufferChar, hs, ho]

/-- Invariant lifting for the whole lexer. -/
theorem tokenize_inv (P : Token → Prop)
    (hop : ∀ c, isOperatorChar c = true → P ⟨.OPERATOR, [c]⟩)
    (hcl : ∀ b : Str, b ≠ [] → (∀ c ∈ b, isBufferChar c = true) → P (classify b))
    (s : Str) : ∀ t ∈ tokenize s, P t := by
  have h := tokenizeLoop_inv P hop hcl s [] [] (by simp) (by simp)
  intro t ht
  unfold tokenize at ht
  simp only at ht
  split at ht
  · rename_i hne
    rcases List.mem_append.1 ht with h1 | h1
    · exact h.1 t h1
    · rw [List.mem_singleton.1 h1]; exact hcl _ hne h.2
  · exact h.1 t ht

theorem mem_operators_iff (b : Str) :
    isOperator b = true ↔ ∃ c, b = [c] ∧ isOperatorChar c = true := by
  constructor
  · intro h
    have hm : b ∈ operators := by simpa [isOperator] using h
    simp only [operators, List.mem_cons, List.mem_singleton, List.not_mem_nil, or_false] at hm
    rcases hm with h | h | h | h | h | h | h | h | h <;> subst h <;> exact ⟨_, rfl, by decide⟩
  · rintro ⟨c, rfl, hc⟩
    exact hc

theorem isOperatorChar_iff (c : Char) :
    isOperatorChar c = true ↔ c ∈ "+-*/^=(),".toList := by
  simp [isOperatorChar, isOperator, operators]

theorem isKeyword_iff (b : Str) : isKeyword b = true ↔ b ∈ keywords := by
  simp [isKeyword]

theorem clean_not_mem_operators (b : Str) (hb : ∀ c ∈ b, isBufferChar c = true) :
    isOperator b = false := by
  cases h : isOperator b with
  | false => rfl
  | true =>
    obtain ⟨c, rfl, hc⟩ := (mem_operators_iff b).1 h
    have := hb c (by simp)
    simp [isBufferChar, hc] at this

theorem classify_eq_kindOf (b : Str) (hb : ∀ c ∈ b, isBufferChar c = true) :
    (classify b).type = kindOf b := by
  unfold classify kindOf
  rw [clean_not_mem_operators b hb]
  simp only [Bool.false_eq_true, if_false]
  split
  · rfl
  · split <;> rfl

theorem isLetter_not_digit (c : Char) (h : isLetter c = true) : isdigit c = false := by
  simp only [isLetter, Bool.or_eq_true, Bool.and_eq_true, decide_eq_true_eq] at h
  cases hd : isdigit c with
  | false => rfl
  | true =>
    simp only [isdigit, Bool.and_eq_true, decide_eq_true_eq] at hd
    omega

theorem kindOf_letter_digits (c : Char) (ds : Str) (hc : isLetter c = true) (hne : ds ≠ [])
    (hds : ∀ d ∈ ds, isdigit d = true) : kindOf (c :: ds) = .IDENTIFIER := by
  cases ds with
  | nil => exact absurd rfl hne
  | cons d ds =>
    have hd : isdigit d = true := hds d (by simp)
    have h1 : isOperator (c :: d :: ds) = false := by
      cases h : isOperator (c :: d :: ds) with
      | false => rfl
      | true =>
        obtain ⟨e, he, _⟩ := (mem_operators_iff _).1 h
        simp at he
    have h2 : isKeyword (c :: d :: ds) = false := by
      cases h : isKeyword (c :: d :: ds) with
      | false => rfl
      | true =>
        have hm : (c :: d :: ds) ∈ keywords := (isKeyword_iff _).1 h
        simp only [keywords, List.mem_cons, List.mem_singleton, List.not_mem_nil, or_false] at hm
        rcases hm with h | h | h | h | h <;>
          · have hd2 := (List.cons.inj (List.cons.inj h).2).1
            subst hd2
            revert hd
            decide
    have h3 : isdigit (charAt (c :: d :: ds) 0) = false := by
      simpa [charAt] using isLetter_not_digit c hc
    simp [kindOf, h1, h2, h3]

/-! ## Lexer: the claims -/

/-- C5 (lexer round trip): for every input string, the concatenation of the
texts of its tokens, in order, is the input with every whitespace character
removed. -/
theorem C5_lexer_round_trip (s : Str) :
    tokenTexts (tokenize s) = s.filter (fun c => !isspace c) := by
  have h := tokenizeLoop_texts s [] []
  simp only [tokenTexts, List.map_nil, List.flatten_nil, List.nil_append] at h
  unfold tokenize
  simp only
  split
  · rw [tokenTexts_append]
    simpa [tokenTexts, classify_value] using h
  · rename_i hb
    have hb2 : (tokenizeLoop s [] []).2 = [] := by simpa using hb
    rw [hb2, List.append_nil] at h
    simpa [tokenTexts] using h

/-- C6 (classification from the text alone): every token of `tokenize s` has
the kind its text determines (Operator iff the text is one operator character,
else Keyword iff it is a reserved word, else Number iff it starts with a digit,
else Identifier); no token has kind Unknown; a token whose text is a letter
followed by digits is an Identifier, as for the input `x1`. -/
theorem C6_kind_determined_by_text (s : Str) :
    (∀ t ∈ tokenize s,
      t.type = kindOf t.value ∧
      (t.type = .OPERATOR ↔ ∃ c, t.value = [c] ∧ c ∈ "+-*/^=(),".toList) ∧
      (t.type ≠ .OPERATOR → (t.type = .KEYWORD ↔ t.value ∈ keywords)) ∧
      (t.type ≠ .OPERATOR → t.type ≠ .KEYWORD →
        (t.type = .NUMBER ↔ isdigit (charAt t.value 0) = true)) ∧
      (t.type ≠ .OPERATOR → t.type ≠ .KEYWORD → t.type ≠ .NUMBER → t.type = .IDENTIFIER) ∧
      t.type ≠ .UNKNOWN ∧
      (∀ c ds, t.value = c :: ds → isLetter c = true → ds ≠ [] →
        (∀ d ∈ ds, isdigit d = true) → t.type = .IDENTIFIER)) ∧
    tokenize "x1".toList = [⟨.IDENTIFIER, "x1".toList⟩] := by
  refine ⟨?_, by decide⟩
  have key : ∀ t ∈ tokenize s, t.type = kindOf t.value :=
    tokenize_inv (fun t => t.type = kindOf t.value)
      (fun c hc => by
        have : isOperator [c] = true := hc
        simp [kindOf, this])
      (fun b _ hb => by
        show (classify b).type = kindOf (classify b).value
        rw [classify_value]; exact classify_eq_kindOf b hb) s
  intro t ht
  have hk := key t ht
  rw [hk]
  refine ⟨rfl, ?_, ?_, ?_, ?_, ?_, ?_⟩
  · constructor
    · intro h
      have h1 : isOperator t.value = true := by
        cases h1 : isOperator t.value with
        | true => rfl
        | false =>
          exfalso; revert h; unfold kindOf; rw [h1]
          simp only [Bool.false_eq_true, if_false]
          split
          · simp
          · split <;> simp
      obtain ⟨c, h2, h3⟩ := (mem_operators_iff _).1 h1
      exact ⟨c, h2, (isOperatorChar_iff c).1 h3⟩
    · rintro ⟨c, h1, h2⟩
      have : isOperator t.value = true :=
        (mem_operators_iff _).2 ⟨c, h1, (isOperatorChar_iff c).2 h2⟩
      simp [kindOf, this]
  · rw [← isKeyword_iff]
    unfold kindOf
    split
    · simp
    · split
      · simp [*]
      · split <;> simp [*]
  · unfold kindOf
    split
    · simp
    · split
      · simp
      · split <;> simp [*]
  · unfold kindOf
    split
    · simp
    · split
      · simp
      · split <;> simp
  · unfold kindOf
    split
    · simp
    · split
      · simp
      · split <;> simp
  · intro c ds hv hc hne hds
    rw [hv]
    exact kindOf_letter_digits c ds hc hne hds

/-- C7 (token boundaries): the Operator tokens of `tokenize s` are, in order,
exactly the operator characters of `s`, one single-character token each; every
other token is non-empty and holds neither whitespace nor an operator
character; so there are as many Operator tokens as operator characters. -/
theorem C7_token_boundaries (s : Str) :
    operatorTexts (tokenize s) = (s.filter isOperatorChar).map (fun c => [c]) ∧
    (∀ c, isOperatorChar c = true ↔ c ∈ "+-*/^=(),".toList) ∧
    (∀ t ∈ tokenize s, t.type = .OPERATOR → ∃ c, t.value = [c] ∧ isOperatorChar c = true) ∧
    (∀ t ∈ tokenize s, t.type ≠ .OPERATOR →
      t.value ≠ [] ∧ ∀ c ∈ t.value, isspace c = false ∧ isOperatorChar c = false) ∧
    ((tokenize s).filter (fun t => decide (t.type = .OPERATOR))).length
      = (s.filter isOperatorChar).length := by
  have hops : operatorTexts (tokenize s) = (s.filter isOperatorChar).map (fun c => [c]) := by
    have h := tokenizeLoop_operatorTexts s [] []
    unfold tokenize
    simp only
    split
    · rw [operatorTexts_append, h]
      simp [operatorTexts, classify_type_ne_operator]
    · rw [h]; simp [operatorTexts]
  have hshape : ∀ t ∈ tokenize s,
      (t.type = .OPERATOR ∧ ∃ c, t.value = [c] ∧ isOperatorChar c = true) ∨
      (t.type ≠ .OPERATOR ∧ t.value ≠ [] ∧
        ∀ c ∈ t.value, isspace c = false ∧ isOperatorChar c = false) :=
    tokenize_inv _
      (fun c hc => Or.inl ⟨rfl, c, rfl, hc⟩)
      (fun b hne hb => Or.inr ⟨classify_type_ne_operator b, by rwa [classify_value], by
        rw [classify_value]
        intro c hc
        have := hb c hc
        simpa [isBufferChar] using this⟩) s
  refine ⟨hops, isOperatorChar_iff, ?_, ?_, ?_⟩
  · intro t ht hty
    rcases hshape t ht with h | h
    · exact h.2
    · exact absurd hty h.1
  · intro t ht hty
    rcases hshape t ht with h | h
    · exact absurd h.1 hty
    · exact h.2
  · have := congrArg List.length hops
    simpa [operatorTexts] using this

/-! ## Statement parser: `print` and malformed statements -/

theorem parseLoop_succ_of_lt (fuel : Nat) (tokens : List Token) (st : State)
    (h : st.index < tokens.length) :
    parseLoop (fuel + 1) tokens st =
      match parseStatement tokens st with
      | .ok st1 => parseLoop fuel tokens st1
      | .failed e st1 => .failed e st1
      | .crashed f => .crashed f := by
  rw [parseLoop, if_pos h]

theorem lt_length_of_getElem? {α : Type} (l : List α) (i : Nat) (a : α)
    (h : l[i]? = some a) : i < l.length := by
  by_contra hn
  rw [List.getElem?_eq_none (by omega)] at h
  cases h

theorem parseStatement_print (tokens : List Token) (st : State)
    (h0 : tokens[st.index]? = some ⟨.KEYWORD, "print".toList⟩) :
    parseStatement tokens st = parsePrint tokens { st with index := st.index + 1 } := by
  unfold parseStatement
  rw [h0]
  simp only [if_true]
  rw [if_neg (by decide)]

theorem parseStatement_let (tokens : List Token) (st : State)
    (h0 : tokens[st.index]? = some ⟨.KEYWORD, "let".toList⟩) :
    parseStatement tokens st = parseLet tokens { st with index := st.index + 1 } := by
  unfold parseStatement
  rw [h0]
  simp only [if_true]

/-- C8 (`print` of an identifier): when the statement loop of `parse` is at a
`print v` with `v` an Identifier token, then if `v` is not in the symbol table
the parse returns `false` with the semantic error and the intermediate code
unchanged, and if `v` is in the symbol table exactly the instruction `print v`
is appended and the loop goes on with the token after `v`. -/
theorem C8_print_statement (tokens : List Token) (st : State) (v : Str)
    (h0 : tokens[st.index]? = some ⟨.KEYWORD, "print".toList⟩)
    (h1 : tokens[st.index + 1]? = some ⟨.IDENTIFIER, v⟩) :
    (v ∉ st.symbolTable →
      parseStatement tokens st = .failed (.undeclared v) { st with index := st.index + 1 } ∧
      ∀ fuel, parseLoop (fuel + 1) tokens st
        = .failed (.undeclared v) { st with index := st.index + 1 }) ∧
    (v ∈ st.symbolTable →
      parseStatement tokens st
        = .ok { st with intermediateCode := st.intermediateCode ++ ["print ".toList ++ v],
                        index := st.index + 2 } ∧
      ∀ fuel, parseLoop (fuel + 1) tokens st
        = parseLoop fuel tokens
            { st with intermediateCode := st.intermediateCode ++ ["print ".toList ++ v],
                      index := st.index + 2 }) := by
  have hlt := lt_length_of_getElem? _ _ _ h0
  have hstep := parseStatement_print tokens st h0
  constructor
  · intro hv
    have hs : parseStatement tokens st
        = .failed (.undeclared v) { st with index := st.index + 1 } := by
      rw [hstep]; unfold parsePrint
      simp only [h1, if_true]
      rw [if_pos hv]
    exact ⟨hs, fun fuel => by rw [parseLoop_succ_of_lt fuel tokens st hlt, hs]⟩
  · intro hv
    have hs : parseStatement tokens st
        = .ok { st with intermediateCode := st.intermediateCode ++ ["print ".toList ++ v],
                        index := st.index + 2 } := by
      rw [hstep]; unfold parsePrint
      simp only [h1, if_true]
      rw [if_neg (by simpa using hv)]
    exact ⟨hs, fun fuel => by rw [parseLoop_succ_of_lt fuel tokens st hlt, hs]⟩

/-- Witness for C8: `print v` on fresh globals is rejected with the code still
empty, and after `let v = 1` it appends `print v`. -/
theorem C8_print_statement_witness :
    parseLoop 2 (tokenize "print v".toList) State.init
      = .failed (.undeclared "v".toList) { State.init with index := 1 } ∧
    parseStatement (tokenize "let v = 1 print v".toList)
        { State.init with index := 4, symbolTable := ["v".toList],
                          intermediateCode := ["v = 1".toList] }
      = .ok { State.init with index := 6, symbolTable := ["v".toList],
                              intermediateCode := ["v = 1".toList, "print v".toList] } :=
  ⟨((C8_print_statement (tokenize "print v".toList) State.init "v".toList
      (by decide) (by decide)).1 (by decide)).2 1,
   ((C8_print_statement (tokenize "let v = 1 print v".toList)
      { State.init with index := 4, symbolTable := ["v".toList],
                        intermediateCode := ["v = 1".toList] } "v".toList
      (by decide) (by decide)).2 (by decide)).1⟩

/-- C9 (malformed statements): with the statement loop of `parse` at the token
`tok`, the parse returns `false` at once, with the intermediate code as it was
when the statement was reached, when (a) `tok` is not a Keyword, (b) `tok` is
`let` and no Identifier follows, (c) `tok` is `let`, an Identifier follows and
the Operator `=` does not, (d) `tok` is `print` and no Identifier follows. -/
theorem C9_malformed_statement (tokens : List Token) (st : State) (tok : Token)
    (h0 : tokens[st.index]? = some tok) :
    (tok.type ≠ .KEYWORD →
      ∀ fuel, parseLoop (fuel + 1) tokens st = .failed (.unexpectedToken tok.value) st) ∧
    (tok = ⟨.KEYWORD, "let".toList⟩ →
      (∀ t, tokens[st.index + 1]? = some t → t.type ≠ .IDENTIFIER) →
      ∀ fuel, parseLoop (fuel + 1) tokens st
        = .failed .missingName { st with index := st.index + 1 }) ∧
    (tok = ⟨.KEYWORD, "let".toList⟩ →
      ∀ name, tokens[st.index + 1]? = some ⟨.IDENTIFIER, name⟩ →
      (∀ t, tokens[st.index + 2]? = some t → ¬ (t.type = .OPERATOR ∧ t.value = "=".toList)) →
      ∀ fuel, parseLoop (fuel + 1) tokens st
        = .failed .missingAssign
            { st with symbolTable := setInsert st.symbolTable name, index := st.index + 2 }) ∧
    (tok = ⟨.KEYWORD, "print".toList⟩ →
      (∀ t, tokens[st.index + 1]? = some t → t.type ≠ .IDENTIFIER) →
      ∀ fuel, parseLoop (fuel + 1) tokens st
        = .failed .invalidPrint { st with index := st.index + 1 }) := by
  have hlt := lt_length_of_getElem? _ _ _ h0
  refine ⟨?_, ?_, ?_, ?_⟩
  · intro hk fuel
    rw [parseLoop_succ_of_lt fuel tokens st hlt]
    unfold parseStatement
    rw [h0]
    simp only
    rw [if_neg hk]
  · intro htok hnext fuel
    subst htok
    rw [parseLoop_succ_of_lt fuel tokens st hlt, parseStatement_let tokens st h0]
    unfold parseLet
    simp only
    cases hn : tokens[st.index + 1]? with
    | none => rfl
    | some t =>
      simp only
      rw [if_neg (hnext t hn)]
  · intro htok name hname hnext fuel
    subst htok
    rw [parseLoop_succ_of_lt fuel tokens st hlt, parseStatement_let tokens st h0]
    unfold parseLet
    simp only [hname, if_true]
    cases hn : tokens[st.index + 1 + 1]? with
    | none => rfl
    | some t =>
      simp only
      rw [if_neg (hnext t hn)]
  · intro htok hnext fuel
    subst htok
    rw [parseLoop_succ_of_lt fuel tokens st hlt, parseStatement_print tokens st h0]
    unfold parsePrint
    simp only
    cases hn : tokens[st.index + 1]? with
    | none => rfl
    | some t =>
      simp only
      rw [if_neg (hnext t hn)]

/-- Witness for C9: after `let x = 1`, each of the four malformed shapes makes
the rest of the parse fail with the intermediate code still `x = 1`. -/
theorem C9_malformed_statement_witness :
    parseLoop 1 (tokenize "let x = 1 7".toList)
        { State.init with index := 4, symbolTable := ["x".toList],
                          intermediateCode := ["x = 1".toList] }
      = .failed (.unexpectedToken "7".toList)
          { State.init with index := 4, symbolTable := ["x".toList],
                            intermediateCode := ["x = 1".toList] } ∧
    parseLoop 1 (tokenize "let x = 1 let".toList)
        { State.init with index := 4, symbolTable := ["x".toList],
                          intermediateCode := ["x = 1".toList] }
      = .failed .missingName
          { State.init with index := 5, symbolTable := ["x".toList],
                            intermediateCode := ["x = 1".toList] } ∧
    parseLoop 1 (tokenize "let x = 1 let y 2".toList)
        { State.init with index := 4, symbolTable := ["x".toList],
                          intermediateCode := ["x = 1".toList] }
      = .failed .missingAssign
          { State.init with index := 6, symbolTable := ["y".toList, "x".toList],
                            intermediateCode := ["x = 1".toList] } ∧
    parseLoop 1 (tokenize "let x = 1 print 3".toList)
        { State.init with index := 4, symbolTable := ["x".toList],
                          intermediateCode := ["x = 1".toList] }
      = .failed .invalidPrint
          { State.init with index := 5, symbolTable := ["x".toList],
                            intermediateCode := ["x = 1".toList] } :=
  ⟨(C9_malformed_statement (tokenize "let x = 1 7".toList)
      { State.init with index := 4, symbolTable := ["x".toList],
                        intermediateCode := ["x = 1".toList] }
      ⟨.NUMBER, "7".toList⟩ (by decide)).1 (by decide) 0,
   (C9_malformed_statement (tokenize "let x = 1 let".toList)
      { State.init with index := 4, symbolTable := ["x".toList],
                        intermediateCode := ["x = 1".toList] }
      ⟨.KEYWORD, "let".toList⟩ (by decide)).2.1 rfl (by decide) 0,
   (C9_malformed_statement (tokenize "let x = 1 let y 2".toList)
      { State.init with index := 4, symbolTable := ["x".toList],
                        intermediateCode := ["x = 1".toList] }
      ⟨.KEYWORD, "let".toList⟩ (by decide)).2.2.1 rfl "y".toList (by decide) (by decide) 0,
   (C9_malformed_statement (tokenize "let x = 1 print 3".toList)
      { State.init with index := 4, symbolTable := ["x".toList],
                        intermediateCode := ["x = 1".toList] }
      ⟨.KEYWORD, "print".toList⟩ (by decide)).2.2.2 rfl (by decide) 0⟩

/-! ## Numerals: `to_string` and `stoi` -/

theorem digitChar_isdigit (d : Nat) (h : d < 10) : isdigit (Nat.digitChar d) = true := by
  interval_cases d <;> decide

theorem digitChar_value (d : Nat) (h : d < 10) : (Nat.digitChar d).toNat - 48 = d := by
  interval_cases d <;> decide

theorem toDigitsCore_all_digits (fuel : Nat) : ∀ (n : Nat) (acc : Str),
    (∀ c ∈ acc, isdigit c = true) →
    ∀ c ∈ Nat.toDigitsCore 10 fuel n acc, isdigit c = true := by
  induction fuel with
  | zero => intro n acc h; simpa [Nat.toDigitsCore] using h
  | succ fuel ih =>
    intro n acc h
    have hd : ∀ c ∈ Nat.digitChar (n % 10) :: acc, isdigit c = true := by
      intro c hc
      rcases List.mem_cons.1 hc with h1 | h1
      · rw [h1]; exact digitChar_isdigit _ (Nat.mod_lt _ (by decide))
      · exact h c h1
    unfold Nat.toDigitsCore
    simp only
    split
    · exact hd
    · exact ih _ _ hd

theorem toDigitsCore_ne_nil (fuel : Nat) : ∀ (n : Nat) (acc : Str),
    Nat.toDigitsCore 10 (fuel + 1) n acc ≠ [] := by
  induction fuel with
  | zero =>
    intro n acc
    unfold Nat.toDigitsCore
    simp only
    split
    · simp
    · simp [Nat.toDigitsCore]
  | succ fuel ih =>
    intro n acc
    unfold Nat.toDigitsCore
    simp only
    split
    · simp
    · exact ih _ _

theorem toDigitsCore_value (fuel : Nat) : ∀ (n : Nat) (acc : Str), n < fuel →
    (Nat.toDigitsCore 10 fuel n acc).foldl (fun a c => 10 * a + (c.toNat - 48)) 0
      = acc.foldl (fun a c => 10 * a + (c.toNat - 48)) n := by
  induction fuel with
  | zero => intro n acc h; omega
  | succ fuel ih =>
    intro n acc h
    unfold Nat.toDigitsCore
    simp only
    split
    · rename_i h0
      have hn : n % 10 = n := by omega
      have hv := digitChar_value _ (Nat.mod_lt n (by decide : 0 < 10))
      rw [hn] at hv ⊢
      simp [List.foldl_cons, hv]
    · rename_i h0
      have hlt : n / 10 < fuel := by omega
      rw [ih _ _ hlt]
      simp only [List.foldl_cons, digitChar_value _ (Nat.mod_lt n (by decide))]
      congr 1
      omega

theorem toDigits_all_digits (n : Nat) : ∀ c ∈ Nat.toDigits 10 n, isdigit c = true :=
  toDigitsCore_all_digits _ _ _ (by simp)

theorem toDigits_ne_nil (n : Nat) : Nat.toDigits 10 n ≠ [] :=
  toDigitsCore_ne_nil _ _ _

theorem digitsValue_toDigits (n : Nat) : digitsValue (Nat.toDigits 10 n) = n := by
  unfold digitsValue Nat.toDigits
  rw [toDigitsCore_value _ _ _ (Nat.lt_succ_self n)]
  rfl

theorem takeWhile_all (p : Char → Bool) (l : Str) (h : ∀ c ∈ l, p c = true) :
    l.takeWhile p = l := by
  induction l with
  | nil => rfl
  | cons a l ih =>
    rw [List.takeWhile_cons, if_pos (h a (by simp)), ih (fun c hc => h c (by simp [hc]))]

theorem numeralValue_toDigits (n : Nat) : numeralValue (Nat.toDigits 10 n) = n := by
  unfold numeralValue
  rw [takeWhile_all _ _ (toDigits_all_digits n), digitsValue_toDigits]

theorem charAt_zero_toDigits (n : Nat) : isdigit (charAt (Nat.toDigits 10 n) 0) = true := by
  have hne := toDigits_ne_nil n
  have hall := toDigits_all_digits n
  cases h : Nat.toDigits 10 n with
  | nil => exact absurd h hne
  | cons c cs =>
    rw [h] at hall
    simpa [charAt] using hall c (by simp)

theorem isdigit_not_space (c : Char) (h : isdigit c = true) : isspace c = false := by
  cases hs : isspace c with
  | false => rfl
  | true =>
    simp only [isspace, Bool.or_eq_true, decide_eq_true_eq] at hs
    rcases hs with ((((h1 | h1) | h1) | h1) | h1) | h1 <;> subst h1 <;> revert h <;> decide

/-- On a text that starts with a digit `stoi` reads its leading digits. -/
theorem stoi_of_digit_head (txt : Str) (hd : isdigit (charAt txt 0) = true)
    (hr : (numeralValue txt : Int) ≤ INT_MAX) : stoi txt = .ok (numeralValue txt : Int) := by
  cases txt with
  | nil => simp [charAt, isdigit] at hd
  | cons c cs =>
    have hc : isdigit c = true := by simpa [charAt] using hd
    have hns : isspace c = false := isdigit_not_space c hc
    have h1 : (c :: cs).dropWhile isspace = c :: cs := by
      simp [List.dropWhile_cons, hns]
    have hminus : c ≠ '-' := by rintro rfl; revert hc; decide
    have hplus : c ≠ '+' := by rintro rfl; revert hc; decide
    unfold stoi
    simp only [h1]
    have hsig : (match (c :: cs : Str) with
        | '-' :: r => (true, r)
        | '+' :: r => (false, r)
        | _ => ((false, c :: cs) : Bool × Str)) = (false, c :: cs) := by
      split
      · rename_i heq; exact absurd (List.cons.inj heq).1 hminus
      · rename_i heq; exact absurd (List.cons.inj heq).1 hplus
      · rfl
    rw [hsig]
    simp only
    have hne : (c :: cs).takeWhile isdigit ≠ [] := by
      rw [List.takeWhile_cons, if_pos hc]; simp
    rw [if_neg hne]
    simp only [Bool.false_eq_true, if_false]
    have hlow : ¬ ((digitsValue ((c :: cs).takeWhile isdigit) : Int) < INT_MIN) := by
      have : (0 : Int) ≤ (digitsValue ((c :: cs).takeWhile isdigit) : Int) := Int.ofNat_nonneg _
      unfold INT_MIN; omega
    have hhigh : ¬ (INT_MAX < (digitsValue ((c :: cs).takeWhile isdigit) : Int)) := by
      unfold numeralValue at hr; omega
    rw [if_neg (by rintro (h | h); exact hlow h; exact hhigh h)]
    rfl

/-! ## Expression builder: unfolding lemmas -/

theorem generateExpressionCode_operand (fuel : Nat) (tokens : List Token) (st : State)
    (tok : Token) (h : tokens[st.index]? = some tok)
    (hty : tok.type = .IDENTIFIER ∨ tok.type = .NUMBER) (hv : tok.value ≠ "(".toList) :
    generateExpressionCode (fuel + 1) tokens st
      = exprLoop fuel tokens tok.value { st with index := st.index + 1 } := by
  rw [generateExpressionCode]
  have hc : ¬ (st.index < tokens.length ∧
      (tokens[st.index]?.map Token.value) = some "(".toList) := by
    rintro ⟨_, h2⟩
    rw [h] at h2
    exact hv (by simpa using h2)
  rw [if_neg hc, h]
  simp only
  rw [if_pos hty]

theorem exprLoop_exit (fuel : Nat) (tokens : List Token) (result : Str) (st : State)
    (h : (tokens[st.index]?).map Token.type ≠ some .OPERATOR) :
    exprLoop (fuel + 1) tokens result st = .ok (result, st) := by
  rw [exprLoop]
  cases ht : tokens[st.index]? with
  | none => rfl
  | some tok =>
    simp only
    rw [if_neg]
    intro hty
    apply h
    rw [ht]
    simp [hty]

theorem exprLoop_step (fuel : Nat) (tokens : List Token) (result : Str) (st : State)
    (op : Str) (h : tokens[st.index]? = some ⟨.OPERATOR, op⟩) :
    exprLoop (fuel + 1) tokens result st =
      match generateExpressionCode fuel tokens { st with index := st.index + 1 } with
      | .error f => .error f
      | .ok (right, st1) =>
        match combine op result right st1 with
        | .error f => .error f
        | .ok (result1, st2) => exprLoop fuel tokens result1 st2 := by
  rw [exprLoop, h]
  simp only [if_true]

theorem wrapInt_of_range (x : Int) (h1 : INT_MIN ≤ x) (h2 : x ≤ INT_MAX) : wrapInt x = x := by
  unfold INT_MIN at h1
  unfold INT_MAX at h2
  unfold wrapInt
  omega

theorem foldArith_arith (op : Str) (a b : Int)
    (hop : op ∈ ["+".toList, "-".toList, "*".toList, "/".toList])
    (hz : op = "/".toList → b ≠ 0)
    (h1 : INT_MIN ≤ applyOp op a b) (h2 : applyOp op a b ≤ INT_MAX) :
    foldArith op a b = .ok (applyOp op a b) := by
  simp only [List.mem_cons, List.mem_singleton, List.not_mem_nil, or_false] at hop
  rcases hop with h | h | h | h
  · subst h
    have e : applyOp "+".toList a b = a + b := rfl
    rw [e] at h1 h2 ⊢
    show Except.ok (wrapInt (a + b)) = _
    rw [wrapInt_of_range _ h1 h2]
  · subst h
    have e : applyOp "-".toList a b = a - b := rfl
    rw [e] at h1 h2 ⊢
    show Except.ok (wrapInt (a - b)) = _
    rw [wrapInt_of_range _ h1 h2]
  · subst h
    have e : applyOp "*".toList a b = a * b := rfl
    rw [e] at h1 h2 ⊢
    show Except.ok (wrapInt (a * b)) = _
    rw [wrapInt_of_range _ h1 h2]
  · subst h
    have e : applyOp "/".toList a b = a.tdiv b := rfl
    rw [e] at h1 h2 ⊢
    have hb : b ≠ 0 := hz rfl
    show (if b = 0 then Except.error Fault.divideByZero
      else Except.ok (wrapInt (a.tdiv b))) = _
    rw [if_neg hb, wrapInt_of_range _ h1 h2]

/-- Constant folding in `combine`: two digit-led operands that `stoi` reads as
`a` and `b` fold to the decimal form of the operation's result. -/
theorem combine_fold (op result right : Str) (st : State) (a b r : Int)
    (hl : isdigit (charAt result 0) = true) (hr : isdigit (charAt right 0) = true)
    (ha : stoi result = .ok a) (hb : stoi right = .ok b)
    (hf : foldArith op a b = .ok r) :
    combine op result right st = .ok (to_string r, st) := by
  unfold combine
  rw [if_pos (by simp [hl, hr]), ha]
  simp only
  rw [hb]
  simp only
  rw [hf]

/-- A folded non-negative value prints as a text that `stoi` reads back. -/
theorem to_string_nonneg (v : Int) (h : 0 ≤ v) : to_string v = Nat.toDigits 10 v.natAbs := by
  unfold to_string
  rw [if_neg (by omega)]

theorem chainText_digit_head (first : Str) (rest : List (Str × Str))
    (hd : isdigit (charAt first 0) = true) (hv : 0 ≤ chainValue first rest) :
    isdigit (charAt (chainText first rest) 0) = true := by
  cases rest with
  | nil => exact hd
  | cons p rest =>
    show isdigit (charAt (to_string _) 0) = true
    rw [to_string_nonneg _ hv]
    exact charAt_zero_toDigits _

theorem stoi_chainText (first : Str) (rest : List (Str × Str))
    (hd : isdigit (charAt first 0) = true) (hv : 0 ≤ chainValue first rest)
    (hmax : chainValue first rest ≤ INT_MAX) :
    stoi (chainText first rest) = .ok (chainValue first rest) := by
  cases rest with
  | nil => exact stoi_of_digit_head first hd hmax
  | cons p rest =>
    show stoi (to_string _) = _
    rw [to_string_nonneg _ hv]
    have hnv : numeralValue (Nat.toDigits 10 (chainValue first (p :: rest)).natAbs)
        = (chainValue first (p :: rest)).natAbs := numeralValue_toDigits _
    have hcast : (((chainValue first (p :: rest)).natAbs : Nat) : Int)
        = chainValue first (p :: rest) := by omega
    have := stoi_of_digit_head (Nat.toDigits 10 (chainValue first (p :: rest)).natAbs)
      (charAt_zero_toDigits _) (by rw [hnv, hcast]; exact hmax)
    rw [this, hnv, hcast]

/-! ## Expression builder on a constant chain -/

theorem chainAt_end (tokens : List Token) : ∀ (rest : List (Str × Str)) (i : Nat) (first : Str),
    ChainAt tokens i first rest →
    (tokens[i + 2 * rest.length + 1]?).map Token.type ≠ some .OPERATOR := by
  intro rest
  induction rest with
  | nil => intro i first h; exact h.2.2
  | cons p rest ih =>
    intro i first h
    obtain ⟨op, m⟩ := p
    have := ih (i + 2) m h.2.2.2
    have e : i + 2 * ((op, m) :: rest).length + 1 = i + 2 + 2 * rest.length + 1 := by
      simp only [List.length_cons]; omega
    rw [e]
    exact this

theorem digit_head_ne_paren (txt : Str) (hd : isdigit (charAt txt 0) = true) :
    txt ≠ "(".toList := by
  rintro rfl
  revert hd
  decide

/-- On a constant chain satisfying the side conditions the expression builder
returns the chain text, moves the cursor past the chain and changes nothing
else. -/
theorem generateExpressionCode_chain (tokens : List Token) :
    ∀ (rest : List (Str × Str)) (first : Str) (st : State) (fuel : Nat),
    ChainAt tokens st.index first rest → ChainArith first rest → SuffixesNonneg rest →
    2 * rest.length + 1 < fuel →
    generateExpressionCode fuel tokens st
      = .ok (chainText first rest, { st with index := st.index + 2 * rest.length + 1 }) := by
  intro rest
  induction rest with
  | nil =>
    intro first st fuel hat _ _ hfuel
    obtain ⟨h1, hd, hend⟩ := hat
    obtain ⟨f, rfl⟩ : ∃ f, fuel = f + 1 + 1 := ⟨fuel - 2, by simp at hfuel; omega⟩
    rw [generateExpressionCode_operand (f + 1) tokens st ⟨.NUMBER, first⟩ h1 (Or.inr rfl)
      (digit_head_ne_paren first hd)]
    rw [exprLoop_exit f tokens first _ hend]
    rfl
  | cons p rest ih =>
    intro first st fuel hat hok hsuf hfuel
    obtain ⟨op, m⟩ := p
    obtain ⟨h1, hd, hop, hrest⟩ := hat
    obtain ⟨hopmem, hfirst, _, hmax, hz, hlo, hhi, hokrest⟩ := hok
    obtain ⟨hnn, hsufrest⟩ := hsuf
    obtain ⟨f, rfl⟩ : ∃ f, fuel = f + 1 + 1 := ⟨fuel - 2, by simp at hfuel; omega⟩
    have hf : 2 * rest.length + 1 < f := by simp at hfuel; omega
    rw [generateExpressionCode_operand (f + 1) tokens st ⟨.NUMBER, first⟩ h1 (Or.inr rfl)
      (digit_head_ne_paren first hd)]
    rw [exprLoop_step f tokens first { st with index := st.index + 1 } op hop]
    have hm : isdigit (charAt m 0) = true := by
      cases rest with
      | nil => exact hrest.2.1
      | cons q rest => exact hrest.2.1
    have hrec := ih m { st with index := st.index + 1 + 1 } f hrest hokrest hsufrest hf
    simp only at hrec ⊢
    rw [hrec]
    simp only
    have hcomb := combine_fold op first (chainText m rest)
      { st with index := st.index + 1 + 1 + 2 * rest.length + 1 }
      (numeralValue first : Int) (chainValue m rest) (chainValue first ((op, m) :: rest))
      hd (chainText_digit_head m rest hm hnn)
      (stoi_of_digit_head first hd hfirst)
      (stoi_chainText m rest hm hnn hmax)
      (foldArith_arith op _ _ hopmem hz hlo hhi)
    rw [hcomb]
    simp only
    obtain ⟨g, rfl⟩ : ∃ g, f = g + 1 := ⟨f - 1, by omega⟩
    have hend := chainAt_end tokens rest (st.index + 2) m hrest
    rw [exprLoop_exit g tokens _ _ (by
      show (tokens[st.index + 1 + 1 + 2 * rest.length + 1]?).map Token.type ≠ _
      exact hend)]
    simp only [chainText, List.length_cons, Except.ok.injEq, Prod.mk.injEq, true_and]
    congr 1
    omega

theorem chainAt_lt_length (tokens : List Token) :
    ∀ (rest : List (Str × Str)) (i : Nat) (first : Str),
    ChainAt tokens i first rest → i + 2 * rest.length < tokens.length := by
  intro rest
  induction rest with
  | nil => intro i first h; simpa using lt_length_of_getElem? _ _ _ h.1
  | cons p rest ih =>
    intro i first h
    obtain ⟨op, m⟩ := p
    have := ih (i + 2) m h.2.2.2
    simp only [List.length_cons]
    omega

/-- A `let` statement whose right-hand side is a constant chain satisfying the
side conditions: one instruction `a = <chain text>` is appended, the variable
is declared and bound, the cursor moves past the chain and the temporary
counter and the temp map stay as they were. -/
theorem parseStatement_let_chain (tokens : List Token) (st : State) (a first : Str)
    (rest : List (Str × Str))
    (h0 : tokens[st.index]? = some ⟨.KEYWORD, "let".toList⟩)
    (h1 : tokens[st.index + 1]? = some ⟨.IDENTIFIER, a⟩)
    (h2 : tokens[st.index + 2]? = some ⟨.OPERATOR, "=".toList⟩)
    (hat : ChainAt tokens (st.index + 3) first rest)
    (hok : ChainArith first rest) (hsuf : SuffixesNonneg rest) :
    parseStatement tokens st
      = .ok { st with
          index := st.index + 3 + 2 * rest.length + 1,
          symbolTable := setInsert st.symbolTable a,
          intermediateCode := st.intermediateCode ++ [a ++ " = ".toList ++ chainText first rest],
          valueMap := mapSet st.valueMap a (chainText first rest) } := by
  rw [parseStatement_let tokens st h0]
  unfold parseLet
  simp only [h1, if_true]
  have h2' : tokens[st.index + 1 + 1]? = some ⟨.OPERATOR, "=".toList⟩ := h2
  simp only [h2', and_self, if_true]
  have hlen := chainAt_lt_length tokens rest _ first hat
  have hgen := generateExpressionCode_chain tokens rest first
    { st with symbolTable := setInsert st.symbolTable a, index := st.index + 1 + 1 + 1 }
    (2 * tokens.length + 1) hat hok hsuf (by omega)
  simp only at hgen
  rw [hgen]

/-! ## Constant expressions: the claims -/

/-- C2, as stated, fails: `let x = 1 - 2 - 3` is a constant-only statement
without overflow or division by zero, yet the parser appends two instructions,
`t1 = 1 - -1` and `x = t1`, and the temporary counter goes from 1 to 2. -/
theorem C2_counterexample_negative_suffix :
    ChainAt (tokenize "let x = 1 - 2 - 3".toList) 3 "1".toList
      [("-".toList, "2".toList), ("-".toList, "3".toList)] ∧
    ChainArith "1".toList [("-".toList, "2".toList), ("-".toList, "3".toList)] ∧
    parseStatement (tokenize "let x = 1 - 2 - 3".toList) State.init
      = .ok { index := 8, symbolTable := ["x".toList],
              intermediateCode := ["t1 = 1 - -1".toList, "x = t1".toList],
              tempCount := 2,
              valueMap := [("x".toList, "t1".toList)],
              tempMap := [("t1".toList, "1 - -1".toList)] } := by
  decide

/-- C2, amended: for a statement `let x = e` where `e` is a chain of Number
tokens separated by `+ - * /` without overflow or division by zero, and where
in addition every proper suffix of the chain has a non-negative value, the
parser appends exactly one instruction `x = r`, with `r` the numeral itself
when `e` has no operator and the decimal form of the chain value otherwise;
the temporary counter and the temp map are unchanged. -/
theorem C2_constant_let_no_temporary (tokens : List Token) (st : State) (x first : Str)
    (rest : List (Str × Str))
    (h0 : tokens[st.index]? = some ⟨.KEYWORD, "let".toList⟩)
    (h1 : tokens[st.index + 1]? = some ⟨.IDENTIFIER, x⟩)
    (h2 : tokens[st.index + 2]? = some ⟨.OPERATOR, "=".toList⟩)
    (hat : ChainAt tokens (st.index + 3) first rest)
    (hok : ChainArith first rest) (hsuf : SuffixesNonneg rest) :
    ∃ st1 r, parseStatement tokens st = .ok st1 ∧
      st1.intermediateCode = st.intermediateCode ++ [x ++ " = ".toList ++ r] ∧
      st1.tempCount = st.tempCount ∧ st1.tempMap = st.tempMap ∧
      (rest = [] → r = first) ∧
      (rest ≠ [] → r = to_string (chainValue first rest)) := by
  refine ⟨_, chainText first rest,
    parseStatement_let_chain tokens st x first rest h0 h1 h2 hat hok hsuf, rfl, rfl, rfl, ?_, ?_⟩
  · rintro rfl; rfl
  · intro hne
    cases rest with
    | nil => exact absurd rfl hne
    | cons p rest => rfl

/-- Witness for C2 (amended): `let x = 2 + 3` appends exactly `x = 5`. -/
theorem C2_constant_let_no_temporary_witness :
    ∃ st1 r, parseStatement (tokenize "let x = 2 + 3".toList) State.init = .ok st1 ∧
      st1.intermediateCode = State.init.intermediateCode ++ ["x".toList ++ " = ".toList ++ r] ∧
      st1.tempCount = State.init.tempCount ∧ st1.tempMap = State.init.tempMap ∧
      (([("+".toList, "3".toList)] : List (Str × Str)) = [] → r = "2".toList) ∧
      (([("+".toList, "3".toList)] : List (Str × Str)) ≠ [] →
        r = to_string (chainValue "2".toList [("+".toList, "3".toList)])) :=
  C2_constant_let_no_temporary (tokenize "let x = 2 + 3".toList) State.init "x".toList
    "2".toList [("+".toList, "3".toList)]
    (by decide) (by decide) (by decide) (by decide) (by decide) (by decide)

/-- C3 (right-nested constant chains): for a statement `let a = n1 op1 ... nk`
with `k ≥ 2`, operators among `+ - * /`, no overflow, no division by zero and
every proper suffix of non-negative value, the parser appends exactly the one
instruction `a = v`, `v` the decimal form of `n1 op1 (n2 op2 (... nk))`. -/
theorem C3_right_nested_chain (tokens : List Token) (st : State) (a first : Str)
    (rest : List (Str × Str))
    (h0 : tokens[st.index]? = some ⟨.KEYWORD, "let".toList⟩)
    (h1 : tokens[st.index + 1]? = some ⟨.IDENTIFIER, a⟩)
    (h2 : tokens[st.index + 2]? = some ⟨.OPERATOR, "=".toList⟩)
    (hat : ChainAt tokens (st.index + 3) first rest)
    (hok : ChainArith first rest) (hsuf : SuffixesNonneg rest) (hk : rest ≠ []) :
    parseStatement tokens st
      = .ok { st with
          index := st.index + 3 + 2 * rest.length + 1,
          symbolTable := setInsert st.symbolTable a,
          intermediateCode :=
            st.intermediateCode ++ [a ++ " = ".toList ++ to_string (chainValue first rest)],
          valueMap := mapSet st.valueMap a (to_string (chainValue first rest)) } := by
  have h := parseStatement_let_chain tokens st a first rest h0 h1 h2 hat hok hsuf
  cases rest with
  | nil => exact absurd rfl hk
  | cons p rest => exact h

/-- Witness for C3: `let a = 10 - 3 - 2` folds as `10 - (3 - 2)` and appends
`a = 9`. -/
theorem C3_right_nested_chain_witness :
    parseStatement (tokenize "let a = 10 - 3 - 2".toList) State.init
      = .ok { State.init with index := 8, symbolTable := ["a".toList],
                              intermediateCode := ["a = 9".toList],
                              valueMap := [("a".toList, "9".toList)] } :=
  (C3_right_nested_chain (tokenize "let a = 10 - 3 - 2".toList) State.init "a".toList
    "10".toList [("-".toList, "3".toList), ("-".toList, "2".toList)]
    (by decide) (by decide) (by decide) (by decide) (by decide) (by decide) (by decide)).trans
    (by decide)

/-! ## Parentheses -/

/-- C4 at its own example: on `let x = (2 + 3)` the `while` loop takes the
closing parenthesis as a binary operator and the builder then reads the token
vector past its end; with a statement following, the parenthesised expression
yields `t1 = 3 ) `, `t2 = 2 + t1`, `x = t2`, the next `let` is swallowed and
the parse fails, whereas the same input without parentheses gives `x = 5`. -/
theorem C4_closing_paren_taken_as_operator :
    parse (tokenize "let x = (2 + 3)".toList) State.init = .crashed .outOfRange ∧
    generateExpressionCode 9 (tokenize "let x = (2 + 3)".toList) { State.init with index := 3 }
      = .error .outOfRange ∧
    generateExpressionCode 9 (tokenize "let x = 2 + 3".toList) { State.init with index := 3 }
      = .ok ("5".toList, { State.init with index := 6 }) ∧
    parse (tokenize "let x = (2 + 3) let y = 1".toList) State.init
      = .failed (.unexpectedToken "y".toList)
          { index := 9, symbolTable := ["x".toList],
            intermediateCode := ["t1 = 3 ) ".toList, "t2 = 2 + t1".toList, "x = t2".toList],
            tempCount := 3,
            valueMap := [("x".toList, "t2".toList)],
            tempMap := [("t2".toList, "2 + t1".toList), ("t1".toList, "3 ) ".toList)] } ∧
    parse (tokenize "let x = 2 + 3 let y = 1".toList) State.init
      = .ok { index := 10, symbolTable := ["y".toList, "x".toList],
              intermediateCode := ["x = 5".toList, "y = 1".toList],
              tempCount := 1,
              valueMap := [("y".toList, "1".toList), ("x".toList, "5".toList)],
              tempMap := [] } := by
  decide

/-! ## Optimizer: auxiliary lemmas -/

theorem find_of_isPrefixOf (pat u : Str) (h : pat.isPrefixOf u = true) :
    find pat u = some 0 := by
  cases u with
  | nil => rw [find, if_pos h]
  | cons c cs => rw [find, if_pos h]

theorem find_some_spec (pat : Str) : ∀ (s : Str) (p : Nat), find pat s = some p →
    pat <+: s.drop p ∧ p ≤ s.length := by
  intro s
  induction s with
  | nil =>
    intro p h
    rw [find] at h
    split at h
    · rename_i hp
      cases h
      exact ⟨List.isPrefixOf_iff_prefix.1 hp, Nat.le_refl _⟩
    · cases h
  | cons c cs ih =>
    intro p h
    rw [find] at h
    split at h
    · rename_i hp
      cases h
      exact ⟨List.isPrefixOf_iff_prefix.1 hp, Nat.zero_le _⟩
    · cases hq : find pat cs with
      | none => rw [hq] at h; cases h
      | some q =>
        rw [hq] at h
        simp only [Option.map_some', Option.some.injEq] at h
        subst h
        have := ih q hq
        exact ⟨by simpa using this.1, by simpa using this.2⟩

/-- Re-joining the part before the first occurrence of `pat` with `pat` and
any tail leaves the first occurrence where it was. -/
theorem find_rejoin (pat : Str) : ∀ (s : Str) (p : Nat) (t : Str), find pat s = some p →
    find pat (s.take p ++ pat ++ t) = some p := by
  intro s
  induction s with
  | nil =>
    intro p t h
    rw [find] at h
    split at h
    · cases h
      apply find_of_isPrefixOf
      rw [List.isPrefixOf_iff_prefix]
      simp
    · cases h
  | cons c cs ih =>
    intro p t h
    rw [find] at h
    split at h
    · cases h
      apply find_of_isPrefixOf
      rw [List.isPrefixOf_iff_prefix]
      simp
    · rename_i hnp
      cases hq : find pat cs with
      | none => rw [hq] at h; cases h
      | some q =>
        rw [hq] at h
        simp only [Option.map_some', Option.some.injEq] at h
        subst h
        have hspec := find_some_spec pat cs q hq
        have hrec := ih q t hq
        have hno : ¬ pat.isPrefixOf (c :: (cs.take q ++ pat ++ t)) = true := by
          intro hpre
          rw [List.isPrefixOf_iff_prefix] at hpre
          apply hnp
          rw [List.isPrefixOf_iff_prefix]
          have h1 : pat <+: (c :: (cs.take q ++ pat)) ++ t := by simpa using hpre
          have h2 : pat <+: c :: (cs.take q ++ pat) :=
            List.prefix_of_prefix_length_le h1 (List.prefix_append _ _) (by simp; omega)
          obtain ⟨r1, hr1⟩ := hspec.1
          have h3 : c :: cs = (c :: (cs.take q ++ pat)) ++ r1 := by
            have := List.take_append_drop q cs
            rw [← hr1] at this
            simp only [List.cons_append, List.append_assoc]
            rw [this]
          rw [h3]
          exact h2.trans (List.prefix_append _ _)
        show find pat (c :: (cs.take q ++ pat ++ t)) = some (q + 1)
        rw [find, if_neg hno, hrec]
        rfl

theorem assignParts_rejoin (line lhs rhs rhs1 : Str) (h : assignParts line = some (lhs, rhs)) :
    assignParts (lhs ++ " = ".toList ++ rhs1) = some (lhs, rhs1) := by
  unfold assignParts at h ⊢
  cases hf : find " = ".toList line with
  | none => rw [hf] at h; cases h
  | some pos =>
    rw [hf] at h
    simp only [Option.map_some', Option.some.injEq, Prod.mk.injEq] at h
    have hspec := find_some_spec _ _ _ hf
    have hlen : lhs.length = pos := by
      rw [← h.1, List.length_take]; omega
    have hre := find_rejoin _ line pos rhs1 hf
    rw [h.1] at hre
    rw [hre]
    simp only [Option.map_some', Option.some.injEq, Prod.mk.injEq]
    constructor
    · rw [List.append_assoc, List.take_left' hlen]
    · have h3 : (lhs ++ " = ".toList).length = pos + 3 := by
        simp [hlen]
      rw [List.drop_left' h3]

theorem mapFind_mapSet_self (m : List (Str × Str)) (k v : Str) :
    mapFind (mapSet m k v) k = some v := by
  simp [mapSet, mapFind]

theorem mapFind_mapSet_ne (m : List (Str × Str)) (k v k1 : Str) (h : k1 ≠ k) :
    mapFind (mapSet m k v) k1 = mapFind m k1 := by
  simp [mapSet, mapFind, h]

theorem substRhs_cases (m : List (Str × Str)) (r : Str) :
    (mapFind m r = none ∧ substRhs m r = r) ∨ (mapFind m r = some (substRhs m r)) := by
  unfold substRhs mapHas mapGet
  cases h : mapFind m r with
  | none => left; simp
  | some v => right; simp

theorem substRhs_fixed (m : List (Str × Str)) (r : Str)
    (h : mapFind m r = none ∨ mapFind m r = some r) : substRhs m r = r := by
  unfold substRhs mapHas mapGet
  rcases h with h | h <;> rw [h] <;> simp

/-- The accumulating loop of the source appends what `optimizeFrom` returns. -/
theorem optimizeLoop_eq (L : List Str) : ∀ (varMap : List (Str × Str)) (out : List Str),
    optimizeLoop L varMap out = out ++ optimizeFrom varMap L := by
  induction L with
  | nil => intro varMap out; simp [optimizeLoop, optimizeFrom]
  | cons line rest ih =>
    intro varMap out
    rw [optimizeLoop, optimizeFrom]
    unfold assignParts
    cases hf : find " = ".toList line with
    | none => simp only [Option.map_none']; rw [ih]; simp
    | some pos =>
      simp only [Option.map_some']
      split
      · rw [ih]; rfl
      · rw [ih]; simp [substRhs]

theorem optimizeCode_eq (L : List Str) : optimizeCode L = optimizeFrom [] L := by
  unfold optimizeCode
  rw [optimizeLoop_eq]
  rfl

theorem neverAssigned_cons (v line : Str) (rest : List Str)
    (h : neverAssigned v (line :: rest) = true) :
    lhsOf line ≠ some v ∧ neverAssigned v rest = true := by
  unfold neverAssigned at h ⊢
  simp only [List.all_cons, Bool.and_eq_true, decide_eq_true_eq] at h
  exact h

/-- The second optimizer pass, run with a rewrite map `N` that agrees with the
first pass's map `M` on its (non-temporary) keys, reproduces the output of the
first pass, provided every value stored in `M` is a fixed point of `M` that no
remaining line assigns and the remaining lines are bound-before-use. -/
theorem optimizeFrom_second_pass : ∀ (L : List Str) (M N : List (Str × Str)) (bound : List Str),
    (∀ k v, mapFind N k = some v → mapFind M k = some v) →
    (∀ k v, mapFind N k = some v → isTempName k = false) →
    (∀ k v, mapFind M k = some v →
      (mapFind M v = none ∨ mapFind M v = some v) ∧ neverAssigned v L = true) →
    (∀ r, bound.contains r = true → mapFind M r ≠ none) →
    boundBeforeUse bound L = true →
    optimizeFrom N (optimizeFrom M L) = optimizeFrom M L := by
  intro L
  induction L with
  | nil => intro M N bound _ _ _ _ _; rfl
  | cons line rest ih =>
    intro M N bound hb hd hc hbound hbbu
    rw [boundBeforeUse] at hbbu
    cases hap : assignParts line with
    | none =>
      rw [hap] at hbbu
      simp only at hbbu
      have e1 : optimizeFrom M (line :: rest) = line :: optimizeFrom M rest := by
        rw [optimizeFrom, hap]
      rw [e1, optimizeFrom, hap]
      simp only
      rw [ih M N bound hb hd (fun k v h => ⟨(hc k v h).1, (neverAssigned_cons _ _ _ (hc k v h).2).2⟩)
        hbound hbbu]
    | some pr =>
      obtain ⟨l, r⟩ := pr
      rw [hap] at hbbu
      simp only [Bool.and_eq_true, Bool.or_eq_true] at hbbu
      obtain ⟨huse, hrest⟩ := hbbu
      have hl : lhsOf line = some l := by simp [lhsOf, hap]
      -- the substituted right-hand side is a fixed point of `M`, differs from
      -- `l` unless it is bound to itself, and is never assigned later
      have hfix : (mapFind M (substRhs M r) = none ∨
            mapFind M (substRhs M r) = some (substRhs M r)) ∧
          neverAssigned (substRhs M r) rest = true ∧
          (substRhs M r = l → mapFind M r = none) := by
        rcases substRhs_cases M r with ⟨hnone, heq⟩ | hsome
        · rw [heq]
          refine ⟨Or.inl hnone, ?_, fun _ => hnone⟩
          rcases huse with hu | hu
          · exact absurd hnone (hbound r hu)
          · exact hu
        · have h1 := hc r _ hsome
          have h2 := neverAssigned_cons _ _ _ h1.2
          refine ⟨h1.1, h2.2, fun he => ?_⟩
          rw [hl, he] at h2
          exact absurd rfl h2.1
      obtain ⟨hfix1, hfix2, hfix3⟩ := hfix
      -- the invariant on stored values, for the extended map and the rest
      have hc1 : ∀ k v, mapFind (mapSet M l (substRhs M r)) k = some v →
          (mapFind (mapSet M l (substRhs M r)) v = none ∨
            mapFind (mapSet M l (substRhs M r)) v = some v) ∧
          neverAssigned v rest = true := by
        intro k v hkv
        by_cases hk : k = l
        · subst hk
          rw [mapFind_mapSet_self] at hkv
          cases hkv
          refine ⟨?_, hfix2⟩
          by_cases he : substRhs M r = k
          · right
            rw [he]
            exact mapFind_mapSet_self M k k
          · rw [mapFind_mapSet_ne _ _ _ _ he]
            exact hfix1
        · rw [mapFind_mapSet_ne _ _ _ _ hk] at hkv
          have h1 := hc k v hkv
          have h2 := neverAssigned_cons _ _ _ h1.2
          have hv : v ≠ l := by
            intro he
            rw [hl, he] at h2
            exact absurd rfl h2.1
          rw [mapFind_mapSet_ne _ _ _ _ hv]
          exact ⟨h1.1, h2.2⟩
      have hbound1 : ∀ r1, (l :: bound).contains r1 = true →
          mapFind (mapSet M l (substRhs M r)) r1 ≠ none := by
        intro r1 h1
        by_cases he : r1 = l
        · subst he; rw [mapFind_mapSet_self]; simp
        · rw [mapFind_mapSet_ne _ _ _ _ he]
          apply hbound
          simp only [List.contains_cons, Bool.or_eq_true, beq_iff_eq] at h1
          rcases h1 with h1 | h1
          · exact absurd h1 he
          · exact h1
      by_cases ht : isTempName l = true
      · have e1 : optimizeFrom M (line :: rest)
            = optimizeFrom (mapSet M l (substRhs M r)) rest := by
          rw [optimizeFrom, hap]
          simp only
          rw [if_pos ht]
        rw [e1]
        refine ih _ N (l :: bound) ?_ hd hc1 hbound1 hrest
        intro k v hkv
        have hk : k ≠ l := by
          intro he
          have := hd k v hkv
          rw [he, ht] at this
          cases this
        rw [mapFind_mapSet_ne _ _ _ _ hk]
        exact hb k v hkv
      · have e1 : optimizeFrom M (line :: rest)
            = (l ++ " = ".toList ++ substRhs M r)
                :: optimizeFrom (mapSet M l (substRhs M r)) rest := by
          rw [optimizeFrom, hap]
          simp only
          rw [if_neg ht]
        rw [e1, optimizeFrom, assignParts_rejoin line l r (substRhs M r) hap]
        simp only
        rw [if_neg ht]
        have hsub : substRhs N (substRhs M r) = substRhs M r := by
          apply substRhs_fixed
          cases hn : mapFind N (substRhs M r) with
          | none => exact Or.inl rfl
          | some w =>
            right
            have hm := hb _ _ hn
            rcases hfix1 with h1 | h1
            · rw [h1] at hm; cases hm
            · rw [h1] at hm; cases hm; rfl
        rw [hsub]
        congr 1
        refine ih _ _ (l :: bound) ?_ ?_ hc1 hbound1 hrest
        · intro k v hkv
          by_cases hk : k = l
          · subst hk
            rw [mapFind_mapSet_self] at hkv ⊢
            exact hkv
          · rw [mapFind_mapSet_ne _ _ _ _ hk] at hkv ⊢
            exact hb k v hkv
        · intro k v hkv
          by_cases hk : k = l
          · subst hk; simpa using ht
          · rw [mapFind_mapSet_ne _ _ _ _ hk] at hkv
            exact hd k v hkv

/-! ## Optimizer idempotence: the claim -/

/-- C10, as stated, fails, also on the output of a successful parse: the
program `let y = x`, `let x = 1`, `let z = y` parses to `y = x`, `x = 1`,
`z = y`; one optimizer pass gives `y = x`, `x = 1`, `z = x` and a second pass
changes the last line to `z = 1`. -/
theorem C10_counterexample_not_idempotent :
    parse (tokenize "let y = x let x = 1 let z = y".toList) State.init
      = .ok { index := 12, symbolTable := ["z".toList, "x".toList, "y".toList],
              intermediateCode := ["y = x".toList, "x = 1".toList, "z = y".toList],
              tempCount := 1,
              valueMap := [("z".toList, "y".toList), ("x".toList, "1".toList),
                           ("y".toList, "x".toList)],
              tempMap := [] } ∧
    optimizeCode ["y = x".toList, "x = 1".toList, "z = y".toList]
      = ["y = x".toList, "x = 1".toList, "z = x".toList] ∧
    optimizeCode (optimizeCode ["y = x".toList, "x = 1".toList, "z = y".toList])
      = ["y = x".toList, "x = 1".toList, "z = 1".toList] ∧
    optimizeCode (optimizeCode ["y = x".toList, "x = 1".toList, "z = y".toList])
      ≠ optimizeCode ["y = x".toList, "x = 1".toList, "z = y".toList] := by
  decide

/-- C10, amended: the optimizer is idempotent on every instruction list that
is bound-before-use, i.e. in which the whole right-hand side of each
assignment is either the left-hand side of an earlier line or not assigned by
any later line. -/
theorem C10_optimize_idempotent (L : List Str) (h : boundBeforeUse [] L = true) :
    optimizeCode (optimizeCode L) = optimizeCode L := by
  rw [optimizeCode_eq L, optimizeCode_eq]
  exact optimizeFrom_second_pass L [] [] []
    (fun k v hkv => by simp [mapFind] at hkv)
    (fun k v hkv => by simp [mapFind] at hkv)
    (fun k v hkv => by simp [mapFind] at hkv)
    (fun r hr => by simp at hr)
    h

/-- Witness for C10 (amended): the intermediate code of the reference program is
bound-before-use and optimizing it twice gives the same four lines. -/
theorem C10_optimize_idempotent_witness :
    boundBeforeUse [] ["x = 10".toList, "y = 20".toList, "t1 = x + y".toList,
      "z = t1".toList, "print z".toList] = true ∧
    optimizeCode (optimizeCode ["x = 10".toList, "y = 20".toList, "t1 = x + y".toList,
      "z = t1".toList, "print z".toList])
      = optimizeCode ["x = 10".toList, "y = 20".toList, "t1 = x + y".toList,
          "z = t1".toList, "print z".toList] :=
  ⟨by decide, C10_optimize_idempotent _ (by decide)⟩

/-! ## Expression builder: what a run may change -/

theorem TempLines_append : ∀ (xs ys : List Str) (c : Nat),
    TempLines c xs → TempLines (c + xs.length) ys → TempLines c (xs ++ ys) := by
  intro xs
  induction xs with
  | nil => intro ys c _ h; simpa using h
  | cons x xs ih =>
    intro ys c hx hy
    refine ⟨hx.1, ih ys (c + 1) hx.2 ?_⟩
    have e : c + 1 + xs.length = c + (x :: xs).length := by simp only [List.length_cons]; omega
    rw [e]; exact hy

theorem BuilderStep.refl (st : State) : BuilderStep st st :=
  ⟨Nat.le_refl _, rfl, rfl, [], by simp, by simp, trivial⟩

theorem BuilderStep.trans {a b c : State} (h1 : BuilderStep a b) (h2 : BuilderStep b c) :
    BuilderStep a c := by
  obtain ⟨n1, hc1, ht1, hl1⟩ := h1.code
  obtain ⟨n2, hc2, ht2, hl2⟩ := h2.code
  refine ⟨Nat.le_trans h1.index_le h2.index_le, by rw [h2.symbolTable_eq, h1.symbolTable_eq],
    by rw [h2.valueMap_eq, h1.valueMap_eq], n1 ++ n2, ?_, ?_, ?_⟩
  · rw [hc2, hc1, List.append_assoc]
  · rw [ht2, ht1, List.length_append]; omega
  · refine TempLines_append n1 n2 _ hl1 ?_
    rw [← ht1]; exact hl2

theorem BuilderStep.bump (st : State) (j : Nat) (h : st.index ≤ j) :
    BuilderStep st { st with index := j } :=
  ⟨h, rfl, rfl, [], by simp, by simp, trivial⟩

theorem combine_step (op result right : Str) (st : State) (r : Str) (st1 : State)
    (h : combine op result right st = .ok (r, st1)) : BuilderStep st st1 := by
  unfold combine at h
  split at h
  · -- constant folding: the state is returned as it is
    cases h1 : stoi result with
    | error f => rw [h1] at h; cases h
    | ok a =>
      rw [h1] at h
      simp only at h
      cases h2 : stoi right with
      | error f => rw [h2] at h; cases h
      | ok b =>
        rw [h2] at h
        simp only at h
        cases h3 : foldArith op a b with
        | error f => rw [h3] at h; cases h
        | ok v =>
          rw [h3] at h
          simp only [Except.ok.injEq, Prod.mk.injEq] at h
          rw [← h.2]
          exact BuilderStep.refl st
  · simp only [Except.ok.injEq, Prod.mk.injEq] at h
    rw [← h.2]
    refine ⟨Nat.le_refl _, rfl, rfl, [_], rfl, rfl, ⟨_, rfl⟩, trivial⟩

/-- Every successful run of the expression builder, and of its loop, is a
`BuilderStep`. -/
theorem builder_step (tokens : List Token) : ∀ (fuel : Nat),
    (∀ st r st1, generateExpressionCode fuel tokens st = .ok (r, st1) → BuilderStep st st1) ∧
    (∀ result st r st1, exprLoop fuel tokens result st = .ok (r, st1) → BuilderStep st st1) := by
  intro fuel
  induction fuel with
  | zero =>
    constructor
    · intro st r st1 h; rw [generateExpressionCode] at h; cases h
    · intro result st r st1 h; rw [exprLoop] at h; cases h
  | succ fuel ih =>
    obtain ⟨ihg, ihl⟩ := ih
    constructor
    · intro st r st1 h
      rw [generateExpressionCode] at h
      split at h
      · cases hrec : generateExpressionCode fuel tokens { st with index := st.index + 1 } with
        | error f => rw [hrec] at h; cases h
        | ok p =>
          obtain ⟨result, st2⟩ := p
          rw [hrec] at h
          simp only at h
          have s1 := ihg _ _ _ hrec
          have s2 := ihl _ _ _ _ h
          exact ((BuilderStep.bump st (st.index + 1) (Nat.le_succ _)).trans s1).trans
            ((BuilderStep.bump st2 (st2.index + 1) (Nat.le_succ _)).trans s2)
      · cases ht : tokens[st.index]? with
        | none => rw [ht] at h; cases h
        | some tok =>
          rw [ht] at h
          simp only at h
          split at h
          · exact (BuilderStep.bump st (st.index + 1) (Nat.le_succ _)).trans (ihl _ _ _ _ h)
          · exact ihl _ _ _ _ h
    · intro result st r st1 h
      rw [exprLoop] at h
      cases ht : tokens[st.index]? with
      | none =>
        rw [ht] at h
        simp only [Except.ok.injEq, Prod.mk.injEq] at h
        rw [← h.2]; exact BuilderStep.refl st
      | some tok =>
        rw [ht] at h
        simp only at h
        split at h
        · cases hrec : generateExpressionCode fuel tokens { st with index := st.index + 1 } with
          | error f => rw [hrec] at h; cases h
          | ok p =>
            obtain ⟨right, st2⟩ := p
            rw [hrec] at h
            simp only at h
            cases hc : combine tok.value result right st2 with
            | error f => rw [hc] at h; cases h
            | ok q =>
              obtain ⟨result1, st3⟩ := q
              rw [hc] at h
              simp only at h
              exact (((BuilderStep.bump st (st.index + 1) (Nat.le_succ _)).trans
                (ihg _ _ _ hrec)).trans (combine_step _ _ _ _ _ _ hc)).trans (ihl _ _ _ _ h)
        · simp only [Except.ok.injEq, Prod.mk.injEq] at h
          rw [← h.2]; exact BuilderStep.refl st

/-! ## Expression builder: the call budget is enough -/

theorem stoi_ne_fuel (s : Str) : stoi s ≠ .error .fuelExhausted := by
  unfold stoi
  dsimp only
  split
  · simp
  · split <;> split <;> simp

theorem foldArith_ne_fuel (op : Str) (a b : Int) :
    foldArith op a b ≠ .error .fuelExhausted := by
  unfold foldArith
  split
  · simp
  · split
    · simp
    · split
      · simp
      · split
        · split <;> simp
        · simp

theorem combine_ne_fuel (op result right : Str) (st : State) :
    combine op result right st ≠ .error .fuelExhausted := by
  unfold combine
  split
  · cases h1 : stoi result with
    | error f =>
      simp only
      intro h
      cases h
      exact stoi_ne_fuel _ h1
    | ok a =>
      simp only
      cases h2 : stoi right with
      | error f =>
        simp only
        intro h
        cases h
        exact stoi_ne_fuel _ h2
      | ok b =>
        simp only
        cases h3 : foldArith op a b with
        | error f =>
          simp only
          intro h
          cases h
          exact foldArith_ne_fuel _ _ _ h3
        | ok v => simp
  · simp

/-- With a budget of `2 * (tokens.size() - index) + 1` calls the expression
builder never stops for lack of budget, and its loop never does with a
positive budget of `2 * (tokens.size() - index)`. -/
theorem generateExpressionCode_fuel (tokens : List Token) : ∀ (fuel : Nat),
    (∀ st, 2 * (tokens.length - st.index) + 1 ≤ fuel →
      generateExpressionCode fuel tokens st ≠ .error .fuelExhausted) ∧
    (∀ result st, 2 * (tokens.length - st.index) ≤ fuel → 1 ≤ fuel →
      exprLoop fuel tokens result st ≠ .error .fuelExhausted) := by
  intro fuel
  induction fuel with
  | zero =>
    constructor
    · intro st h; omega
    · intro result st _ h; omega
  | succ fuel ih =>
    obtain ⟨ihg, ihl⟩ := ih
    constructor
    · intro st hf
      rw [generateExpressionCode]
      split
      · rename_i hc
        have hlt := hc.1
        cases hrec : generateExpressionCode fuel tokens { st with index := st.index + 1 } with
        | error f =>
          simp only
          intro h
          cases h
          exact ihg { st with index := st.index + 1 } (by simp only; omega) hrec
        | ok p =>
          obtain ⟨result, st1⟩ := p
          simp only
          have hidx := ((builder_step tokens fuel).1 _ _ _ hrec).index_le
          simp only at hidx
          exact ihl result { st1 with index := st1.index + 1 } (by simp only; omega) (by omega)
      · cases ht : tokens[st.index]? with
        | none => simp
        | some tok =>
          have hlt := lt_length_of_getElem? _ _ _ ht
          simp only
          split
          · exact ihl _ { st with index := st.index + 1 } (by simp only; omega) (by omega)
          · exact ihl _ st (by omega) (by omega)
    · intro result st hf _
      rw [exprLoop]
      cases ht : tokens[st.index]? with
      | none => simp
      | some tok =>
        have hlt := lt_length_of_getElem? _ _ _ ht
        simp only
        split
        · cases hrec : generateExpressionCode fuel tokens { st with index := st.index + 1 } with
          | error f =>
            simp only
            intro h
            cases h
            exact ihg { st with index := st.index + 1 } (by simp only; omega) hrec
          | ok p =>
            obtain ⟨right, st1⟩ := p
            simp only
            have hidx := ((builder_step tokens fuel).1 _ _ _ hrec).index_le
            simp only at hidx
            cases hc : combine tok.value result right st1 with
            | error f =>
              simp only
              intro h
              cases h
              exact combine_ne_fuel _ _ _ _ hc
            | ok q =>
              obtain ⟨result1, st2⟩ := q
              simp only
              have hidx2 := (combine_step _ _ _ _ _ _ hc).index_le
              exact ihl result1 st2 (by omega) (by omega)
        · simp

/-- The budget `parse` passes to the expression builder is enough at every
cursor position. -/
theorem generateExpressionCode_parse_fuel (tokens : List Token) (st : State) :
    generateExpressionCode (2 * tokens.length + 1) tokens st ≠ .error .fuelExhausted :=
  (generateExpressionCode_fuel tokens _).1 st (by omega)

/-! ## Reading lines back: `find` on well-shaped lines -/

/-- A pattern that starts with a blank first occurs right after a blank-free
prefix. -/
theorem find_after_blank_free (p : Str) : ∀ (w t : Str), ' ' ∉ w →
    find (' ' :: p) (w ++ (' ' :: p) ++ t) = some w.length := by
  intro w
  induction w with
  | nil =>
    intro t _
    apply find_of_isPrefixOf
    rw [List.isPrefixOf_iff_prefix]
    simp
  | cons c w ih =>
    intro t hw
    have hc : c ≠ ' ' := fun h => hw (by simp [h])
    have hw1 : ' ' ∉ w := fun h => hw (by simp [h])
    have hno : ¬ (' ' :: p).isPrefixOf (c :: (w ++ (' ' :: p) ++ t)) = true := by
      rw [List.isPrefixOf_iff_prefix]
      rintro ⟨r, hr⟩
      simp only [List.cons_append, List.cons.injEq] at hr
      exact hc hr.1.symm
    show find (' ' :: p) (c :: (w ++ (' ' :: p) ++ t)) = some (w.length + 1)
    rw [find, if_neg hno, ih t hw1]
    rfl

theorem assignParts_of_blank_free (lhs rhs : Str) (h : ' ' ∉ lhs) :
    assignParts (lhs ++ " = ".toList ++ rhs) = some (lhs, rhs) := by
  unfold assignParts
  have hf : find " = ".toList (lhs ++ " = ".toList ++ rhs) = some lhs.length :=
    find_after_blank_free "= ".toList lhs rhs h
  rw [hf]
  simp only [Option.map_some', Option.some.injEq, Prod.mk.injEq]
  constructor
  · rw [List.append_assoc, List.take_left]
  · have h3 : (lhs ++ " = ".toList).length = lhs.length + 3 := by simp
    rw [List.drop_left' h3]

theorem find_assign_none (s : Str) (h : '=' ∉ s) : find " = ".toList s = none := by
  induction s with
  | nil => rfl
  | cons c cs ih =>
    have hcs : '=' ∉ cs := fun h1 => h (by simp [h1])
    have hno : ¬ (" = ".toList).isPrefixOf (c :: cs) = true := by
      rw [List.isPrefixOf_iff_prefix]
      rintro ⟨r, hr⟩
      apply h
      rw [← hr]
      exact List.mem_append_left _ (by decide)
    rw [find, if_neg hno, ih hcs]
    rfl

theorem isBufferChar_ne_blank (c : Char) (h : isBufferChar c = true) : c ≠ ' ' := by
  rintro rfl
  revert h
  decide

theorem isBufferChar_ne_eq (c : Char) (h : isBufferChar c = true) : c ≠ '=' := by
  rintro rfl
  revert h
  decide

theorem blank_free_of_clean (v : Str) (h : ∀ c ∈ v, isBufferChar c = true) : ' ' ∉ v :=
  fun hm => isBufferChar_ne_blank _ (h _ hm) rfl

theorem assignParts_print (v : Str) (h : ∀ c ∈ v, isBufferChar c = true) :
    assignParts ("print ".toList ++ v) = none := by
  unfold assignParts
  rw [find_assign_none]
  · rfl
  · intro hm
    rcases List.mem_append.1 hm with h1 | h1
    · revert h1; decide
    · exact isBufferChar_ne_eq _ (h _ h1) rfl

theorem GoodLine.lhs_blank_free {line : Str} (hg : GoodLine line) (l r : Str)
    (h : assignParts line = some (l, r)) : ' ' ∉ l := by
  rcases hg with ⟨lhs, rhs, rfl, hb⟩ | ⟨v, rfl, hv⟩
  · rw [assignParts_of_blank_free lhs rhs hb] at h
    simp only [Option.some.injEq, Prod.mk.injEq] at h
    rw [← h.1]; exact hb
  · rw [assignParts_print v hv] at h
    cases h

theorem GoodLine.print_of_none {line : Str} (hg : GoodLine line)
    (h : assignParts line = none) : ∃ v, line = "print ".toList ++ v := by
  rcases hg with ⟨lhs, rhs, rfl, hb⟩ | ⟨v, rfl, _⟩
  · rw [assignParts_of_blank_free lhs rhs hb] at h
    cases h
  · exact ⟨v, rfl⟩

theorem tempName_blank_free (c : Nat) : ' ' ∉ tempName c := by
  unfold tempName
  rw [to_string_nonneg _ (Int.ofNat_nonneg c)]
  intro hm
  rcases List.mem_cons.1 hm with h | h
  · revert h; decide
  · have := toDigits_all_digits _ _ h
    revert this; decide

theorem isTempName_tempName (c : Nat) : isTempName (tempName c) = true := by
  unfold tempName
  rw [to_string_nonneg _ (Int.ofNat_nonneg c)]
  have hne := toDigits_ne_nil (c : Int).natAbs
  have hall := toDigits_all_digits (c : Int).natAbs
  cases hd : Nat.toDigits 10 (c : Int).natAbs with
  | nil => exact absurd hd hne
  | cons d ds =>
    rw [hd] at hall
    have : isdigit d = true := hall d (by simp)
    simp [isTempName, charAt, this]

theorem TempLines.good : ∀ (new : List Str) (c : Nat), TempLines c new →
    ∀ line ∈ new, GoodLine line := by
  intro new
  induction new with
  | nil => intro c _ line h; simp at h
  | cons x xs ih =>
    intro c h line hm
    rcases List.mem_cons.1 hm with h1 | h1
    · obtain ⟨rhs, hx⟩ := h.1
      rw [h1, hx]
      exact Or.inl ⟨_, _, rfl, tempName_blank_free c⟩
    · exact ih (c + 1) h.2 line h1

/-! ## Statement parser: what one statement may change -/

theorem LexedToken.identifier {t : Token} (h : LexedToken t) (hty : t.type = .IDENTIFIER) :
    t.value ≠ [] ∧ (∀ c ∈ t.value, isBufferChar c = true) ∧
    isdigit (charAt t.value 0) = false ∧ isKeyword t.value = false := by
  rcases h with ⟨c, _, rfl⟩ | ⟨hne, hclean, hcl⟩
  · cases hty
  · refine ⟨hne, hclean, ?_, ?_⟩
    · rw [hcl] at hty
      unfold classify at hty
      split at hty
      · cases hty
      · split at hty
        · cases hty
        · rename_i hd; simpa using hd
    · rw [hcl] at hty
      unfold classify at hty
      split at hty
      · cases hty
      · rename_i hk; simpa using hk

theorem tokenize_lexed (code : Str) : ∀ t ∈ tokenize code, LexedToken t :=
  tokenize_inv LexedToken
    (fun c hc => Or.inl ⟨c, hc, rfl⟩)
    (fun b hne hb => Or.inr ⟨by rwa [classify_value], by rwa [classify_value],
      by rw [classify_value]⟩) code

/-- Inversion of a successful `let` statement. -/
theorem parseLet_ok (tokens : List Token) (s st1 : State) (h : parseLet tokens s = .ok st1) :
    ∃ varName result st2,
      tokens[s.index]? = some ⟨.IDENTIFIER, varName⟩ ∧
      generateExpressionCode (2 * tokens.length + 1) tokens
        { s with symbolTable := setInsert s.symbolTable varName, index := s.index + 1 + 1 }
        = .ok (result, st2) ∧
      st1 = { st2 with
        intermediateCode := st2.intermediateCode ++ [varName ++ " = ".toList ++ result],
        valueMap := mapSet st2.valueMap varName result } := by
  unfold parseLet at h
  cases hn : tokens[s.index]? with
  | none => rw [hn] at h; cases h
  | some nameTok =>
    rw [hn] at h
    simp only at h
    split at h
    · rename_i hty
      cases he : tokens[s.index + 1]? with
      | none => rw [he] at h; cases h
      | some eqTok =>
        rw [he] at h
        simp only at h
        split at h
        · split at h
          · cases h
          · rename_i result st2 hgen
            simp only [Outcome.ok.injEq] at h
            refine ⟨nameTok.value, result, st2, ?_, hgen, h.symm⟩
            obtain ⟨ty, v⟩ := nameTok
            simp only at hty
            rw [hty]
        · cases h
    · cases h

/-- Inversion of a successful `print` statement. -/
theorem parsePrint_ok (tokens : List Token) (s st1 : State) (h : parsePrint tokens s = .ok st1) :
    ∃ varName, tokens[s.index]? = some ⟨.IDENTIFIER, varName⟩ ∧
      st1 = { s with
        intermediateCode := s.intermediateCode ++ ["print ".toList ++ varName],
        index := s.index + 1 } := by
  unfold parsePrint at h
  cases hn : tokens[s.index]? with
  | none => rw [hn] at h; cases h
  | some nameTok =>
    rw [hn] at h
    simp only at h
    split at h
    · rename_i hty
      split at h
      · cases h
      · simp only [Outcome.ok.injEq] at h
        refine ⟨nameTok.value, ?_, h.symm⟩
        obtain ⟨ty, v⟩ := nameTok
        simp only at hty
        rw [hty]
    · cases h

/-- One successful statement moves the cursor forward and keeps every line of
the intermediate code well shaped, when the tokens are as the lexer makes
them. -/
theorem parseStatement_inv (tokens : List Token) (hlex : ∀ t ∈ tokens, LexedToken t)
    (st st1 : State) (hgood : ∀ line ∈ st.intermediateCode, GoodLine line)
    (h : parseStatement tokens st = .ok st1) :
    st.index < st1.index ∧ st.index < tokens.length ∧
    (∀ line ∈ st1.intermediateCode, GoodLine line) := by
  unfold parseStatement at h
  cases ht : tokens[st.index]? with
  | none => rw [ht] at h; cases h
  | some tok =>
    have hlt := lt_length_of_getElem? _ _ _ ht
    rw [ht] at h
    simp only at h
    split at h
    · split at h
      · obtain ⟨varName, result, st2, hname, hgen, hst1⟩ := parseLet_ok _ _ _ h
        have hstep := (builder_step tokens (2 * tokens.length + 1)).1 _ _ _ hgen
        obtain ⟨new, hcode, _, hlines⟩ := hstep.code
        have hidx := hstep.index_le
        simp only at hidx hcode hname
        have hclean := ((hlex _ (List.getElem?_mem hname)).identifier rfl).2.1
        subst hst1
        refine ⟨by simp only; omega, hlt, ?_⟩
        intro line hm
        simp only [hcode, List.mem_append, List.mem_singleton] at hm
        rcases hm with (hm | hm) | hm
        · exact hgood line hm
        · exact hlines.good new _ line hm
        · rw [hm]
          exact Or.inl ⟨_, _, rfl, blank_free_of_clean _ hclean⟩
      · split at h
        · obtain ⟨varName, hname, hst1⟩ := parsePrint_ok _ _ _ h
          simp only at hname
          have hclean := ((hlex _ (List.getElem?_mem hname)).identifier rfl).2.1
          subst hst1
          refine ⟨by simp only; omega, hlt, ?_⟩
          intro line hm
          simp only [List.mem_append, List.mem_singleton] at hm
          rcases hm with hm | hm
          · exact hgood line hm
          · rw [hm]; exact Or.inr ⟨_, rfl, hclean⟩
        · split at h <;>
          · simp only [Outcome.ok.injEq] at h
            subst h
            exact ⟨by simp only; omega, hlt, hgood⟩
    · cases h

/-- After `n` successful statements the cursor has moved by at least `n`, every
line is well shaped, and the loop of `parse` has used `n` of its iterations. -/
theorem parseSteps_inv (tokens : List Token) (hlex : ∀ t ∈ tokens, LexedToken t) :
    ∀ (n : Nat) (st st1 : State), (∀ line ∈ st.intermediateCode, GoodLine line) →
    parseSteps n tokens st = .ok st1 →
    st.index + n ≤ st1.index ∧ (∀ line ∈ st1.intermediateCode, GoodLine line) ∧
    ∀ fuel, parseLoop (n + fuel) tokens st = parseLoop fuel tokens st1 := by
  intro n
  induction n with
  | zero =>
    intro st st1 hgood h
    rw [parseSteps] at h
    cases h
    exact ⟨Nat.le_refl _, hgood, fun fuel => by rw [Nat.zero_add]⟩
  | succ n ih =>
    intro st st1 hgood h
    rw [parseSteps] at h
    cases hs : parseStatement tokens st with
    | failed e s2 => rw [hs] at h; cases h
    | crashed f => rw [hs] at h; cases h
    | ok s2 =>
      rw [hs] at h
      simp only at h
      obtain ⟨hidx, hlt, hgood2⟩ := parseStatement_inv tokens hlex st s2 hgood hs
      obtain ⟨hidx2, hgood3, hloop⟩ := ih s2 st1 hgood2 h
      refine ⟨by omega, hgood3, fun fuel => ?_⟩
      have e : n + 1 + fuel = (n + fuel) + 1 := by omega
      rw [e, parseLoop_succ_of_lt _ tokens st hlt, hs]
      exact hloop fuel

/-! ## The statement `let z = a + b` followed by `print z` -/

theorem clean_ne_paren (v : Str) (h : ∀ c ∈ v, isBufferChar c = true) : v ≠ "(".toList := by
  rintro rfl
  have := h '(' (by decide)
  revert this
  decide

/-- The expression builder on `a + b` with identifier operands, followed by a
token that is not an Operator: one temporary is allocated and the instruction
`t<c> = a + b` appended. -/
theorem generateExpressionCode_add (tokens : List Token) (st : State) (a b : Str) (fuel : Nat)
    (ha : tokens[st.index]? = some ⟨.IDENTIFIER, a⟩)
    (hop : tokens[st.index + 1]? = some ⟨.OPERATOR, "+".toList⟩)
    (hb : tokens[st.index + 2]? = some ⟨.IDENTIFIER, b⟩)
    (hend : (tokens[st.index + 3]?).map Token.type ≠ some .OPERATOR)
    (hap : a ≠ "(".toList) (hbp : b ≠ "(".toList) (had : isdigit (charAt a 0) = false) :
    generateExpressionCode (fuel + 4) tokens st
      = .ok (tempName st.tempCount,
          { st with
            index := st.index + 3,
            tempCount := st.tempCount + 1,
            intermediateCode := st.intermediateCode ++
              [tempName st.tempCount ++ " = ".toList ++ (a ++ " + ".toList ++ b)],
            tempMap := mapSet st.tempMap (tempName st.tempCount) (a ++ " + ".toList ++ b) }) := by
  rw [generateExpressionCode_operand (fuel + 3) tokens st ⟨.IDENTIFIER, a⟩ ha (Or.inl rfl) hap]
  rw [exprLoop_step (fuel + 2) tokens a { st with index := st.index + 1 } "+".toList hop]
  simp only
  rw [generateExpressionCode_operand (fuel + 1) tokens { st with index := st.index + 1 + 1 }
    ⟨.IDENTIFIER, b⟩ hb (Or.inl rfl) hbp]
  rw [exprLoop_exit fuel tokens b _ hend]
  simp only
  have hcomb : combine "+".toList a b { st with index := st.index + 1 + 1 + 1 }
      = .ok (tempName st.tempCount,
          { st with
            index := st.index + 3,
            tempCount := st.tempCount + 1,
            intermediateCode := st.intermediateCode ++
              [tempName st.tempCount ++ " = ".toList ++ (a ++ " + ".toList ++ b)],
            tempMap := mapSet st.tempMap (tempName st.tempCount) (a ++ " + ".toList ++ b) }) := by
    unfold combine
    rw [if_neg (by simp [had])]
    simp [getTempVar, tempName]
  rw [hcomb]
  simp only
  rw [exprLoop_exit (fuel + 1) tokens _ _ hend]

theorem parseLoop_done (fuel : Nat) (tokens : List Token) (st : State)
    (h : ¬ st.index < tokens.length) : parseLoop fuel tokens st = .ok st := by
  cases fuel with
  | zero => rw [parseLoop, if_neg h]
  | succ fuel => rw [parseLoop, if_neg h]

/-- The eight tokens of `let z = a + b` `print z`. -/
theorem getElem?_tail (P S : List Token) (k : Nat) : (P ++ S)[P.length + k]? = S[k]? := by
  rw [List.getElem?_append_right (by omega)]
  congr 1
  omega

/-- From the start of `let z = a + b` `print z` at the end of the token
sequence, the loop of `parse` returns `true` having appended `t<c> = a + b`,
`z = t<c>` and `print z`. -/
theorem parseLoop_final (P : List Token) (z a b : Str) (st : State) (fuel : Nat)
    (hidx : st.index = P.length)
    (hac : ∀ c ∈ a, isBufferChar c = true) (hbc : ∀ c ∈ b, isBufferChar c = true)
    (had : isdigit (charAt a 0) = false) :
    ∃ st1, parseLoop (fuel + 2)
        (P ++ [⟨.KEYWORD, "let".toList⟩, ⟨.IDENTIFIER, z⟩, ⟨.OPERATOR, "=".toList⟩,
          ⟨.IDENTIFIER, a⟩, ⟨.OPERATOR, "+".toList⟩, ⟨.IDENTIFIER, b⟩,
          ⟨.KEYWORD, "print".toList⟩, ⟨.IDENTIFIER, z⟩]) st = .ok st1 ∧
      st1.intermediateCode = st.intermediateCode ++
        [tempName st.tempCount ++ " = ".toList ++ (a ++ " + ".toList ++ b),
         z ++ " = ".toList ++ tempName st.tempCount,
         "print ".toList ++ z] := by
  generalize hT : P ++ [⟨.KEYWORD, "let".toList⟩, ⟨.IDENTIFIER, z⟩, ⟨.OPERATOR, "=".toList⟩,
          ⟨.IDENTIFIER, a⟩, ⟨.OPERATOR, "+".toList⟩, ⟨.IDENTIFIER, b⟩,
          ⟨.KEYWORD, "print".toList⟩, (⟨.IDENTIFIER, z⟩ : Token)] = tokens
  have hlen : tokens.length = P.length + 8 := by rw [← hT]; simp
  have hget : ∀ k, tokens[st.index + k]? =
      ([⟨.KEYWORD, "let".toList⟩, ⟨.IDENTIFIER, z⟩, ⟨.OPERATOR, "=".toList⟩,
          ⟨.IDENTIFIER, a⟩, ⟨.OPERATOR, "+".toList⟩, ⟨.IDENTIFIER, b⟩,
          ⟨.KEYWORD, "print".toList⟩, (⟨.IDENTIFIER, z⟩ : Token)])[k]? := by
    intro k; rw [← hT, hidx]; exact getElem?_tail _ _ k
  have h0 : tokens[st.index]? = some ⟨.KEYWORD, "let".toList⟩ := hget 0
  have h1 : tokens[st.index + 1]? = some ⟨.IDENTIFIER, z⟩ := hget 1
  have h2 : tokens[st.index + 1 + 1]? = some ⟨.OPERATOR, "=".toList⟩ := hget 2
  have h3 : tokens[st.index + 1 + 1 + 1]? = some ⟨.IDENTIFIER, a⟩ := hget 3
  have h4 : tokens[st.index + 1 + 1 + 1 + 1]? = some ⟨.OPERATOR, "+".toList⟩ := hget 4
  have h5 : tokens[st.index + 1 + 1 + 1 + 2]? = some ⟨.IDENTIFIER, b⟩ := hget 5
  have h6 : tokens[st.index + 1 + 1 + 1 + 3]? = some ⟨.KEYWORD, "print".toList⟩ := hget 6
  have h7 : tokens[st.index + 1 + 1 + 1 + 3 + 1]? = some ⟨.IDENTIFIER, z⟩ := hget 7
  -- the `let` statement
  have hgen := generateExpressionCode_add tokens
    { st with symbolTable := setInsert st.symbolTable z, index := st.index + 1 + 1 + 1 }
    a b (2 * tokens.length + 1 - 4) h3 h4 h5 (by simp only; rw [h6]; simp)
    (clean_ne_paren a hac) (clean_ne_paren b hbc) had
  have hfuel : 2 * tokens.length + 1 - 4 + 4 = 2 * tokens.length + 1 := by omega
  rw [hfuel] at hgen
  have hlet : parseStatement tokens st = .ok
      { st with
        index := st.index + 1 + 1 + 1 + 3,
        symbolTable := setInsert st.symbolTable z,
        tempCount := st.tempCount + 1,
        intermediateCode := st.intermediateCode ++
          [tempName st.tempCount ++ " = ".toList ++ (a ++ " + ".toList ++ b)] ++
          [z ++ " = ".toList ++ tempName st.tempCount],
        tempMap := mapSet st.tempMap (tempName st.tempCount) (a ++ " + ".toList ++ b),
        valueMap := mapSet st.valueMap z (tempName st.tempCount) } := by
    rw [parseStatement_let tokens st h0]
    unfold parseLet
    simp only [h1, if_true, h2, and_self]
    rw [hgen]
  have hlt0 : st.index < tokens.length := by omega
  rw [parseLoop_succ_of_lt _ tokens st hlt0, hlet]
  simp only
  -- the `print` statement
  have hmem : z ∈ setInsert st.symbolTable z := by
    unfold setInsert
    split
    · assumption
    · simp
  rw [parseLoop_succ_of_lt _ tokens _ (by simp only; omega)]
  rw [parseStatement_print tokens _ h6]
  unfold parsePrint
  simp only [h7, if_true]
  rw [if_neg (by simpa using hmem)]
  simp only
  rw [parseLoop_done _ tokens _ (by simp only; omega)]
  exact ⟨_, rfl, by simp⟩

/-! ## Optimizer and emitter on a list with a known tail -/

theorem optimizeFrom_append : ∀ (L1 L2 : List Str) (M : List (Str × Str)),
    optimizeFrom M (L1 ++ L2) = optimizeFrom M L1 ++ optimizeFrom (mapAfter M L1) L2 := by
  intro L1
  induction L1 with
  | nil => intro L2 M; rfl
  | cons line rest ih =>
    intro L2 M
    show optimizeFrom M (line :: (rest ++ L2)) = _
    rw [optimizeFrom, optimizeFrom, mapAfter]
    cases hap : assignParts line with
    | none => simp only; rw [ih]; rfl
    | some pr =>
      obtain ⟨l, r⟩ := pr
      simp only
      split
      · rw [ih]
      · rw [ih]; rfl

theorem mapAfter_keys : ∀ (L : List Str) (M : List (Str × Str)) (k v : Str),
    mapFind (mapAfter M L) k = some v →
    mapFind M k ≠ none ∨ ∃ line ∈ L, lhsOf line = some k := by
  intro L
  induction L with
  | nil => intro M k v h; left; rw [mapAfter] at h; rw [h]; simp
  | cons line rest ih =>
    intro M k v h
    rw [mapAfter] at h
    cases hap : assignParts line with
    | none =>
      rw [hap] at h
      rcases ih M k v h with h1 | ⟨l1, hl1, hk⟩
      · exact Or.inl h1
      · exact Or.inr ⟨l1, List.mem_cons_of_mem _ hl1, hk⟩
    | some pr =>
      obtain ⟨l, r⟩ := pr
      rw [hap] at h
      rcases ih _ k v h with h1 | ⟨l1, hl1, hk⟩
      · by_cases hkl : k = l
        · right
          exact ⟨line, List.mem_cons_self _ _, by simp [lhsOf, hap, hkl]⟩
        · rw [mapFind_mapSet_ne _ _ _ _ hkl] at h1
          exact Or.inl h1
      · exact Or.inr ⟨l1, List.mem_cons_of_mem _ hl1, hk⟩

/-- After well-shaped lines, no key of the rewrite map holds a blank. -/
theorem mapAfter_blank_key (L : List Str) (hgood : ∀ line ∈ L, GoodLine line) (k : Str)
    (hk : ' ' ∈ k) : mapHas (mapAfter [] L) k = false := by
  unfold mapHas
  cases h : mapFind (mapAfter [] L) k with
  | none => rfl
  | some v =>
    exfalso
    rcases mapAfter_keys L [] k v h with h1 | ⟨line, hl, hlhs⟩
    · exact h1 rfl
    · unfold lhsOf at hlhs
      cases hap : assignParts line with
      | none => rw [hap] at hlhs; cases hlhs
      | some pr =>
        obtain ⟨l, r⟩ := pr
        rw [hap] at hlhs
        simp only [Option.map_some', Option.some.injEq] at hlhs
        subst hlhs
        exact (hgood line hl).lhs_blank_free _ r hap hk

theorem optimizeFrom_lines : ∀ (L : List Str) (M : List (Str × Str)) (line : Str),
    line ∈ optimizeFrom M L →
    (∃ l r, line = l ++ " = ".toList ++ r) ∨ (line ∈ L ∧ assignParts line = none) := by
  intro L
  induction L with
  | nil => intro M line h; simp [optimizeFrom] at h
  | cons x rest ih =>
    intro M line h
    rw [optimizeFrom] at h
    cases hap : assignParts x with
    | none =>
      rw [hap] at h
      rcases List.mem_cons.1 h with h1 | h1
      · right; rw [h1]; exact ⟨List.mem_cons_self _ _, hap⟩
      · rcases ih M line h1 with h2 | h2
        · exact Or.inl h2
        · exact Or.inr ⟨List.mem_cons_of_mem _ h2.1, h2.2⟩
    | some pr =>
      obtain ⟨l, r⟩ := pr
      rw [hap] at h
      simp only at h
      split at h
      · rcases ih _ line h with h2 | h2
        · exact Or.inl h2
        · exact Or.inr ⟨List.mem_cons_of_mem _ h2.1, h2.2⟩
      · rcases List.mem_cons.1 h with h1 | h1
        · exact Or.inl ⟨_, _, h1⟩
        · rcases ih _ line h1 with h2 | h2
          · exact Or.inl h2
          · exact Or.inr ⟨List.mem_cons_of_mem _ h2.1, h2.2⟩

theorem find_joined_ne_none (pat : Str) : ∀ (l r : Str), find pat (l ++ pat ++ r) ≠ none := by
  intro l
  induction l with
  | nil =>
    intro r
    rw [find_of_isPrefixOf]
    · simp
    · rw [List.isPrefixOf_iff_prefix]; simp
  | cons c l ih =>
    intro r
    show find pat (c :: (l ++ pat ++ r)) ≠ none
    rw [find]
    split
    · simp
    · cases h : find pat (l ++ pat ++ r) with
      | none => exact absurd h (ih r)
      | some q => simp

theorem assembleLine_of_find (line : Str) (h : find " = ".toList line ≠ none) :
    ∃ ls, assembleLine line = .ok ls := by
  unfold assembleLine
  cases hf : find " = ".toList line with
  | none => exact absurd hf h
  | some pos =>
    simp only
    split
    · exact ⟨_, rfl⟩
    · exact ⟨_, rfl⟩

theorem assembleLine_print (v : Str) (h : assignParts ("print ".toList ++ v) = none) :
    assembleLine ("print ".toList ++ v) = .ok ["print ".toList ++ v] := by
  have hf : find " = ".toList ("print ".toList ++ v) = none := by
    unfold assignParts at h
    cases hf : find " = ".toList ("print ".toList ++ v) with
    | none => rfl
    | some p => rw [hf] at h; cases h
  have hp : find "print".toList ("print ".toList ++ v) = some 0 := by
    apply find_of_isPrefixOf
    rw [List.isPrefixOf_iff_prefix]
    exact ⟨' ' :: v, rfl⟩
  have hs : substrFrom ("print ".toList ++ v) 6 = .ok v := by
    unfold substrFrom
    rw [if_pos (by simp)]
    rfl
  unfold assembleLine
  rw [hf]
  simp only
  rw [hp]
  simp only
  rw [hs]

theorem generateAssembly_total : ∀ (L : List Str),
    (∀ line ∈ L, ∃ ls, assembleLine line = .ok ls) → ∃ out, generateAssembly L = .ok out := by
  intro L
  induction L with
  | nil => intro _; exact ⟨[], rfl⟩
  | cons x rest ih =>
    intro h
    obtain ⟨ls, hls⟩ := h x (List.mem_cons_self _ _)
    obtain ⟨more, hmore⟩ := ih (fun line hl => h line (List.mem_cons_of_mem _ hl))
    refine ⟨ls ++ more, ?_⟩
    rw [generateAssembly, hls]
    simp only
    rw [hmore]

theorem generateAssembly_append : ∀ (L1 L2 : List Str) (x y : List Str),
    generateAssembly L1 = .ok x → generateAssembly L2 = .ok y →
    generateAssembly (L1 ++ L2) = .ok (x ++ y) := by
  intro L1
  induction L1 with
  | nil =>
    intro L2 x y h1 h2
    rw [generateAssembly] at h1
    cases h1
    simpa using h2
  | cons l rest ih =>
    intro L2 x y h1 h2
    rw [generateAssembly] at h1
    cases hl : assembleLine l with
    | error f => rw [hl] at h1; cases h1
    | ok ls =>
      rw [hl] at h1
      simp only at h1
      cases hr : generateAssembly rest with
      | error f => rw [hr] at h1; cases h1
      | ok more =>
        rw [hr] at h1
        simp only [Except.ok.injEq] at h1
        subst h1
        show generateAssembly (l :: (rest ++ L2)) = _
        rw [generateAssembly, hl]
        simp only
        rw [ih L2 more y hr h2]
        simp

/-- The emitter does not fault on the optimized form of well-shaped lines. -/
theorem generateAssembly_optimized (L : List Str) (hgood : ∀ line ∈ L, GoodLine line)
    (M : List (Str × Str)) : ∃ out, generateAssembly (optimizeFrom M L) = .ok out := by
  apply generateAssembly_total
  intro line hl
  rcases optimizeFrom_lines L M line hl with ⟨l, r, rfl⟩ | ⟨hmem, hnone⟩
  · exact assembleLine_of_find _ (find_joined_ne_none _ l r)
  · obtain ⟨v, rfl⟩ := (hgood line hmem).print_of_none hnone
    exact ⟨_, assembleLine_print v hnone⟩

/-- The optimizer on the three lines `t<c> = a + b`, `z = t<c>`, `print z`:
the temporary assignment is dropped and its value substituted into `z`. -/
theorem optimizeFrom_add_tail (M : List (Str × Str)) (c : Nat) (z a b : Str)
    (hM : mapHas M (a ++ " + ".toList ++ b) = false)
    (hzc : ∀ c ∈ z, isBufferChar c = true) (hz : isTempName z = false) :
    optimizeFrom M
      [tempName c ++ " = ".toList ++ (a ++ " + ".toList ++ b),
       z ++ " = ".toList ++ tempName c,
       "print ".toList ++ z]
      = [z ++ " = ".toList ++ (a ++ " + ".toList ++ b), "print ".toList ++ z] := by
  have h1 := assignParts_of_blank_free (tempName c) (a ++ " + ".toList ++ b)
    (tempName_blank_free c)
  have h2 := assignParts_of_blank_free z (tempName c) (blank_free_of_clean z hzc)
  have h3 := assignParts_print z hzc
  have hs1 : substRhs M (a ++ " + ".toList ++ b) = a ++ " + ".toList ++ b := by
    unfold substRhs; rw [hM]; rfl
  have hs2 : substRhs (mapSet M (tempName c) (a ++ " + ".toList ++ b)) (tempName c)
      = a ++ " + ".toList ++ b := by
    unfold substRhs mapHas mapGet
    rw [mapFind_mapSet_self]
    rfl
  rw [optimizeFrom, h1]
  simp only
  rw [if_pos (isTempName_tempName c), hs1, optimizeFrom, h2]
  simp only
  rw [if_neg (by simp [hz]), hs2, optimizeFrom, h3]
  rfl

/-- The emitter on `z = a + b`: the four-line add pattern. -/
theorem assembleLine_add (z a b : Str) (hz : ' ' ∉ z) (ha : ' ' ∉ a) :
    assembleLine (z ++ " = ".toList ++ (a ++ " + ".toList ++ b))
      = .ok ["mov r0, ".toList ++ a, "mov r1, ".toList ++ b, "add r0, r1".toList,
             "str r0, ".toList ++ z] := by
  have hf1 : find " = ".toList (z ++ " = ".toList ++ (a ++ " + ".toList ++ b))
      = some z.length := find_after_blank_free "= ".toList z _ hz
  have hf2 : find " + ".toList (a ++ " + ".toList ++ b) = some a.length :=
    find_after_blank_free "+ ".toList a b ha
  have hd1 : (z ++ " = ".toList ++ (a ++ " + ".toList ++ b)).drop (z.length + 3)
      = a ++ " + ".toList ++ b := by
    have h3 : (z ++ " = ".toList).length = z.length + 3 := by simp
    rw [List.drop_left' h3]
  have ht1 : (z ++ " = ".toList ++ (a ++ " + ".toList ++ b)).take z.length = z := by
    rw [List.append_assoc, List.take_left]
  have hd2 : (a ++ " + ".toList ++ b).drop (a.length + 3) = b := by
    have h3 : (a ++ " + ".toList).length = a.length + 3 := by simp
    rw [List.drop_left' h3]
  have ht2 : (a ++ " + ".toList ++ b).take a.length = a := by
    rw [List.append_assoc, List.take_left]
  unfold assembleLine
  rw [hf1]
  simp only
  rw [hd1, hf2]
  simp only
  rw [ht1, ht2, hd2]

/-! ## End to end -/

/-- The end-to-end property on every program in which the statement loop gets
to the final `let`: let the tokens of a program be a leading part `P` followed
by `let z = a + b` and `print z`, with `a`, `b`, `z` Identifier tokens and `z`
not of the temporary shape, and let the statement loop of `parse`, started on
fresh globals, be at the final `let` after `n` statements.  Then the
compilation succeeds, the optimized code ends with `z = a + b`, `print z` and
the assembly ends with `mov r0, a`, `mov r1, b`, `add r0, r1`, `str r0, z`,
`print z`. -/
theorem add_then_print_of_reached (code : Str) (P : List Token) (z a b : Str) (n : Nat)
    (st : State)
    (htok : tokenize code =
      P ++ [⟨.KEYWORD, "let".toList⟩, ⟨.IDENTIFIER, z⟩, ⟨.OPERATOR, "=".toList⟩,
        ⟨.IDENTIFIER, a⟩, ⟨.OPERATOR, "+".toList⟩, ⟨.IDENTIFIER, b⟩,
        ⟨.KEYWORD, "print".toList⟩, ⟨.IDENTIFIER, z⟩])
    (hz : isTempName z = false)
    (hreach : parseSteps n (tokenize code) State.init = .ok st)
    (hidx : st.index = P.length) :
    ∃ pre asmPre, compile code
      = .done (pre ++ [z ++ " = ".toList ++ (a ++ " + ".toList ++ b), "print ".toList ++ z])
          (asmPre ++ ["mov r0, ".toList ++ a, "mov r1, ".toList ++ b, "add r0, r1".toList,
            "str r0, ".toList ++ z, "print ".toList ++ z]) := by
  have hlex := tokenize_lexed code
  have hzl := (hlex ⟨.IDENTIFIER, z⟩ (by rw [htok]; simp)).identifier rfl
  have hal := (hlex ⟨.IDENTIFIER, a⟩ (by rw [htok]; simp)).identifier rfl
  have hbl := (hlex ⟨.IDENTIFIER, b⟩ (by rw [htok]; simp)).identifier rfl
  simp only at hzl hal hbl
  obtain ⟨hn, hgood, hloop⟩ := parseSteps_inv (tokenize code) hlex n State.init st
    (by intro line h; simp [State.init] at h) hreach
  have hlen : (tokenize code).length = P.length + 8 := by rw [htok]; simp
  have hn' : n ≤ P.length := by
    have : State.init.index = 0 := rfl
    omega
  -- the parse
  obtain ⟨st1, hparse, hcode⟩ : ∃ st1, parse (tokenize code) State.init = .ok st1 ∧
      st1.intermediateCode = st.intermediateCode ++
        [tempName st.tempCount ++ " = ".toList ++ (a ++ " + ".toList ++ b),
         z ++ " = ".toList ++ tempName st.tempCount,
         "print ".toList ++ z] := by
    have e : (tokenize code).length = n + ((P.length + 6 - n) + 2) := by omega
    have hp : parse (tokenize code) State.init
        = parseLoop ((P.length + 6 - n) + 2) (tokenize code) st := by
      show parseLoop (tokenize code).length (tokenize code) State.init = _
      rw [e]
      exact hloop _
    rw [hp, htok]
    exact parseLoop_final P z a b st _ hidx hal.2.1 hbl.2.1 hal.2.2.1
  -- the optimizer
  have hblank : ' ' ∈ a ++ " + ".toList ++ b := by
    apply List.mem_append_left
    apply List.mem_append_right
    decide
  have hopt : optimizeCode st1.intermediateCode
      = optimizeFrom [] st.intermediateCode ++
          [z ++ " = ".toList ++ (a ++ " + ".toList ++ b), "print ".toList ++ z] := by
    rw [optimizeCode_eq, hcode, optimizeFrom_append,
      optimizeFrom_add_tail _ _ z a b (mapAfter_blank_key _ hgood _ hblank) hzl.2.1 hz]
  -- the emitter
  obtain ⟨asmPre, hpre⟩ := generateAssembly_optimized st.intermediateCode hgood []
  have htail : generateAssembly
      [z ++ " = ".toList ++ (a ++ " + ".toList ++ b), "print ".toList ++ z]
      = .ok ["mov r0, ".toList ++ a, "mov r1, ".toList ++ b, "add r0, r1".toList,
            "str r0, ".toList ++ z, "print ".toList ++ z] := by
    rw [generateAssembly, assembleLine_add z a b (blank_free_of_clean z hzl.2.1)
      (blank_free_of_clean a hal.2.1)]
    simp only
    rw [generateAssembly, assembleLine_print z (assignParts_print z hzl.2.1)]
    rfl
  have hasm := generateAssembly_append _ _ _ _ hpre htail
  refine ⟨optimizeFrom [] st.intermediateCode, asmPre, ?_⟩
  unfold compile
  rw [hparse]
  simp only
  rw [hopt, hasm]

/-- The reference program is an instance of `add_then_print_of_reached`, with
`let x = 10`, `let y = 20` as the leading part, reached in two statements. -/
theorem add_then_print_reference :
    ∃ pre asmPre, compile referenceProgram
      = .done (pre ++ ["z".toList ++ " = ".toList ++ ("x".toList ++ " + ".toList ++ "y".toList),
            "print ".toList ++ "z".toList])
          (asmPre ++ ["mov r0, ".toList ++ "x".toList, "mov r1, ".toList ++ "y".toList,
            "add r0, r1".toList, "str r0, ".toList ++ "z".toList,
            "print ".toList ++ "z".toList]) :=
  add_then_print_of_reached referenceProgram
    [⟨.KEYWORD, "let".toList⟩, ⟨.IDENTIFIER, "x".toList⟩, ⟨.OPERATOR, "=".toList⟩,
     ⟨.NUMBER, "10".toList⟩,
     ⟨.KEYWORD, "let".toList⟩, ⟨.IDENTIFIER, "y".toList⟩, ⟨.OPERATOR, "=".toList⟩,
     ⟨.NUMBER, "20".toList⟩]
    "z".toList "x".toList "y".toList 2
    { index := 8, symbolTable := ["y".toList, "x".toList],
      intermediateCode := ["x = 10".toList, "y = 20".toList], tempCount := 1,
      valueMap := [("y".toList, "20".toList), ("x".toList, "10".toList)], tempMap := [] }
    (by decide) (by decide) (by decide) (by decide)

/-! ## End to end: the claim -/

/-- C1 on the code: the reference program compiles to exactly `x = 10`,
`y = 20`, `z = x + y`, `print z` with the add pattern in the assembly, but the
general statement fails where an earlier `let` has a parenthesised expression.
The let-statements `let z = 1`, `let q = ((1)) + 2` parse successfully on their
own; followed by `let z = a + b`, `print z` the whole program parses
successfully too, yet the optimized code is `z = 1`, `q = t3 = t4`, `print z`
and the assembly has no add pattern (the closing parentheses are taken as
operators and the final `let z =` is swallowed into the expression of `q`).
After the single statement `let q = (1) + 2` the same two statements are
rejected with a syntax error at `z`.  Without the parentheses the claimed
output is produced. -/
theorem C1_parenthesised_let_breaks_final_statement :
    main = .done ["x = 10".toList, "y = 20".toList, "z = x + y".toList, "print z".toList]
      ["mov x, 10".toList, "mov y, 20".toList, "mov r0, x".toList, "mov r1, y".toList,
       "add r0, r1".toList, "str r0, z".toList, "print z".toList] ∧
    parse (tokenize "let z = 1 let q = ((1)) + 2".toList) State.init
      = .ok { index := 16, symbolTable := ["q".toList, "z".toList],
              intermediateCode := ["z = 1".toList, "t1 =  + 2".toList, "t2 =  ) t1".toList,
                "t3 = 1 ) t2".toList, "q = t3".toList],
              tempCount := 4,
              valueMap := [("q".toList, "t3".toList), ("z".toList, "1".toList)],
              tempMap := [("t3".toList, "1 ) t2".toList), ("t2".toList, " ) t1".toList),
                ("t1".toList, " + 2".toList)] } ∧
    compile "let z = 1 let q = ((1)) + 2 let z = a + b print z".toList
      = .done ["z = 1".toList, "q = t3 = t4".toList, "print z".toList]
          ["mov z, 1".toList, "mov q, t3 = t4".toList, "print z".toList] ∧
    compile "let q = (1) + 2 let z = a + b print z".toList
      = .rejected (.unexpectedToken "z".toList) ∧
    compile "let z = 1 let q = 1 + 2 let z = a + b print z".toList
      = .done ["z = 1".toList, "q = 3".toList, "z = a + b".toList, "print z".toList]
          ["mov z, 1".toList, "mov q, 3".toList, "mov r0, a".toList, "mov r1, b".toList,
           "add r0, r1".toList, "str r0, z".toList, "print z".toList] := by
  decide

/-! ## Optimizer: temporaries and user variables -/

/-- C11 on its own example: `let z = x + y + w` parses to `t1 = y + w`,
`t2 = x + t1`, `z = t2`; the optimizer drops both temporary assignments and
substitutes only `t2`, so the optimized code `z = x + t1` has the dropped
temporary `t1` as an operand (also when `x`, `y`, `w` are declared first and
`z` is printed). -/
theorem C11_dropped_temporary_still_used :
    parse (tokenize "let z = x + y + w".toList) State.init
      = .ok { index := 8, symbolTable := ["z".toList],
              intermediateCode := ["t1 = y + w".toList, "t2 = x + t1".toList, "z = t2".toList],
              tempCount := 3,
              valueMap := [("z".toList, "t2".toList)],
              tempMap := [("t2".toList, "x + t1".toList), ("t1".toList, "y + w".toList)] } ∧
    optimizeCode ["t1 = y + w".toList, "t2 = x + t1".toList, "z = t2".toList]
      = ["z = x + t1".toList] ∧
    compile "let x = 1 let y = 2 let w = 3 let z = x + y + w print z".toList
      = .done ["x = 1".toList, "y = 2".toList, "w = 3".toList, "z = x + t1".toList,
               "print z".toList]
          ["mov x, 1".toList, "mov y, 2".toList, "mov w, 3".toList, "mov r0, x".toList,
           "mov r1, t1".toList, "add r0, r1".toList, "str r0, z".toList, "print z".toList] ∧
    runCode ["x = 1".toList, "y = 2".toList, "w = 3".toList, "t1 = y + w".toList,
             "t2 = x + t1".toList, "z = t2".toList, "print z".toList] = [6] ∧
    runCode ["x = 1".toList, "y = 2".toList, "w = 3".toList, "z = x + t1".toList,
             "print z".toList] = [1] := by
  decide

/-- C12 on a variable named like a temporary: `let t1 = 5` `print t1` parses to
`t1 = 5`, `print t1` without the expression builder allocating any temporary
(the counter stays 1), and the optimizer drops the assignment of the user
variable `t1`: the optimized code is `print t1` alone.  With the name `u1` the
assignment is kept. -/
theorem C12_user_variable_dropped :
    parse (tokenize "let t1 = 5 print t1".toList) State.init
      = .ok { index := 6, symbolTable := ["t1".toList],
              intermediateCode := ["t1 = 5".toList, "print t1".toList],
              tempCount := 1,
              valueMap := [("t1".toList, "5".toList)],
              tempMap := [] } ∧
    compile "let t1 = 5 print t1".toList = .done ["print t1".toList] ["print t1".toList] ∧
    compile "let u1 = 5 print u1".toList
      = .done ["u1 = 5".toList, "print u1".toList] ["mov u1, 5".toList, "print u1".toList] := by
  decide

/-- C13 on a re-declared variable: in `let a = 1`, `let b = a + 1`, `let a = 5`,
`let c = b`, `print c` every variable is declared before it is used, no name
has the temporary shape and every expression has at most one operator.  The
intermediate code `a = 1`, `t1 = a + 1`, `b = t1`, `a = 5`, `c = b`, `print c`
prints 2; the optimized code `a = 1`, `b = a + 1`, `a = 5`, `c = a + 1`,
`print c` prints 6, because `c = b` was replaced by the expression `b` was
bound to before `a` was re-declared. -/
theorem C13_stale_binding_changes_output :
    parse (tokenize "let a = 1 let b = a + 1 let a = 5 let c = b print c".toList) State.init
      = .ok { index := 20, symbolTable := ["c".toList, "b".toList, "a".toList],
              intermediateCode := ["a = 1".toList, "t1 = a + 1".toList, "b = t1".toList,
                "a = 5".toList, "c = b".toList, "print c".toList],
              tempCount := 2,
              valueMap := [("c".toList, "b".toList), ("a".toList, "5".toList),
                ("b".toList, "t1".toList), ("a".toList, "1".toList)],
              tempMap := [("t1".toList, "a + 1".toList)] } ∧
    optimizeCode ["a = 1".toList, "t1 = a + 1".toList, "b = t1".toList,
                "a = 5".toList, "c = b".toList, "print c".toList]
      = ["a = 1".toList, "b = a + 1".toList, "a = 5".toList, "c = a + 1".toList,
         "print c".toList] ∧
    runCode ["a = 1".toList, "t1 = a + 1".toList, "b = t1".toList,
                "a = 5".toList, "c = b".toList, "print c".toList] = [2] ∧
    runCode ["a = 1".toList, "b = a + 1".toList, "a = 5".toList, "c = a + 1".toList,
         "print c".toList] = [6] := by
  decide

/-! ## Constant folding of other operators -/

/-- C14 on the operator `^`: both operands of `2 ^ 3` are numerals, so the
expression builder folds, but `res` keeps its initial value 0 for an operator
that is none of `+ - * /`: `let x = 2 ^ 3` yields `x = 0`, and so does
`let x = 7 , 9`.  For the four arithmetic operators the folded numeral is the
value of the operation (`7 / 2` gives 3, `2 - 5` gives -3). -/
theorem C14_unevaluated_operator_folds_to_zero :
    foldArith "^".toList 2 3 = .ok 0 ∧
    combine "^".toList "2".toList "3".toList State.init = .ok ("0".toList, State.init) ∧
    compile "let x = 2 ^ 3".toList = .done ["x = 0".toList] ["mov x, 0".toList] ∧
    compile "let x = 7 , 9".toList = .done ["x = 0".toList] ["mov x, 0".toList] ∧
    compile "let x = 7 / 2".toList = .done ["x = 3".toList] ["mov x, 3".toList] ∧
    compile "let x = 2 - 5".toList = .done ["x = -3".toList] ["mov x, -3".toList] ∧
    compile "let x = 2 * 3".toList = .done ["x = 6".toList] ["mov x, 6".toList] ∧
    compile "let x = 2 + 3".toList = .done ["x = 5".toList] ["mov x, 5".toList] := by
  decide

/-! ## Reads past the end of the token vector -/

/-- C18 on its own examples: on `let x =` the expression builder is entered
with the cursor at `tokens.size()`; the test of line 91 is guarded by
`index < tokens.size()`, the one of line 95 is not and reads `tokens[3]` of a
three-token vector.  The same happens after a trailing operator (`let x = 1 +`)
and after a closing parenthesis (`let x = (2 + 3)`). -/
theorem C18_read_past_last_token :
    tokenize "let x =".toList
      = [⟨.KEYWORD, "let".toList⟩, ⟨.IDENTIFIER, "x".toList⟩, ⟨.OPERATOR, "=".toList⟩] ∧
    generateExpressionCode 7 (tokenize "let x =".toList) { State.init with index := 3 }
      = .error .outOfRange ∧
    parse (tokenize "let x =".toList) State.init = .crashed .outOfRange ∧
    parse (tokenize "let x = 1 +".toList) State.init = .crashed .outOfRange ∧
    parse (tokenize "let x = (2 + 3)".toList) State.init = .crashed .outOfRange := by
  decide

/-! ## Re-lexing -/

theorem tokenize_eq_finish (code : Str) :
    tokenize code = finishTokens (tokenizeLoop code [] []) := rfl

/-- A run of buffer characters goes into the buffer. -/
theorem tokenizeLoop_word (w : Str) : ∀ (rest : Str) (tokens : List Token) (buffer : Str),
    (∀ c ∈ w, isBufferChar c = true) →
    tokenizeLoop (w ++ rest) tokens buffer = tokenizeLoop rest tokens (buffer ++ w) := by
  induction w with
  | nil => intro rest tokens buffer _; simp
  | cons c w ih =>
    intro rest tokens buffer h
    have hc := h c (by simp)
    simp only [isBufferChar, Bool.and_eq_true, Bool.not_eq_true'] at hc
    show tokenizeLoop (c :: (w ++ rest)) tokens buffer = _
    rw [tokenizeLoop_buffer c _ tokens buffer (by simp [hc.1]) (by simp [hc.2]),
      ih rest tokens (buffer ++ [c]) (fun d hd => h d (by simp [hd]))]
    simp

/-- One lexed token followed by a blank is lexed back as itself. -/
theorem tokenizeLoop_token_blank (t : Token) (ht : LexedToken t) (rest : Str)
    (tokens : List Token) :
    tokenizeLoop (t.value ++ ' ' :: rest) tokens [] = tokenizeLoop rest (tokens ++ [t]) [] := by
  rcases ht with ⟨c, hc, rfl⟩ | ⟨hne, hclean, hcl⟩
  · have hs : ¬ isspace c = true := by
      intro hsp
      rw [isspace_not_operator c hsp] at hc
      cases hc
    show tokenizeLoop (c :: ' ' :: rest) tokens [] = _
    rw [tokenizeLoop_op_only c _ tokens hs hc,
      tokenizeLoop_space_skip ' ' rest _ (by decide)]
  · rw [tokenizeLoop_word t.value _ tokens [] hclean, List.nil_append,
      tokenizeLoop_space_flush ' ' rest tokens t.value (by decide) hne, ← hcl]

/-- The last lexed token, at the end of the text, is lexed back as itself. -/
theorem tokenizeLoop_token_end (t : Token) (ht : LexedToken t) (tokens : List Token) :
    finishTokens (tokenizeLoop t.value tokens []) = tokens ++ [t] := by
  rcases ht with ⟨c, hc, rfl⟩ | ⟨hne, hclean, hcl⟩
  · have hs : ¬ isspace c = true := by
      intro hsp
      rw [isspace_not_operator c hsp] at hc
      cases hc
    show finishTokens (tokenizeLoop [c] tokens []) = _
    rw [tokenizeLoop_op_only c _ tokens hs hc]
    simp [tokenizeLoop, finishTokens]
  · have h := tokenizeLoop_word t.value [] tokens [] hclean
    rw [List.append_nil, List.nil_append] at h
    rw [h]
    simp only [tokenizeLoop, finishTokens]
    rw [if_pos hne, ← hcl]

/-- Lexed tokens joined by single blanks are lexed back as they were. -/
theorem tokenizeLoop_joinBlank : ∀ (ts : List Token), (∀ t ∈ ts, LexedToken t) →
    ∀ (tokens : List Token),
    finishTokens (tokenizeLoop (joinBlank (ts.map Token.value)) tokens []) = tokens ++ ts := by
  intro ts
  induction ts with
  | nil => intro _ tokens; simp [joinBlank, tokenizeLoop, finishTokens]
  | cons t ts ih =>
    intro h tokens
    cases ts with
    | nil =>
      simpa [joinBlank] using tokenizeLoop_token_end t (h t (by simp)) tokens
    | cons t2 ts =>
      have e : joinBlank ((t :: t2 :: ts).map Token.value)
          = t.value ++ ' ' :: joinBlank ((t2 :: ts).map Token.value) := by
        simp [joinBlank]
      rw [e, tokenizeLoop_token_blank t (h t (by simp)),
        ih (fun x hx => h x (by simp [hx])) (tokens ++ [t])]
      simp

/-- C20 (re-lexing stability): for every input string, tokenizing the token
texts joined by single blanks gives the same token list again, kinds and texts
in the same order. -/
theorem C20_relexing_stable (s : Str) :
    tokenize (joinBlank ((tokenize s).map Token.value)) = tokenize s := by
  rw [tokenize_eq_finish (joinBlank _),
    tokenizeLoop_joinBlank (tokenize s) (tokenize_lexed s) []]
  rfl

/-! ## Statement parser: the cases of one iteration -/

/-- The shapes of a successful iteration of the statement loop: a `let` (the
builder runs on the globals with the variable declared, then `name = result`
is appended and the value map updated), a `print` of a declared variable, or
any other keyword, which only moves the cursor by one. -/
theorem parseStatement_ok_cases (tokens : List Token) (st st1 : State)
    (h : parseStatement tokens st = .ok st1) :
    st.index < tokens.length ∧
    ((∃ varName result st2,
        tokens[st.index]? = some ⟨.KEYWORD, "let".toList⟩ ∧
        tokens[st.index + 1]? = some ⟨.IDENTIFIER, varName⟩ ∧
        generateExpressionCode (2 * tokens.length + 1) tokens
          { st with symbolTable := setInsert st.symbolTable varName,
                    index := st.index + 1 + 1 + 1 } = .ok (result, st2) ∧
        st1 = { st2 with
          intermediateCode := st2.intermediateCode ++ [varName ++ " = ".toList ++ result],
          valueMap := mapSet st2.valueMap varName result }) ∨
     (∃ varName,
        tokens[st.index]? = some ⟨.KEYWORD, "print".toList⟩ ∧
        tokens[st.index + 1]? = some ⟨.IDENTIFIER, varName⟩ ∧
        varName ∈ st.symbolTable ∧
        st1 = { st with
          intermediateCode := st.intermediateCode ++ ["print ".toList ++ varName],
          index := st.index + 1 + 1 }) ∨
     (∃ keyword, tokens[st.index]? = some ⟨.KEYWORD, keyword⟩ ∧
        keyword ≠ "let".toList ∧ keyword ≠ "print".toList ∧
        st1 = { st with index := st.index + 1 })) := by
  unfold parseStatement at h
  cases ht : tokens[st.index]? with
  | none => rw [ht] at h; cases h
  | some tok =>
    have hlt := lt_length_of_getElem? _ _ _ ht
    refine ⟨hlt, ?_⟩
    rw [ht] at h
    simp only at h
    obtain ⟨ty, kw⟩ := tok
    split at h
    · rename_i hty
      simp only at hty
      subst hty
      split at h
      · rename_i hkw
        simp only at hkw
        subst hkw
        left
        obtain ⟨varName, result, st2, hname, hgen, hst1⟩ := parseLet_ok _ _ _ h
        exact ⟨varName, result, st2, rfl, hname, hgen, hst1⟩
      · split at h
        · rename_i hnl hkw
          simp only at hkw
          subst hkw
          right; left
          unfold parsePrint at h
          simp only at h
          cases hn : tokens[st.index + 1]? with
          | none => rw [hn] at h; cases h
          | some nameTok =>
            rw [hn] at h
            simp only at h
            obtain ⟨nty, nv⟩ := nameTok
            split at h
            · rename_i hnty
              simp only at hnty
              subst hnty
              split at h
              · cases h
              · rename_i hmem
                simp only [Outcome.ok.injEq] at h
                exact ⟨nv, rfl, rfl, by simpa using hmem, h.symm⟩
            · cases h
        · rename_i hnl hnp
          right; right
          refine ⟨kw, rfl, hnl, hnp, ?_⟩
          split at h <;>
          · simp only [Outcome.ok.injEq] at h
            exact h.symm
    · cases h

/-- An iteration of the statement loop that fails leaves the intermediate
code, the counter and the two maps as they were. -/
theorem parseStatement_failed (tokens : List Token) (st st1 : State) (e : ParseError)
    (h : parseStatement tokens st = .failed e st1) :
    st1.intermediateCode = st.intermediateCode ∧ st1.tempCount = st.tempCount ∧
    st1.tempMap = st.tempMap ∧ st1.valueMap = st.valueMap ∧ st.index ≤ st1.index ∧
    (∀ v ∈ st.symbolTable, v ∈ st1.symbolTable) := by
  have hsub : ∀ (tbl : List Str) (x : Str), ∀ v ∈ tbl, v ∈ setInsert tbl x := by
    intro tbl x v hv
    unfold setInsert
    split
    · exact hv
    · exact List.mem_cons_of_mem _ hv
  unfold parseStatement at h
  cases ht : tokens[st.index]? with
  | none => rw [ht] at h; cases h
  | some tok =>
    rw [ht] at h
    simp only at h
    split at h
    · split at h
      · unfold parseLet at h
        simp only at h
        cases hn : tokens[st.index + 1]? with
        | none =>
          rw [hn] at h
          simp only [Outcome.failed.injEq] at h
          rw [← h.2]
          exact ⟨rfl, rfl, rfl, rfl, Nat.le_succ _, fun v hv => hv⟩
        | some nameTok =>
          rw [hn] at h
          simp only at h
          split at h
          · cases he : tokens[st.index + 1 + 1]? with
            | none =>
              rw [he] at h
              simp only [Outcome.failed.injEq] at h
              rw [← h.2]
              exact ⟨rfl, rfl, rfl, rfl, by simp only; omega, hsub _ _⟩
            | some eqTok =>
              rw [he] at h
              simp only at h
              split at h
              · split at h
                · cases h
                · cases h
              · simp only [Outcome.failed.injEq] at h
                rw [← h.2]
                exact ⟨rfl, rfl, rfl, rfl, by simp only; omega, hsub _ _⟩
          · simp only [Outcome.failed.injEq] at h
            rw [← h.2]
            exact ⟨rfl, rfl, rfl, rfl, Nat.le_succ _, fun v hv => hv⟩
      · split at h
        · unfold parsePrint at h
          simp only at h
          cases hn : tokens[st.index + 1]? with
          | none =>
            rw [hn] at h
            simp only [Outcome.failed.injEq] at h
            rw [← h.2]
            exact ⟨rfl, rfl, rfl, rfl, Nat.le_succ _, fun v hv => hv⟩
          | some nameTok =>
            rw [hn] at h
            simp only at h
            split at h
            · split at h
              · simp only [Outcome.failed.injEq] at h
                rw [← h.2]
                exact ⟨rfl, rfl, rfl, rfl, Nat.le_succ _, fun v hv => hv⟩
              · cases h
            · simp only [Outcome.failed.injEq] at h
              rw [← h.2]
              exact ⟨rfl, rfl, rfl, rfl, Nat.le_succ _, fun v hv => hv⟩
        · split at h <;> cases h
    · simp only [Outcome.failed.injEq] at h
      rw [← h.2]
      exact ⟨rfl, rfl, rfl, rfl, Nat.le_refl _, fun v hv => hv⟩

/-- A property of the globals that every iteration of the statement loop
preserves holds in the state in which `parse` returns. -/
theorem parseLoop_holds (tokens : List Token) (P : State → Prop)
    (hstep : ∀ st, P st → (parseStatement tokens st).holds P) :
    ∀ (fuel : Nat) (st : State), P st → (parseLoop fuel tokens st).holds P := by
  intro fuel
  induction fuel with
  | zero =>
    intro st hP
    rw [parseLoop]
    split
    · trivial
    · exact hP
  | succ fuel ih =>
    intro st hP
    rw [parseLoop]
    split
    · have hs := hstep st hP
      cases hps : parseStatement tokens st with
      | ok st1 => rw [hps] at hs; exact ih st1 hs
      | failed e st1 => rw [hps] at hs; exact hs
      | crashed f => trivial
    · exact hP

/-! ## Emitter: the optimized code as a list of instructions -/

/-- Every line of the intermediate code of a lexed program is well shaped,
whether `parse` returned `true` or `false`. -/
theorem parse_good_lines (tokens : List Token) (hlex : ∀ t ∈ tokens, LexedToken t) :
    (parse tokens State.init).holds (fun st => ∀ line ∈ st.intermediateCode, GoodLine line) := by
  unfold parse
  apply parseLoop_holds
  · intro st hgood
    cases hps : parseStatement tokens st with
    | ok st1 => exact (parseStatement_inv tokens hlex st st1 hgood hps).2.2
    | failed e st1 =>
      intro line hl
      rw [(parseStatement_failed tokens st st1 e hps).1] at hl
      exact hgood line hl
    | crashed f => trivial
  · intro line hl
    cases hl

/-- The optimizer turns well-shaped lines into the texts of instructions with
well-shaped names. -/
theorem optimizeFrom_instrs : ∀ (L : List Str) (M : List (Str × Str)),
    (∀ line ∈ L, GoodLine line) →
    ∃ instrs : List Instr, optimizeFrom M L = instrs.map Instr.text ∧
      ∀ i ∈ instrs, i.named := by
  intro L
  induction L with
  | nil => intro M _; exact ⟨[], rfl, fun i hi => by cases hi⟩
  | cons line rest ih =>
    intro M hgood
    have hrest : ∀ l ∈ rest, GoodLine l := fun l hl => hgood l (List.mem_cons_of_mem _ hl)
    have hline : GoodLine line := hgood line (List.mem_cons_self _ _)
    rw [optimizeFrom]
    cases hp : assignParts line with
    | some pr =>
      obtain ⟨lhs, rhs0⟩ := pr
      simp only
      have hb : ' ' ∉ lhs := hline.lhs_blank_free lhs rhs0 hp
      split
      · exact ih _ hrest
      · obtain ⟨instrs, heq, hnamed⟩ := ih (mapSet M lhs (substRhs M rhs0)) hrest
        refine ⟨Instr.assign lhs (substRhs M rhs0) :: instrs, ?_, ?_⟩
        · rw [heq]; rfl
        · intro i hi
          rcases List.mem_cons.mp hi with rfl | hi
          · exact hb
          · exact hnamed i hi
    | none =>
      simp only
      obtain ⟨instrs, heq, hnamed⟩ := ih M hrest
      rcases hline with ⟨lhs, rhs, rfl, hb⟩ | ⟨v, rfl, hv⟩
      · rw [assignParts_of_blank_free lhs rhs hb] at hp
        cases hp
      · refine ⟨Instr.print v :: instrs, ?_, ?_⟩
        · rw [heq]; rfl
        · intro i hi
          rcases List.mem_cons.mp hi with rfl | hi
          · exact hv
          · exact hnamed i hi

/-- The emitter on the text of one instruction with well-shaped names. -/
theorem assembleLine_text (i : Instr) (h : i.named) :
    assembleLine i.text = .ok (emitInstr i) := by
  cases i with
  | assign lhs rhs =>
    have hf : find " = ".toList (lhs ++ " = ".toList ++ rhs) = some lhs.length :=
      find_after_blank_free "= ".toList lhs rhs h
    have hd : (lhs ++ " = ".toList ++ rhs).drop (lhs.length + 3) = rhs := by
      have h3 : (lhs ++ " = ".toList).length = lhs.length + 3 := by simp
      rw [List.drop_left' h3]
    have ht : (lhs ++ " = ".toList ++ rhs).take lhs.length = lhs := by
      rw [List.append_assoc, List.take_left]
    show assembleLine (lhs ++ " = ".toList ++ rhs) = .ok (emitInstr (.assign lhs rhs))
    unfold assembleLine emitInstr
    rw [hf]
    simp only
    rw [hd, ht]
    cases find " + ".toList rhs <;> rfl
  | print name =>
    exact assembleLine_print name (assignParts_print name h)

/-- The emitter on the texts of a list of instructions: the concatenation, in
order, of the lines of each. -/
theorem generateAssembly_instrs : ∀ (instrs : List Instr), (∀ i ∈ instrs, i.named) →
    generateAssembly (instrs.map Instr.text) = .ok (instrs.flatMap emitInstr) := by
  intro instrs
  induction instrs with
  | nil => intro _; rfl
  | cons i rest ih =>
    intro h
    rw [List.map_cons, generateAssembly, assembleLine_text i (h i (List.mem_cons_self _ _)),
      ih (fun j hj => h j (List.mem_cons_of_mem _ hj))]
    rfl

/-- One instruction yields four lines when it is an addition assignment, one
line otherwise. -/
theorem emitInstr_length (i : Instr) :
    (emitInstr i).length = 1 + 3 * (if isAddition i = true then 1 else 0) := by
  cases i with
  | assign lhs rhs =>
    cases hf : find " + ".toList rhs with
    | none =>
      show (match find " + ".toList rhs with
        | some p => _
        | none => _ : List Str).length
          = 1 + 3 * (if (find " + ".toList rhs).isSome = true then 1 else 0)
      rw [hf]; rfl
    | some p =>
      show (match find " + ".toList rhs with
        | some p => _
        | none => _ : List Str).length
          = 1 + 3 * (if (find " + ".toList rhs).isSome = true then 1 else 0)
      rw [hf]; rfl
  | print name => rfl

/-- The number of lines emitted for a list of instructions. -/
theorem emit_length : ∀ (instrs : List Instr),
    (instrs.flatMap emitInstr).length = instrs.length + 3 * (instrs.filter isAddition).length := by
  intro instrs
  induction instrs with
  | nil => rfl
  | cons i rest ih =>
    rw [List.flatMap_cons, List.length_append, ih, emitInstr_length, List.filter_cons,
      List.length_cons]
    split
    · rw [List.length_cons]; omega
    · omega

/-! ## Emitter: the claim -/

/-- Claim C15 (emitter mapping). For a program on which `parse` returns `true`,
the optimized code is the list of texts of instructions `lhs = rhs` (with a
blank-free `lhs`) and `print name`, and the assembly is the concatenation, in
order, of the lines of each instruction: the four-line add pattern split at the
first ` + ` of `rhs`, one `mov lhs, rhs` for any other assignment, `print name`
unchanged. The number of assembly lines is the number of instructions plus
three times the number of addition assignments. -/
theorem C15_emitter_mapping (code : Str) (st : State)
    (h : parse (tokenize code) State.init = .ok st) :
    ∃ instrs : List Instr,
      optimizeCode st.intermediateCode = instrs.map Instr.text ∧
      (∀ i ∈ instrs, i.named) ∧
      generateAssembly (optimizeCode st.intermediateCode) = .ok (instrs.flatMap emitInstr) ∧
      (instrs.flatMap emitInstr).length
        = instrs.length + 3 * (instrs.filter isAddition).length := by
  have hgood := parse_good_lines (tokenize code) (tokenize_lexed code)
  rw [h] at hgood
  obtain ⟨instrs, heq, hnamed⟩ := optimizeFrom_instrs st.intermediateCode [] hgood
  rw [optimizeCode_eq]
  refine ⟨instrs, heq, hnamed, ?_, emit_length instrs⟩
  rw [heq]
  exact generateAssembly_instrs instrs hnamed

theorem C15_emitter_mapping_witness :
    parse (tokenize "let x = 1 let y = x + 2 print y".toList) State.init
      = .ok { index := 12, symbolTable := ["y".toList, "x".toList],
              intermediateCode := ["x = 1".toList, "t1 = x + 2".toList, "y = t1".toList,
                "print y".toList],
              tempCount := 2,
              valueMap := [("y".toList, "t1".toList), ("x".toList, "1".toList)],
              tempMap := [("t1".toList, "x + 2".toList)] } ∧
    ∃ instrs : List Instr,
      optimizeCode ["x = 1".toList, "t1 = x + 2".toList, "y = t1".toList, "print y".toList]
        = instrs.map Instr.text ∧
      (∀ i ∈ instrs, i.named) ∧
      generateAssembly (optimizeCode ["x = 1".toList, "t1 = x + 2".toList, "y = t1".toList,
        "print y".toList]) = .ok (instrs.flatMap emitInstr) ∧
      (instrs.flatMap emitInstr).length
        = instrs.length + 3 * (instrs.filter isAddition).length :=
  ⟨by decide,
   C15_emitter_mapping "let x = 1 let y = x + 2 print y".toList
     { index := 12, symbolTable := ["y".toList, "x".toList],
       intermediateCode := ["x = 1".toList, "t1 = x + 2".toList, "y = t1".toList,
         "print y".toList],
       tempCount := 2,
       valueMap := [("y".toList, "t1".toList), ("x".toList, "1".toList)],
       tempMap := [("t1".toList, "x + 2".toList)] } (by decide)⟩

/-! ## Expression builder: an induction principle -/

/-- Induction over the runs of the expression builder. A relation `R` between
the globals before and after, and a property `Q` of the text a run returns,
hold of every successful run from a state satisfying `I`, once they hold of
the moves the builder is made of: a cursor increment, an Identifier or Number
token taken as operand, the empty text, and one iteration of the loop (operator
token, right operand, `combine`). -/
theorem builder_induction (tokens : List Token) (I : State → Prop) (Q : Str → State → Prop)
    (R : State → State → Prop)
    (hrefl : ∀ st, R st st)
    (htrans : ∀ a b c, R a b → R b c → R a c)
    (hbump : ∀ st, R st { st with index := st.index + 1 })
    (hI : ∀ a b, R a b → I a → I b)
    (hQ : ∀ s a b, R a b → Q s a → Q s b)
    (hempty : ∀ st, Q [] st)
    (htok : ∀ st tok, tokens[st.index]? = some tok →
      tok.type = .IDENTIFIER ∨ tok.type = .NUMBER → Q tok.value st)
    (hloop : ∀ st tok result right st1 r st2, I st → tokens[st.index]? = some tok →
      tok.type = .OPERATOR → Q result st → R { st with index := st.index + 1 } st1 →
      Q right st1 → combine tok.value result right st1 = .ok (r, st2) →
      R st st2 ∧ Q r st2) :
    ∀ (fuel : Nat),
    (∀ st r st1, I st → generateExpressionCode fuel tokens st = .ok (r, st1) →
      R st st1 ∧ Q r st1) ∧
    (∀ result st r st1, I st → Q result st → exprLoop fuel tokens result st = .ok (r, st1) →
      R st st1 ∧ Q r st1) := by
  intro fuel
  induction fuel with
  | zero =>
    constructor
    · intro st r st1 _ h; rw [generateExpressionCode] at h; cases h
    · intro result st r st1 _ _ h; rw [exprLoop] at h; cases h
  | succ fuel ih =>
    obtain ⟨ihg, ihl⟩ := ih
    constructor
    · intro st r st1 hi h
      rw [generateExpressionCode] at h
      split at h
      · cases hrec : generateExpressionCode fuel tokens { st with index := st.index + 1 } with
        | error f => rw [hrec] at h; cases h
        | ok p =>
          obtain ⟨result, st2⟩ := p
          rw [hrec] at h
          simp only at h
          have hb := hbump st
          obtain ⟨r1, q1⟩ := ihg _ _ _ (hI _ _ hb hi) hrec
          have hb2 := hbump st2
          have r2 := htrans _ _ _ (htrans _ _ _ hb r1) hb2
          obtain ⟨r3, q3⟩ := ihl _ _ _ _ (hI _ _ r2 hi) (hQ _ _ _ hb2 q1) h
          exact ⟨htrans _ _ _ r2 r3, q3⟩
      · cases ht : tokens[st.index]? with
        | none => rw [ht] at h; cases h
        | some tok =>
          rw [ht] at h
          simp only at h
          split at h
          · rename_i hty
            have hb := hbump st
            obtain ⟨r3, q3⟩ := ihl _ _ _ _ (hI _ _ hb hi) (hQ _ _ _ hb (htok st tok ht hty)) h
            exact ⟨htrans _ _ _ hb r3, q3⟩
          · exact ihl _ _ _ _ hi (hempty st) h
    · intro result st r st1 hi hq h
      rw [exprLoop] at h
      cases ht : tokens[st.index]? with
      | none =>
        rw [ht] at h
        simp only [Except.ok.injEq, Prod.mk.injEq] at h
        rw [← h.1, ← h.2]; exact ⟨hrefl st, hq⟩
      | some tok =>
        rw [ht] at h
        simp only at h
        split at h
        · rename_i hty
          cases hrec : generateExpressionCode fuel tokens { st with index := st.index + 1 } with
          | error f => rw [hrec] at h; cases h
          | ok p =>
            obtain ⟨right, st2⟩ := p
            rw [hrec] at h
            simp only at h
            cases hc : combine tok.value result right st2 with
            | error f => rw [hc] at h; cases h
            | ok q =>
              obtain ⟨result1, st3⟩ := q
              rw [hc] at h
              simp only at h
              obtain ⟨r1, q1⟩ := ihg _ _ _ (hI _ _ (hbump st) hi) hrec
              obtain ⟨r2, q2⟩ := hloop st tok result right st2 result1 st3 hi ht hty hq r1 q1 hc
              obtain ⟨r3, q3⟩ := ihl _ _ _ _ (hI _ _ r2 hi) q2 h
              exact ⟨htrans _ _ _ r2 r3, q3⟩
        · simp only [Except.ok.injEq, Prod.mk.injEq] at h
          rw [← h.1, ← h.2]; exact ⟨hrefl st, hq⟩

/-! ## Numbering of temporaries -/

/-- The two ways `combine` succeeds: it folds two numerals, leaving the
globals as they are, or it takes the next temporary, appends its instruction
and records it in `tempMap`. -/
theorem combine_cases (op result right : Str) (st : State) (r : Str) (st1 : State)
    (h : combine op result right st = .ok (r, st1)) :
    (st1 = st ∧ ∃ v : Int, r = to_string v) ∨
    (r = tempName st.tempCount ∧
     st1 = { st with
       tempCount := st.tempCount + 1,
       intermediateCode := st.intermediateCode ++
         [tempName st.tempCount ++ " = ".toList ++
           (result ++ " ".toList ++ op ++ " ".toList ++ right)],
       tempMap := (tempName st.tempCount,
         result ++ " ".toList ++ op ++ " ".toList ++ right) :: st.tempMap }) := by
  unfold combine at h
  split at h
  · cases h1 : stoi result with
    | error f => rw [h1] at h; cases h
    | ok a =>
      rw [h1] at h
      simp only at h
      cases h2 : stoi right with
      | error f => rw [h2] at h; cases h
      | ok b =>
        rw [h2] at h
        simp only at h
        cases h3 : foldArith op a b with
        | error f => rw [h3] at h; cases h
        | ok v =>
          rw [h3] at h
          simp only [Except.ok.injEq, Prod.mk.injEq] at h
          exact Or.inl ⟨h.2.symm, v, h.1.symm⟩
  · simp only [Except.ok.injEq, Prod.mk.injEq] at h
    exact Or.inr ⟨h.1.symm, h.2.symm⟩

theorem tempNames_succ (n : Nat) : tempNames (n + 1) = tempNames n ++ [tempName (n + 1)] := by
  unfold tempNames
  rw [List.range_succ, List.map_append]
  rfl

/-- The numbering invariant survives `combine`. -/
theorem combine_numbered (op result right : Str) (st : State) (r : Str) (st1 : State)
    (h : combine op result right st = .ok (r, st1)) (hn : Numbered st) : Numbered st1 := by
  rcases combine_cases _ _ _ _ _ _ h with ⟨rfl, _⟩ | ⟨_, rfl⟩
  · exact hn
  · obtain ⟨hc, hk, hs⟩ := hn
    refine ⟨?_, ?_, ?_⟩
    · show st.tempCount + 1 = (st.tempMap.length + 1) + 1
      rw [hc]
    · show ((tempName st.tempCount, _) :: st.tempMap).reverse.map Prod.fst
        = tempNames (st.tempMap.length + 1)
      rw [List.reverse_cons, List.map_append, hk, tempNames_succ, hc]
      rfl
    · show List.Sublist (((tempName st.tempCount, _) :: st.tempMap).reverse.map _) (_ ++ _)
      rw [List.reverse_cons, List.map_append]
      exact List.Sublist.append hs (List.Sublist.refl _)

/-- A run of the expression builder keeps the numbering invariant, and creates
no more temporaries than it leaves tokens behind. -/
theorem builder_numbered (tokens : List Token) (fuel : Nat) (st : State) (r : Str)
    (st1 : State) (h : generateExpressionCode fuel tokens st = .ok (r, st1)) :
    (Numbered st → Numbered st1) ∧
    st1.tempCount + (tokens.length - st1.index) ≤ st.tempCount + (tokens.length - st.index) := by
  have key := (builder_induction tokens (fun _ => True) (fun _ _ => True)
    (fun a b => (Numbered a → Numbered b) ∧
      b.tempCount + (tokens.length - b.index) ≤ a.tempCount + (tokens.length - a.index))
    (fun st => ⟨id, Nat.le_refl _⟩)
    (fun a b c h1 h2 => ⟨fun hn => h2.1 (h1.1 hn), Nat.le_trans h2.2 h1.2⟩)
    (fun st => ⟨id, by simp only; omega⟩)
    (fun _ _ _ _ => trivial)
    (fun _ _ _ _ _ => trivial)
    (fun _ => trivial)
    (fun _ _ _ _ => trivial)
    (by
      intro st tok result right st1 r st2 _ ht _ _ hr _ hc
      have hlt := lt_length_of_getElem? _ _ _ ht
      refine ⟨⟨fun hn => combine_numbered _ _ _ _ _ _ hc (hr.1 hn), ?_⟩, trivial⟩
      have h2 := hr.2
      simp only at h2
      rcases combine_cases _ _ _ _ _ _ hc with ⟨rfl, _⟩ | ⟨_, rfl⟩
      · omega
      · simp only
        omega) fuel).1 st r st1 trivial h
  exact key.1

/-- Every iteration of the statement loop keeps the numbering invariant and
the bound of the counter by the tokens consumed. -/
theorem parseStatement_numbered (tokens : List Token) (st : State)
    (h : Numbered st ∧ st.tempCount + (tokens.length - st.index) ≤ tokens.length + 1) :
    (parseStatement tokens st).holds (fun st1 =>
      Numbered st1 ∧ st1.tempCount + (tokens.length - st1.index) ≤ tokens.length + 1) := by
  obtain ⟨hn, hm⟩ := h
  cases hps : parseStatement tokens st with
  | crashed f => trivial
  | failed e st1 =>
    obtain ⟨h1, h2, h3, _, h5, _⟩ := parseStatement_failed tokens st st1 e hps
    refine ⟨?_, ?_⟩
    · unfold Numbered builderLines at hn ⊢
      rw [h1, h2, h3]
      exact hn
    · show st1.tempCount + (tokens.length - st1.index) ≤ tokens.length + 1
      rw [h2]
      omega
  | ok st1 =>
    obtain ⟨hlt, hcase⟩ := parseStatement_ok_cases tokens st st1 hps
    rcases hcase with ⟨v, result, st2, _, _, hgen, rfl⟩ | ⟨v, _, _, _, rfl⟩ | ⟨kw, _, _, _, rfl⟩
    · obtain ⟨hb1, hb2⟩ := builder_numbered tokens _ _ _ _ hgen
      obtain ⟨hc, hk, hs⟩ := hb1 hn
      refine ⟨⟨hc, hk, ?_⟩, ?_⟩
      · exact List.Sublist.trans hs (List.sublist_append_left _ _)
      · simp only at hb2 ⊢
        omega
    · obtain ⟨hc, hk, hs⟩ := hn
      refine ⟨⟨hc, hk, ?_⟩, ?_⟩
      · exact List.Sublist.trans hs (List.sublist_append_left _ _)
      · simp only
        omega
    · refine ⟨hn, ?_⟩
      simp only
      omega

/-- The numbering invariant, read as a statement about the builder's lines. -/
theorem numbered_final (tokens : List Token) (st : State)
    (h : Numbered st ∧ st.tempCount + (tokens.length - st.index) ≤ tokens.length + 1) :
    ∃ n, n ≤ tokens.length ∧
      (builderLines st).length = n ∧
      (builderLines st).map lhsOf = (tempNames n).map some ∧
      st.tempMap.reverse.map Prod.fst = tempNames n ∧
      List.Sublist (builderLines st) st.intermediateCode ∧
      st.tempCount = n + 1 := by
  obtain ⟨⟨hc, hk, hs⟩, hm⟩ := h
  refine ⟨st.tempMap.length, by omega, by simp [builderLines], ?_, hk, hs, hc⟩
  rw [← hk]
  unfold builderLines
  rw [List.map_map, List.map_map]
  apply List.map_congr_left
  intro p hp
  have hmem : p.1 ∈ tempNames st.tempMap.length := by
    rw [← hk]
    exact List.mem_map_of_mem Prod.fst hp
  unfold tempNames at hmem
  obtain ⟨i, _, hi⟩ := List.mem_map.mp hmem
  show lhsOf (p.1 ++ " = ".toList ++ p.2) = some p.1
  unfold lhsOf
  rw [assignParts_of_blank_free p.1 p.2 (by rw [← hi]; exact tempName_blank_free _)]
  rfl

/-! ## Numbering of temporaries: the claim -/

/-- Claim C17 (temporary numbering). For every token sequence, when `parse`
run from the initial state (counter 1, empty code) returns, `true` or `false`,
with `n` instructions appended by the expression builder (`builderLines`),
their left-hand sides are `t1`, `t2`, ..., `tn` in this order, they appear in
this order in the intermediate code, and the counter equals `n + 1`; `n` is at
most the number of tokens, so the `int` counter of the source cannot wrap. -/
theorem C17_temporary_numbering (tokens : List Token) :
    (parse tokens State.init).holds (fun st =>
      ∃ n, n ≤ tokens.length ∧
        (builderLines st).length = n ∧
        (builderLines st).map lhsOf = (tempNames n).map some ∧
        st.tempMap.reverse.map Prod.fst = tempNames n ∧
        List.Sublist (builderLines st) st.intermediateCode ∧
        st.tempCount = n + 1) := by
  have key : (parse tokens State.init).holds (fun st1 =>
      Numbered st1 ∧ st1.tempCount + (tokens.length - st1.index) ≤ tokens.length + 1) := by
    unfold parse
    apply parseLoop_holds tokens _ (parseStatement_numbered tokens)
    refine ⟨⟨rfl, rfl, ?_⟩, ?_⟩
    · exact List.Sublist.refl _
    · show 1 + (tokens.length - 0) ≤ tokens.length + 1
      omega
  cases hp : parse tokens State.init with
  | crashed f => trivial
  | ok st =>
    rw [hp] at key
    exact numbered_final tokens st key
  | failed e st =>
    rw [hp] at key
    exact numbered_final tokens st key

/-! ## Shape of the intermediate code -/

theorem IsOperand.mono {tokens : List Token} {c c1 : Nat} {s : Str}
    (h : IsOperand tokens c s) (hc : c ≤ c1) : IsOperand tokens c1 s := by
  rcases h with h | h | h | ⟨k, h1, h2, h3⟩
  · exact Or.inl h
  · exact Or.inr (Or.inl h)
  · exact Or.inr (Or.inr (Or.inl h))
  · exact Or.inr (Or.inr (Or.inr ⟨k, h1, Nat.lt_of_lt_of_le h2 hc, h3⟩))

theorem WellFormedLine.weaken {tokens : List Token} {table table1 : List Str} {c c1 : Nat}
    {line : Str} (h : WellFormedLine tokens table c line) (ht : ∀ v ∈ table, v ∈ table1)
    (hc : c ≤ c1) : WellFormedLine tokens table1 c1 line := by
  rcases h with ⟨name, r, h1, h2, h3⟩ | ⟨k, l, op, r, h1, h2, h3, h4, h5, h6⟩ | ⟨name, h1, h2⟩
  · exact Or.inl ⟨name, r, ht _ h1, h2.mono hc, h3⟩
  · exact Or.inr (Or.inl ⟨k, l, op, r, h1, Nat.lt_of_lt_of_le h2 hc, h3.mono hc, h4.mono hc,
      h5, h6⟩)
  · exact Or.inr (Or.inr ⟨name, ht _ h1, h2⟩)

theorem mem_setInsert_self (table : List Str) (v : Str) : v ∈ setInsert table v := by
  unfold setInsert
  split
  · assumption
  · exact List.mem_cons_self _ _

theorem mem_setInsert_of_mem (table : List Str) (v w : Str) (h : w ∈ table) :
    w ∈ setInsert table v := by
  unfold setInsert
  split
  · exact h
  · exact List.mem_cons_of_mem _ h

/-- A run of the expression builder from globals with well-formed code leaves
well-formed code, does not touch the symbol table, and returns an operand. -/
theorem builder_well_formed (tokens : List Token) (fuel : Nat) (st : State) (r : Str)
    (st1 : State) (h : generateExpressionCode fuel tokens st = .ok (r, st1))
    (hi : 1 ≤ st.tempCount) :
    (st.tempCount ≤ st1.tempCount ∧ st1.symbolTable = st.symbolTable ∧
      (WellFormedCode tokens st → WellFormedCode tokens st1)) ∧
    IsOperand tokens st1.tempCount r := by
  refine (builder_induction tokens (fun st => 1 ≤ st.tempCount)
    (fun s st => IsOperand tokens st.tempCount s)
    (fun a b => a.tempCount ≤ b.tempCount ∧ b.symbolTable = a.symbolTable ∧
      (WellFormedCode tokens a → WellFormedCode tokens b))
    (fun st => ⟨Nat.le_refl _, rfl, id⟩)
    (fun a b c h1 h2 => ⟨Nat.le_trans h1.1 h2.1, h2.2.1.trans h1.2.1,
      fun hw => h2.2.2 (h1.2.2 hw)⟩)
    (fun st => ⟨Nat.le_refl _, rfl, id⟩)
    (fun a b hr ha => Nat.le_trans ha hr.1)
    (fun s a b hr hq => hq.mono hr.1)
    (fun st => Or.inl rfl)
    (fun st tok ht hty => Or.inr (Or.inl ⟨tok, List.getElem?_mem ht, hty, rfl⟩))
    ?_ fuel).1 st r st1 hi h
  intro st tok result right st1 r st2 hi ht hty hq hr hqr hc
  obtain ⟨hr1, hr2, hr3⟩ := hr
  simp only at hr1 hr2
  rcases combine_cases _ _ _ _ _ _ hc with ⟨rfl, v, rfl⟩ | ⟨rfl, rfl⟩
  · exact ⟨⟨hr1, hr2, hr3⟩, Or.inr (Or.inr (Or.inl ⟨v, rfl⟩))⟩
  · have h1 : 1 ≤ st1.tempCount := Nat.le_trans hi hr1
    refine ⟨⟨Nat.le_succ_of_le hr1, hr2, ?_⟩,
      Or.inr (Or.inr (Or.inr ⟨st1.tempCount, h1, Nat.lt_succ_self _, rfl⟩))⟩
    intro hw
    obtain ⟨_, hlines⟩ := hr3 hw
    refine ⟨Nat.le_succ_of_le h1, ?_⟩
    intro line hl
    show WellFormedLine tokens st1.symbolTable (st1.tempCount + 1) line
    rcases List.mem_append.mp hl with hl | hl
    · exact (hlines line hl).weaken (fun _ hv => hv) (Nat.le_succ _)
    · rw [List.mem_singleton.mp hl]
      exact Or.inr (Or.inl ⟨st1.tempCount, result, tok.value, right, h1, Nat.lt_succ_self _,
        hq.mono (Nat.le_succ_of_le hr1), hqr.mono (Nat.le_succ _),
        ⟨tok, List.getElem?_mem ht, hty, rfl⟩, rfl⟩)

/-- Every iteration of the statement loop keeps the intermediate code well
formed. -/
theorem parseStatement_well_formed (tokens : List Token) (st : State)
    (hw : WellFormedCode tokens st) :
    (parseStatement tokens st).holds (WellFormedCode tokens) := by
  cases hps : parseStatement tokens st with
  | crashed f => trivial
  | failed e st1 =>
    obtain ⟨h1, h2, _, _, _, h6⟩ := parseStatement_failed tokens st st1 e hps
    refine ⟨?_, ?_⟩
    · rw [h2]; exact hw.1
    · intro line hl
      rw [h1] at hl
      rw [h2]
      exact (hw.2 line hl).weaken h6 (Nat.le_refl _)
  | ok st1 =>
    obtain ⟨hlt, hcase⟩ := parseStatement_ok_cases tokens st st1 hps
    rcases hcase with ⟨v, result, st2, _, _, hgen, rfl⟩ | ⟨v, _, _, hmem, rfl⟩ | ⟨kw, _, _, _, rfl⟩
    · obtain ⟨⟨_, htab, hcode⟩, hop⟩ := builder_well_formed tokens _ _ _ _ hgen hw.1
      have hstart : WellFormedCode tokens
          { st with symbolTable := setInsert st.symbolTable v,
                    index := st.index + 1 + 1 + 1 } :=
        ⟨hw.1, fun line hl => (hw.2 line hl).weaken (mem_setInsert_of_mem _ v) (Nat.le_refl _)⟩
      obtain ⟨hc, hlines⟩ := hcode hstart
      refine ⟨hc, ?_⟩
      intro line hl
      show WellFormedLine tokens st2.symbolTable st2.tempCount line
      rcases List.mem_append.mp hl with hl | hl
      · exact hlines line hl
      · rw [List.mem_singleton.mp hl]
        refine Or.inl ⟨v, result, ?_, hop, rfl⟩
        rw [htab]
        exact mem_setInsert_self _ v
    · refine ⟨hw.1, ?_⟩
      intro line hl
      show WellFormedLine tokens st.symbolTable st.tempCount line
      rcases List.mem_append.mp hl with hl | hl
      · exact hw.2 line hl
      · rw [List.mem_singleton.mp hl]
        exact Or.inr (Or.inr ⟨v, hmem, rfl⟩)
    · exact hw

/-! ## Shape of the intermediate code: the claim -/

/-- Claim C16, counterexample. On `let y = x` the parse returns `true` with the
single instruction `y = x`, whose operand `x` is not in the symbol table, is
no numeral and has not the form of a temporary; on `let x = 2 - 5` it returns
`true` with `x = -3`, whose operand is not made of digits only. -/
theorem C16_counterexample_undeclared_operand :
    parse (tokenize "let y = x".toList) State.init
      = .ok { index := 4, symbolTable := ["y".toList], intermediateCode := ["y = x".toList],
              tempCount := 1, valueMap := [("y".toList, "x".toList)], tempMap := [] } ∧
    "x".toList ∉ ["y".toList] ∧ isdigit (charAt "x".toList 0) = false ∧
    isTempName "x".toList = false ∧
    parse (tokenize "let x = 2 - 5".toList) State.init
      = .ok { index := 6, symbolTable := ["x".toList], intermediateCode := ["x = -3".toList],
              tempCount := 1, valueMap := [("x".toList, "-3".toList)], tempMap := [] } ∧
    "-3".toList ∉ ["x".toList] ∧ "-3".toList.all isdigit = false ∧
    isTempName "-3".toList = false := by
  decide

/-- Claim C16, amended. For every token sequence on which `parse` returns
`true`, every instruction of the intermediate code is `name = operand` or
`print name` with `name` in the symbol table, or `t<k> = operand OP operand`
with `t<k>` a temporary generated by the builder and `OP` the text of an
Operator token; every operand is the text of an Identifier or Number token of
the input (declared or not), the decimal form of an integer (negative when a
fold gives a negative value), a temporary generated by the builder, or empty. -/
theorem C16_well_formed_code (tokens : List Token) (st : State) (line : Str)
    (h : parse tokens State.init = .ok st) (hl : line ∈ st.intermediateCode) :
    WellFormedLine tokens st.symbolTable st.tempCount line := by
  have key : (parse tokens State.init).holds (WellFormedCode tokens) := by
    unfold parse
    apply parseLoop_holds tokens _ (parseStatement_well_formed tokens)
    exact ⟨Nat.le_refl _, fun line hl => by cases hl⟩
  rw [h] at key
  exact key.2 line hl

theorem C16_well_formed_code_witness :
    parse (tokenize "let y = x".toList) State.init
      = .ok { index := 4, symbolTable := ["y".toList], intermediateCode := ["y = x".toList],
              tempCount := 1, valueMap := [("y".toList, "x".toList)], tempMap := [] } ∧
    "y = x".toList ∈ ["y = x".toList] ∧
    WellFormedLine (tokenize "let y = x".toList) ["y".toList] 1 "y = x".toList :=
  ⟨by decide, by decide,
   C16_well_formed_code (tokenize "let y = x".toList)
     { index := 4, symbolTable := ["y".toList], intermediateCode := ["y = x".toList],
       tempCount := 1, valueMap := [("y".toList, "x".toList)], tempMap := [] }
     "y = x".toList (by decide) (by decide)⟩

/-! ## Termination -/

/-- An iteration of the statement loop that does not return moves the cursor
forward. -/
theorem parseStatement_index (tokens : List Token) (st st1 : State)
    (h : parseStatement tokens st = .ok st1) : st.index < st1.index := by
  obtain ⟨_, hcase⟩ := parseStatement_ok_cases tokens st st1 h
  rcases hcase with ⟨v, result, st2, _, _, hgen, rfl⟩ | ⟨v, _, _, _, rfl⟩ | ⟨kw, _, _, _, rfl⟩
  · have hle := ((builder_step tokens _).1 _ _ _ hgen).index_le
    simp only at hle ⊢
    omega
  · simp only
    omega
  · exact Nat.lt_succ_self _

/-- A fault of an iteration of the statement loop is never a lack of budget. -/
theorem parseStatement_ne_fuel (tokens : List Token) (st : State) :
    parseStatement tokens st ≠ .crashed .fuelExhausted := by
  intro h
  unfold parseStatement at h
  cases ht : tokens[st.index]? with
  | none => rw [ht] at h; cases h
  | some tok =>
    rw [ht] at h
    simp only at h
    split at h
    · split at h
      · unfold parseLet at h
        simp only at h
        cases hn : tokens[st.index + 1]? with
        | none => rw [hn] at h; cases h
        | some nameTok =>
          rw [hn] at h
          simp only at h
          split at h
          · cases he : tokens[st.index + 1 + 1]? with
            | none => rw [he] at h; cases h
            | some eqTok =>
              rw [he] at h
              simp only at h
              split at h
              · split at h
                · rename_i f hgen
                  simp only [Outcome.crashed.injEq] at h
                  rw [h] at hgen
                  exact generateExpressionCode_parse_fuel tokens _ hgen
                · cases h
              · cases h
          · cases h
      · split at h
        · unfold parsePrint at h
          simp only at h
          cases hn : tokens[st.index + 1]? with
          | none => rw [hn] at h; cases h
          | some nameTok =>
            rw [hn] at h
            simp only at h
            split at h
            · split at h <;> cases h
            · cases h
        · split at h <;> cases h
    · cases h

/-- The statement loop never stops for lack of budget when the budget covers
the tokens from the cursor on. -/
theorem parseLoop_ne_fuel (tokens : List Token) : ∀ (fuel : Nat) (st : State),
    tokens.length ≤ st.index + fuel → parseLoop fuel tokens st ≠ .crashed .fuelExhausted := by
  intro fuel
  induction fuel with
  | zero =>
    intro st hb
    rw [parseLoop, if_neg (by omega)]
    simp
  | succ fuel ih =>
    intro st hb
    rw [parseLoop]
    split
    · cases hps : parseStatement tokens st with
      | ok st1 =>
        have hlt := parseStatement_index tokens st st1 hps
        exact ih st1 (by omega)
      | failed e st1 => simp
      | crashed f =>
        intro h
        simp only [Outcome.crashed.injEq] at h
        rw [h] at hps
        exact parseStatement_ne_fuel tokens st hps
    · simp

/-- A strictly increasing list of positions, all after `a` and at most `b`, has
at most `b - a` members. -/
theorem length_le_of_increasing : ∀ (l : List Nat) (a b : Nat),
    List.Pairwise (fun x y => x < y) l → (∀ c ∈ l, a < c ∧ c ≤ b) → l.length ≤ b - a := by
  intro l
  induction l with
  | nil => intro a b _ _; exact Nat.zero_le _
  | cons x xs ih =>
    intro a b hp hin
    rw [List.pairwise_cons] at hp
    have hx := hin x (List.mem_cons_self _ _)
    have hxs := ih x b hp.2 (fun c hc =>
      ⟨hp.1 c hc, (hin c (List.mem_cons_of_mem _ hc)).2⟩)
    rw [List.length_cons]
    omega

/-- The index is left as it is by `combine`. -/
theorem combine_index (op result right : Str) (st : State) (r : Str) (st1 : State)
    (h : combine op result right st = .ok (r, st1)) : st1.index = st.index := by
  rcases combine_cases _ _ _ _ _ _ h with ⟨rfl, _⟩ | ⟨_, rfl⟩ <;> rfl

/-- Positions of calls put together: a call entered at `i + 1`, the calls `xs`
it makes (all after `i + 1` and up to `m`), then the calls `ys` made after it
has returned (all after `m`). -/
theorem cursors_glue (i m len : Nat) (xs ys : List Nat) (hi : i < len) (hm : i + 1 ≤ m)
    (hx : List.Pairwise (fun x y => x < y) xs) (hxin : ∀ c ∈ xs, i + 1 < c ∧ c ≤ len)
    (hxm : ∀ c ∈ xs, c ≤ m)
    (hy : List.Pairwise (fun x y => x < y) ys) (hyin : ∀ c ∈ ys, m < c ∧ c ≤ len) :
    List.Pairwise (fun x y => x < y) ((i + 1) :: (xs ++ ys)) ∧
    ∀ c ∈ (i + 1) :: (xs ++ ys), i < c ∧ c ≤ len := by
  have hall : ∀ c ∈ xs ++ ys, i + 1 < c ∧ c ≤ len := by
    intro c hc
    rcases List.mem_append.mp hc with hc | hc
    · exact hxin c hc
    · have := hyin c hc
      omega
  constructor
  · rw [List.pairwise_cons]
    refine ⟨fun c hc => (hall c hc).1, ?_⟩
    rw [List.pairwise_append]
    refine ⟨hx, hy, ?_⟩
    intro a ha b hb
    have h1 := hxm a ha
    have h2 := hyin b hb
    omega
  · intro c hc
    rcases List.mem_cons.mp hc with rfl | hc
    · omega
    · have := hall c hc
      omega

/-- The recursive calls of the expression builder are entered at strictly
increasing cursor positions, all after the position at which the outermost
call started and none past the end of the tokens; when the outermost call
returns, none is past the final cursor. -/
theorem callCursors_spec (tokens : List Token) : ∀ (fuel : Nat),
    (∀ st, List.Pairwise (fun x y => x < y) (callCursors fuel tokens st) ∧
      (∀ c ∈ callCursors fuel tokens st, st.index < c ∧ c ≤ tokens.length) ∧
      (∀ r st1, generateExpressionCode fuel tokens st = .ok (r, st1) →
        ∀ c ∈ callCursors fuel tokens st, c ≤ st1.index)) ∧
    (∀ result st, List.Pairwise (fun x y => x < y) (loopCursors fuel tokens result st) ∧
      (∀ c ∈ loopCursors fuel tokens result st, st.index < c ∧ c ≤ tokens.length) ∧
      (∀ r st1, exprLoop fuel tokens result st = .ok (r, st1) →
        ∀ c ∈ loopCursors fuel tokens result st, c ≤ st1.index)) := by
  intro fuel
  induction fuel with
  | zero =>
    constructor
    · intro st
      rw [callCursors]
      exact ⟨List.Pairwise.nil, fun c hc => (by cases hc), fun _ _ _ c hc => (by cases hc)⟩
    · intro result st
      rw [loopCursors]
      exact ⟨List.Pairwise.nil, fun c hc => (by cases hc), fun _ _ _ c hc => (by cases hc)⟩
  | succ fuel ih =>
    obtain ⟨ihg, ihl⟩ := ih
    constructor
    · intro st
      rw [callCursors]
      by_cases hparen : st.index < tokens.length ∧
          (tokens[st.index]?.map Token.value) = some "(".toList
      · rw [if_pos hparen]
        obtain ⟨hx, hxin, hxm⟩ := ihg { st with index := st.index + 1 }
        cases hrec : generateExpressionCode fuel tokens { st with index := st.index + 1 } with
        | error f =>
          simp only
          have hg := cursors_glue st.index tokens.length tokens.length _ []
            hparen.1 hparen.1 hx hxin (fun c hc => (hxin c hc).2) List.Pairwise.nil
            (fun c hc => by cases hc)
          refine ⟨hg.1, hg.2, ?_⟩
          intro r st1 h
          rw [generateExpressionCode, if_pos hparen, hrec] at h
          cases h
        | ok p =>
          obtain ⟨result, st1⟩ := p
          simp only
          have hidx := ((builder_step tokens fuel).1 _ _ _ hrec).index_le
          simp only at hidx
          obtain ⟨hy, hyin, hym⟩ := ihl result { st1 with index := st1.index + 1 }
          have hg := cursors_glue st.index st1.index tokens.length _ _
            hparen.1 hidx hx hxin (hxm _ _ hrec) hy
            (fun c hc => ⟨by have := (hyin c hc).1; simp only at this; omega, (hyin c hc).2⟩)
          refine ⟨hg.1, hg.2, ?_⟩
          intro r st2 h
          rw [generateExpressionCode, if_pos hparen, hrec] at h
          simp only at h
          have hfin := ((builder_step tokens fuel).2 _ _ _ _ h).index_le
          simp only at hfin
          intro c hc
          rcases List.mem_cons.mp hc with rfl | hc
          · omega
          · rcases List.mem_append.mp hc with hc | hc
            · have := hxm _ _ hrec c hc
              omega
            · exact hym _ _ h c hc
      · rw [if_neg hparen]
        cases ht : tokens[st.index]? with
        | none =>
          simp only
          exact ⟨List.Pairwise.nil, fun c hc => (by cases hc), fun _ _ _ c hc => (by cases hc)⟩
        | some tok =>
          simp only
          by_cases hty : tok.type = .IDENTIFIER ∨ tok.type = .NUMBER
          · rw [if_pos hty]
            obtain ⟨hy, hyin, hym⟩ := ihl tok.value { st with index := st.index + 1 }
            refine ⟨hy, ?_, ?_⟩
            · intro c hc
              have := hyin c hc
              simp only at this
              omega
            · intro r st1 h
              rw [generateExpressionCode, if_neg hparen, ht] at h
              simp only at h
              rw [if_pos hty] at h
              exact hym _ _ h
          · rw [if_neg hty]
            obtain ⟨hy, hyin, hym⟩ := ihl [] st
            refine ⟨hy, hyin, ?_⟩
            intro r st1 h
            rw [generateExpressionCode, if_neg hparen, ht] at h
            simp only at h
            rw [if_neg hty] at h
            exact hym _ _ h
    · intro result st
      rw [loopCursors]
      cases ht : tokens[st.index]? with
      | none =>
        simp only
        exact ⟨List.Pairwise.nil, fun c hc => (by cases hc), fun _ _ _ c hc => (by cases hc)⟩
      | some tok =>
        have hlt := lt_length_of_getElem? _ _ _ ht
        simp only
        by_cases hty : tok.type = .OPERATOR
        · rw [if_pos hty]
          obtain ⟨hx, hxin, hxm⟩ := ihg { st with index := st.index + 1 }
          cases hrec : generateExpressionCode fuel tokens { st with index := st.index + 1 } with
          | error f =>
            simp only
            have hg := cursors_glue st.index tokens.length tokens.length _ []
              hlt hlt hx hxin (fun c hc => (hxin c hc).2) List.Pairwise.nil
              (fun c hc => by cases hc)
            refine ⟨hg.1, hg.2, ?_⟩
            intro r st1 h
            rw [exprLoop, ht] at h
            simp only at h
            rw [if_pos hty, hrec] at h
            cases h
          | ok p =>
            obtain ⟨right, st1⟩ := p
            simp only
            have hidx := ((builder_step tokens fuel).1 _ _ _ hrec).index_le
            simp only at hidx
            cases hc : combine tok.value result right st1 with
            | error f =>
              simp only
              have hg := cursors_glue st.index st1.index tokens.length _ []
                hlt hidx hx hxin (hxm _ _ hrec) List.Pairwise.nil (fun c hc => by cases hc)
              refine ⟨hg.1, hg.2, ?_⟩
              intro r st2 h
              rw [exprLoop, ht] at h
              simp only at h
              rw [if_pos hty, hrec] at h
              simp only at h
              rw [hc] at h
              cases h
            | ok q =>
              obtain ⟨result1, st2⟩ := q
              simp only
              have hci := combine_index _ _ _ _ _ _ hc
              obtain ⟨hy, hyin, hym⟩ := ihl result1 st2
              have hg := cursors_glue st.index st1.index tokens.length _ _
                hlt hidx hx hxin (hxm _ _ hrec) hy
                (fun c hc => ⟨by have := (hyin c hc).1; omega, (hyin c hc).2⟩)
              refine ⟨hg.1, hg.2, ?_⟩
              intro r st3 h
              rw [exprLoop, ht] at h
              simp only at h
              rw [if_pos hty, hrec] at h
              simp only at h
              rw [hc] at h
              simp only at h
              have hfin := ((builder_step tokens fuel).2 _ _ _ _ h).index_le
              intro c hcm
              rcases List.mem_cons.mp hcm with rfl | hcm
              · omega
              · rcases List.mem_append.mp hcm with hcm | hcm
                · have := hxm _ _ hrec c hcm
                  omega
                · exact hym _ _ h c hcm
        · rw [if_neg hty]
          exact ⟨List.Pairwise.nil, fun c hc => (by cases hc), fun _ _ _ c hc => (by cases hc)⟩

/-- One completed iteration of the loop of the expression builder: the loop
goes on from the globals `combine` leaves, with the cursor further on. -/
theorem exprLoop_iteration (tokens : List Token) (fuel : Nat) (st : State) (tok : Token)
    (result right : Str) (st1 : State) (r : Str) (st2 : State)
    (ht : tokens[st.index]? = some tok) (hty : tok.type = .OPERATOR)
    (hgen : generateExpressionCode fuel tokens { st with index := st.index + 1 }
      = .ok (right, st1))
    (hc : combine tok.value result right st1 = .ok (r, st2)) :
    exprLoop (fuel + 1) tokens result st = exprLoop fuel tokens r st2 ∧
    st.index < st2.index := by
  constructor
  · rw [exprLoop, ht]
    simp only
    rw [if_pos hty, hgen]
    simp only
    rw [hc]
  · have hidx := ((builder_step tokens fuel).1 _ _ _ hgen).index_le
    simp only at hidx
    rw [combine_index _ _ _ _ _ _ hc]
    omega

/-! ## Termination: the claim -/

/-- Claim C19 (termination). For every token sequence: (1) `parse` never runs
out of the iteration budget `tokens.size()`, nor the expression builder out of
the call budget `parse` gives it, so both terminate; (2) an iteration of the
statement loop that does not return leaves the cursor strictly further on;
(3) a keyword other than `let` and `print` (`def`, `if`, `end`) moves the
cursor by one and the loop goes on; (4) a completed iteration of the loop of
the expression builder leaves the cursor strictly further on; (5) the
recursive calls of the expression builder are entered at strictly increasing
cursor positions, each after the position at which the outermost call started
and none past the end of the tokens; (6) so their number is at most the number
of tokens after the starting position. -/
theorem C19_termination (tokens : List Token) :
    (∀ g, parse tokens g ≠ .crashed .fuelExhausted) ∧
    (∀ st, generateExpressionCode (2 * tokens.length + 1) tokens st
      ≠ .error .fuelExhausted) ∧
    (∀ st st1, parseStatement tokens st = .ok st1 → st.index < st1.index) ∧
    (∀ st kw, tokens[st.index]? = some ⟨.KEYWORD, kw⟩ → kw ≠ "let".toList →
      kw ≠ "print".toList →
      parseStatement tokens st = .ok { st with index := st.index + 1 }) ∧
    (∀ fuel st tok result right st1 r st2, tokens[st.index]? = some tok →
      tok.type = .OPERATOR →
      generateExpressionCode fuel tokens { st with index := st.index + 1 }
        = .ok (right, st1) →
      combine tok.value result right st1 = .ok (r, st2) →
      exprLoop (fuel + 1) tokens result st = exprLoop fuel tokens r st2 ∧
      st.index < st2.index) ∧
    (∀ fuel st, List.Pairwise (fun x y => x < y) (callCursors fuel tokens st) ∧
      ∀ c ∈ callCursors fuel tokens st, st.index < c ∧ c ≤ tokens.length) ∧
    (∀ fuel st, (callCursors fuel tokens st).length ≤ tokens.length - st.index) := by
  refine ⟨?_, generateExpressionCode_parse_fuel tokens, parseStatement_index tokens, ?_,
    ?_, ?_, ?_⟩
  · intro g
    unfold parse
    exact parseLoop_ne_fuel tokens _ _ (by simp only; omega)
  · intro st kw ht hl hp
    unfold parseStatement
    rw [ht]
    simp only
    rw [if_pos trivial, if_neg hl, if_neg hp]
    split <;> rfl
  · intro fuel st tok result right st1 r st2 ht hty hgen hc
    exact exprLoop_iteration tokens fuel st tok result right st1 r st2 ht hty hgen hc
  · intro fuel st
    have h := (callCursors_spec tokens fuel).1 st
    exact ⟨h.1, h.2.1⟩
  · intro fuel st
    have h := (callCursors_spec tokens fuel).1 st
    exact length_le_of_increasing _ _ _ h.1 h.2.1

theorem C19_termination_witness :
    parseStatement (tokenize "if let x = a + b * c".toList) State.init
      = .ok { State.init with index := 1 } ∧
    State.init.index < ({ State.init with index := 1 } : State).index ∧
    callCursors 19 (tokenize "if let x = a + b * c".toList) { State.init with index := 4 }
      = [6, 8] ∧
    (callCursors 19 (tokenize "if let x = a + b * c".toList)
      { State.init with index := 4 }).length
      ≤ (tokenize "if let x = a + b * c".toList).length - 4 :=
  ⟨by decide,
   (C19_termination (tokenize "if let x = a + b * c".toList)).2.2.1 State.init
     { State.init with index := 1 } (by decide),
   by decide,
   (C19_termination (tokenize "if let x = a + b * c".toList)).2.2.2.2.2.2 19
     { State.init with index := 4 }⟩

end MiniCompiler
